import Mathlib

/-!
Verification of the WebKit content-extension compiler
(`Source/WebCore/contentextensions/ContentExtensionCompiler.cpp`).

The action serializer (`serializeSelector`, `resolvePendingDisplayNoneActions`,
`serializeActions`) and the orchestration logic of `compileRuleList` are
embedded directly from the source.  Collaborators whose code is not part of
the excerpt (the URL-filter pattern parser, the NFA/DFA pipeline and the DFA
bytecode compiler) are modelled from the specification; each such definition
carries a doc comment starting with `Modelled from the spec:`.

Machine integers: the C++ code uses `unsigned` (32 bit) action locations with
`UINT_MAX` as a sentinel, and `uint64_t` action-location-and-flags words.
Locations and words are embedded as `Nat`; where 32-bit truncation matters a
`% 2^32` appears explicitly, and theorems about sentinel resolution assume the
serialized buffer stays below `UINT_MAX` bytes (the C++ `unsigned` domain).

WTF hash maps are embedded as association lists; the map iteration order of
the model is insertion order (a fixed deterministic order, which WTF leaves
unspecified; no theorem below depends on a particular order beyond the
determinism the embedding provides).

Strings are embedded through their list of characters; a character is
serialized as one 8-bit latin-1 byte when every character of the string is
below 256 (`String::is8Bit`), and as one 16-bit little-endian code unit
(truncated mod 2^16) otherwise.
-/

set_option maxHeartbeats 1000000

namespace ContentExtensions

/-- Action types of a content-extension rule (`ActionType` in
`ContentExtensionActions.h`). -/
inductive ActionType where
  | BlockLoad
  | BlockCookies
  | CSSDisplayNoneSelector
  | CSSDisplayNoneStyleSheet
  | IgnorePreviousRules
  | MakeHTTPS
  | InvalidAction
  deriving DecidableEq, Repr

/-- Modelled from the spec: the numeric value each action type is cast to when
serialized (`static_cast<SerializedActionByte>(actionType)`); the enum header
is not part of the excerpt, so the declared order supplies distinct bytes. -/
def ActionType.toByte : ActionType → Nat
  | .BlockLoad => 0
  | .BlockCookies => 1
  | .CSSDisplayNoneSelector => 2
  | .CSSDisplayNoneStyleSheet => 3
  | .IgnorePreviousRules => 4
  | .MakeHTTPS => 5
  | .InvalidAction => 6

/-- `Trigger::ConditionType`. -/
inductive ConditionType where
  | None
  | IfDomain
  | UnlessDomain
  deriving DecidableEq, Repr

/-- The matching condition of a rule (`Trigger` in `ContentExtensionRule.h`):
URL pattern, case sensitivity, resource-type flag bitmask and optional domain
conditions. -/
structure Trigger where
  urlFilter : String
  urlFilterIsCaseSensitive : Bool
  flags : Nat
  conditionType : ConditionType
  conditions : List String
  deriving DecidableEq, Repr

/-- The action of a rule: tagged type plus the string argument used by
`CSSDisplayNoneSelector`. -/
structure Action where
  type : ActionType
  stringArgument : String
  deriving DecidableEq, Repr

/-- One content-extension rule: a trigger and an action. -/
structure ContentExtensionRule where
  trigger : Trigger
  action : Action
  deriving DecidableEq, Repr

/-- `std::numeric_limits<unsigned>::max()`, the pending-action sentinel. -/
def sentinelLocation : Nat := 4294967295

/-- The four bytes of a 32-bit unsigned value, little endian (the
`reinterpret_cast<unsigned*>` write into the byte buffer on x86). -/
def bytesOfUInt32LE (n : Nat) : List Nat :=
  [n % 256, n / 256 % 256, n / 65536 % 256, n / 16777216 % 256]

/-- The serialized bytes of one selector string: 8-bit characters when the
string `is8Bit`, otherwise 16-bit little-endian code units. -/
def selectorBytes (cs : List Char) : List Nat :=
  if cs.all (fun c => c.toNat < 256) then
    cs.map (fun c => c.toNat)
  else
    (cs.map (fun c => [c.toNat % 256, c.toNat / 256 % 65536 % 256])).flatten

/-- `serializeSelector`: append the `CSSDisplayNoneSelector` type byte, the
4-byte selector length, the wide-character flag byte and the selector
characters to the action buffer. -/
def serializeSelector (actions : List Nat) (selector : String) : List Nat :=
  let cs := selector.data
  let wideCharacters : Bool := ¬ cs.all (fun c => c.toNat < 256)
  actions
    ++ [ActionType.CSSDisplayNoneSelector.toByte]
    ++ bytesOfUInt32LE cs.length
    ++ [if wideCharacters then 1 else 0]
    ++ selectorBytes cs

/-- `PendingDisplayNoneActions`: the selectors and owning rule indices of one
pending CSS-display-none group. -/
structure PendingDisplayNoneActions where
  selectors : List String
  clientLocations : List Nat
  deriving DecidableEq, Repr

/-- Association-list lookup (embedding of `HashMap::find`). -/
def alookup {α β : Type} [DecidableEq α] : List (α × β) → α → Option β
  | [], _ => none
  | p :: m, k => if p.1 = k then some p.2 else alookup m k

/-- Association-list update (embedding of `HashMap::set`: replace the value of
an existing key, else add the binding). -/
def aset {α β : Type} [DecidableEq α] : List (α × β) → α → β → List (α × β)
  | [], k, v => [(k, v)]
  | p :: m, k, v => if p.1 = k then (k, v) :: m else p :: aset m k v

/-- The mutable state of `serializeActions`: the action byte buffer, the
per-rule action locations, and the five dedup maps.  `selEntries` records, as
an instrumentation of the embedding, each `serializeSelector` call as the pair
(byte offset, selector string serialized there). -/
structure SAState where
  actions : List Nat
  actionLocations : List Nat
  selEntries : List (Nat × String)
  blockLoadActionsMap : List (Nat × Nat)
  blockCookiesActionsMap : List (Nat × Nat)
  cssDisplayNoneActionsMap : List (Trigger × PendingDisplayNoneActions)
  ignorePreviousRuleActionsMap : List (Nat × Nat)
  makeHTTPSActionsMap : List (Nat × Nat)
  deriving DecidableEq, Repr

/-- The state at the top of `serializeActions`: everything empty. -/
def initialSAState : SAState := ⟨[], [], [], [], [], [], [], []⟩

/-- Write `v` into every index of `clientLocations`
(the backfill loop of `resolvePendingDisplayNoneActions`). -/
def setAll (locs : List Nat) (clientLocations : List Nat) (v : Nat) : List Nat :=
  match clientLocations with
  | [] => locs
  | cl :: cls => setAll (locs.set cl v) cls v

/-- Resolve one pending display-none group: join its selectors with `,` in
first-seen order, serialize the combined selector at the current end of the
buffer and backfill every owning rule's action location. -/
def resolveOneGroup (s : SAState) (g : Trigger × PendingDisplayNoneActions) : SAState :=
  let combinedSelectors := String.intercalate "," g.2.selectors
  let actionLocation := s.actions.length
  { s with
    actions := serializeSelector s.actions combinedSelectors
    selEntries := s.selEntries ++ [(actionLocation, combinedSelectors)]
    actionLocations := setAll s.actionLocations g.2.clientLocations actionLocation }

/-- Resolve a list of pending groups in order. -/
def resolveGroups (s : SAState) : List (Trigger × PendingDisplayNoneActions) → SAState
  | [] => s
  | g :: gs => resolveGroups (resolveOneGroup s g) gs

/-- `resolvePendingDisplayNoneActions`: serialize every pending group and
clear the pending map. -/
def resolvePendingDisplayNoneActions (s : SAState) : SAState :=
  { resolveGroups s s.cssDisplayNoneActionsMap with cssDisplayNoneActionsMap := [] }

/-- The `findOrMakeActionLocation` lambda of `serializeActions`: look the
resource flags up in one dedup map; on a miss append a fresh one-byte entry
and record its location.  Returns the updated map, the updated buffer and the
location assigned. -/
def findOrMakeActionLocation (map : List (Nat × Nat)) (flags : Nat)
    (actions : List Nat) (actionType : ActionType) :
    List (Nat × Nat) × List Nat × Nat :=
  match alookup map flags with
  | some existing => (map, actions, existing)
  | none => (aset map flags actions.length, actions ++ [actionType.toByte], actions.length)

/-- The `IgnorePreviousRules` housekeeping at the top of the per-rule loop of
`serializeActions`: an ignore rule first resolves all pending display-none
groups and clears the four dedup maps; any other rule clears the
ignore-previous-rules dedup map. -/
def ignorePreamble (s : SAState) (actionType : ActionType) : SAState :=
  if actionType = ActionType.IgnorePreviousRules then
    let s' := resolvePendingDisplayNoneActions s
    { s' with
      blockLoadActionsMap := []
      blockCookiesActionsMap := []
      cssDisplayNoneActionsMap := []
      makeHTTPSActionsMap := [] }
  else
    { s with ignorePreviousRuleActionsMap := [] }

/-- One iteration of the per-rule loop of `serializeActions`.  `none` embeds
the `RELEASE_ASSERT_NOT_REACHED` on `CSSDisplayNoneStyleSheet` and
`InvalidAction` reaching the no-condition switch. -/
def serializeActionsStep (s0 : SAState) (rule : ContentExtensionRule) : Option SAState :=
  let actionType := rule.action.type
  let s := ignorePreamble s0 actionType
  if rule.trigger.conditions ≠ [] then
    -- Anything with condition is just pushed.
    some { s with
      actionLocations := s.actionLocations ++ [s.actions.length]
      actions :=
        if actionType = ActionType.CSSDisplayNoneSelector then
          serializeSelector s.actions rule.action.stringArgument
        else
          s.actions ++ [actionType.toByte]
      selEntries :=
        if actionType = ActionType.CSSDisplayNoneSelector then
          s.selEntries ++ [(s.actions.length, rule.action.stringArgument)]
        else
          s.selEntries }
  else
    match actionType with
    | ActionType.CSSDisplayNoneStyleSheet => none
    | ActionType.InvalidAction => none
    | ActionType.CSSDisplayNoneSelector =>
      let pending := (alookup s.cssDisplayNoneActionsMap rule.trigger).getD ⟨[], []⟩
      some { s with
        cssDisplayNoneActionsMap :=
          aset s.cssDisplayNoneActionsMap rule.trigger
            ⟨pending.selectors ++ [rule.action.stringArgument],
             pending.clientLocations ++ [s.actionLocations.length]⟩
        actionLocations := s.actionLocations ++ [sentinelLocation] }
    | ActionType.IgnorePreviousRules =>
      let r := findOrMakeActionLocation s.ignorePreviousRuleActionsMap
        rule.trigger.flags s.actions actionType
      some { s with
        ignorePreviousRuleActionsMap := r.1
        actions := r.2.1
        actionLocations := s.actionLocations ++ [r.2.2] }
    | ActionType.BlockLoad =>
      let r := findOrMakeActionLocation s.blockLoadActionsMap
        rule.trigger.flags s.actions actionType
      some { s with
        blockLoadActionsMap := r.1
        actions := r.2.1
        actionLocations := s.actionLocations ++ [r.2.2] }
    | ActionType.BlockCookies =>
      let r := findOrMakeActionLocation s.blockCookiesActionsMap
        rule.trigger.flags s.actions actionType
      some { s with
        blockCookiesActionsMap := r.1
        actions := r.2.1
        actionLocations := s.actionLocations ++ [r.2.2] }
    | ActionType.MakeHTTPS =>
      let r := findOrMakeActionLocation s.makeHTTPSActionsMap
        rule.trigger.flags s.actions actionType
      some { s with
        makeHTTPSActionsMap := r.1
        actions := r.2.1
        actionLocations := s.actionLocations ++ [r.2.2] }

/-- The per-rule loop of `serializeActions`, from an arbitrary state. -/
def serializeActionsAux (s : SAState) : List ContentExtensionRule → Option SAState
  | [] => some s
  | r :: rs =>
    match serializeActionsStep s r with
    | none => none
    | some s' => serializeActionsAux s' rs

/-- `serializeActions`, kept as the whole final state (including the
instrumented selector-entry trace). -/
def serializeActionsFull (ruleList : List ContentExtensionRule) : Option SAState :=
  (serializeActionsAux initialSAState ruleList).map resolvePendingDisplayNoneActions

/-- `serializeActions`: the serialized action buffer and the per-rule action
locations. -/
def serializeActions (ruleList : List ContentExtensionRule) :
    Option (List Nat × List Nat) :=
  (serializeActionsFull ruleList).map (fun s => (s.actions, s.actionLocations))

/-! ### Basic lemmas about the serializer state -/

theorem setAll_length (locs cls : List Nat) (v : Nat) :
    (setAll locs cls v).length = locs.length := by
  induction cls generalizing locs with
  | nil => rfl
  | cons cl cls ih => simp [setAll, ih, List.length_set]

theorem setAll_getElem_ne (locs cls : List Nat) (v i : Nat) (h : i ∉ cls) :
    (setAll locs cls v)[i]? = locs[i]? := by
  induction cls generalizing locs with
  | nil => rfl
  | cons cl cls ih =>
    rw [List.mem_cons, not_or] at h
    simp only [setAll]
    rw [ih _ h.2, List.getElem?_set_ne (fun he => h.1 he.symm)]

theorem setAll_getElem_mem (locs cls : List Nat) (v i : Nat) (hm : i ∈ cls)
    (hb : i < locs.length) : (setAll locs cls v)[i]? = some v := by
  induction cls generalizing locs with
  | nil => exact absurd hm (List.not_mem_nil i)
  | cons cl cls ih =>
    simp only [setAll]
    by_cases hc : i ∈ cls
    · exact ih _ hc (by rw [List.length_set]; exact hb)
    · have hi : i = cl := by
        rcases List.mem_cons.mp hm with h | h
        · exact h
        · exact absurd h hc
      rw [setAll_getElem_ne _ _ _ _ hc, hi, List.getElem?_set_self (hi ▸ hb)]

theorem setAll_val (locs cls : List Nat) (v x : Nat) (hx : x ∈ setAll locs cls v) :
    x ∈ locs ∨ x = v := by
  induction cls generalizing locs with
  | nil => exact Or.inl hx
  | cons cl cls ih =>
    rcases ih _ hx with h | h
    · rcases List.mem_or_eq_of_mem_set h with h2 | h2
      · exact Or.inl h2
      · exact Or.inr h2
    · exact Or.inr h

theorem serializeSelector_length_lt (a : List Nat) (sel : String) :
    a.length < (serializeSelector a sel).length := by
  simp only [serializeSelector, bytesOfUInt32LE, List.length_append, List.length_cons,
    List.length_nil]
  omega

theorem serializeSelector_getElem (a : List Nat) (sel : String) (i : Nat)
    (h : i < a.length) : (serializeSelector a sel)[i]? = a[i]? := by
  simp only [serializeSelector]
  rw [List.append_assoc, List.append_assoc, List.append_assoc, List.getElem?_append]
  simp [h]

theorem alookup_aset_self {α β : Type} [DecidableEq α] (m : List (α × β)) (k : α) (v : β) :
    alookup (aset m k v) k = some v := by
  induction m with
  | nil => simp [aset, alookup]
  | cons p m ih =>
    by_cases h : p.1 = k
    · simp [aset, h, alookup]
    · simp [aset, h, alookup, ih]

theorem alookup_aset_ne {α β : Type} [DecidableEq α] (m : List (α × β)) (k k' : α) (v : β)
    (h : k ≠ k') : alookup (aset m k v) k' = alookup m k' := by
  induction m with
  | nil => simp [aset, alookup, h]
  | cons p m ih =>
    by_cases hp : p.1 = k
    · simp [aset, hp, alookup, h, hp ▸ h]
    · simp [aset, hp, alookup, ih]

theorem alookup_some_mem {α β : Type} [DecidableEq α] (m : List (α × β)) (k : α) (v : β)
    (h : alookup m k = some v) : (k, v) ∈ m := by
  induction m with
  | nil => simp [alookup] at h
  | cons p m ih =>
    by_cases hp : p.1 = k
    · simp only [alookup, hp, if_pos] at h
      obtain ⟨p1, p2⟩ := p
      simp only at hp
      rw [Option.some_inj] at h
      subst hp
      subst h
      exact List.mem_cons_self _ _
    · simp only [alookup, hp, if_neg, if_false] at h
      exact List.mem_cons_of_mem _ (ih h)

theorem aset_val {α β : Type} [DecidableEq α] (m : List (α × β)) (k : α) (v : β)
    (kv : α × β) (h : kv ∈ aset m k v) : kv ∈ m ∨ kv = (k, v) := by
  induction m with
  | nil => simp [aset] at h; simp [h]
  | cons p m ih =>
    by_cases hp : p.1 = k
    · simp only [aset, hp, if_pos] at h
      rcases List.mem_cons.mp h with h2 | h2
      · exact Or.inr h2
      · exact Or.inl (List.mem_cons_of_mem _ h2)
    · simp only [aset, hp, if_neg, if_false] at h
      rcases List.mem_cons.mp h with h2 | h2
      · exact Or.inl (h2 ▸ List.mem_cons_self _ _)
      · rcases ih h2 with h3 | h3
        · exact Or.inl (List.mem_cons_of_mem _ h3)
        · exact Or.inr h3

/-- All owning-rule indices pending in a display-none map, in order. -/
def clientsFlatten : List (Trigger × PendingDisplayNoneActions) → List Nat
  | [] => []
  | g :: m => g.2.clientLocations ++ clientsFlatten m

/-! ### Lemmas about resolving pending display-none groups -/

theorem resolveOneGroup_locs_length (s : SAState) (g : Trigger × PendingDisplayNoneActions) :
    (resolveOneGroup s g).actionLocations.length = s.actionLocations.length := by
  simp [resolveOneGroup, setAll_length]

theorem resolveOneGroup_actions_lt (s : SAState) (g : Trigger × PendingDisplayNoneActions) :
    s.actions.length < (resolveOneGroup s g).actions.length := by
  simp only [resolveOneGroup]
  exact serializeSelector_length_lt _ _

theorem resolveOneGroup_getElem_ne (s : SAState) (g : Trigger × PendingDisplayNoneActions)
    (i : Nat) (h : i ∉ g.2.clientLocations) :
    (resolveOneGroup s g).actionLocations[i]? = s.actionLocations[i]? := by
  simp only [resolveOneGroup]
  exact setAll_getElem_ne _ _ _ _ h

theorem resolveGroups_locs_length (s : SAState) (G : List (Trigger × PendingDisplayNoneActions)) :
    (resolveGroups s G).actionLocations.length = s.actionLocations.length := by
  induction G generalizing s with
  | nil => rfl
  | cons g G ih => rw [resolveGroups, ih, resolveOneGroup_locs_length]

theorem resolveGroups_actions_le (s : SAState) (G : List (Trigger × PendingDisplayNoneActions)) :
    s.actions.length ≤ (resolveGroups s G).actions.length := by
  induction G generalizing s with
  | nil => exact Nat.le_refl _
  | cons g G ih =>
    rw [resolveGroups]
    exact Nat.le_trans (Nat.le_of_lt (resolveOneGroup_actions_lt s g)) (ih _)

theorem resolveGroups_getElem_ne (s : SAState) (G : List (Trigger × PendingDisplayNoneActions))
    (i : Nat) (h : i ∉ clientsFlatten G) :
    (resolveGroups s G).actionLocations[i]? = s.actionLocations[i]? := by
  induction G generalizing s with
  | nil => rfl
  | cons g G ih =>
    rw [clientsFlatten, List.mem_append, not_or] at h
    rw [resolveGroups, ih _ h.2, resolveOneGroup_getElem_ne _ _ _ h.1]

theorem resolveGroups_cssMap (s : SAState) (G : List (Trigger × PendingDisplayNoneActions)) :
    (resolveGroups s G).cssDisplayNoneActionsMap = s.cssDisplayNoneActionsMap := by
  induction G generalizing s with
  | nil => rfl
  | cons g G ih => rw [resolveGroups, ih]; rfl

theorem resolveGroups_blockLoadMap (s : SAState) (G : List (Trigger × PendingDisplayNoneActions)) :
    (resolveGroups s G).blockLoadActionsMap = s.blockLoadActionsMap := by
  induction G generalizing s with
  | nil => rfl
  | cons g G ih => rw [resolveGroups, ih]; rfl

theorem resolveGroups_blockCookiesMap (s : SAState)
    (G : List (Trigger × PendingDisplayNoneActions)) :
    (resolveGroups s G).blockCookiesActionsMap = s.blockCookiesActionsMap := by
  induction G generalizing s with
  | nil => rfl
  | cons g G ih => rw [resolveGroups, ih]; rfl

theorem resolveGroups_ignoreMap (s : SAState) (G : List (Trigger × PendingDisplayNoneActions)) :
    (resolveGroups s G).ignorePreviousRuleActionsMap = s.ignorePreviousRuleActionsMap := by
  induction G generalizing s with
  | nil => rfl
  | cons g G ih => rw [resolveGroups, ih]; rfl

theorem resolveGroups_makeHTTPSMap (s : SAState)
    (G : List (Trigger × PendingDisplayNoneActions)) :
    (resolveGroups s G).makeHTTPSActionsMap = s.makeHTTPSActionsMap := by
  induction G generalizing s with
  | nil => rfl
  | cons g G ih => rw [resolveGroups, ih]; rfl

theorem resolvePending_locs_length (s : SAState) :
    (resolvePendingDisplayNoneActions s).actionLocations.length = s.actionLocations.length := by
  simp [resolvePendingDisplayNoneActions, resolveGroups_locs_length]

theorem resolvePending_actions_le (s : SAState) :
    s.actions.length ≤ (resolvePendingDisplayNoneActions s).actions.length := by
  simp only [resolvePendingDisplayNoneActions]
  exact resolveGroups_actions_le _ _

theorem resolvePending_cssMap (s : SAState) :
    (resolvePendingDisplayNoneActions s).cssDisplayNoneActionsMap = [] := rfl

/-! ### The serializer state invariant -/

/-- Invariant maintained by every iteration of `serializeActions`: pending
client slots hold the sentinel, pending client indices are distinct, every
assigned location and every dedup-map value lies inside the buffer, and the
recorded selector entries sit at strictly increasing offsets below the buffer
length. -/
structure SAInv (s : SAState) : Prop where
  pend : ∀ g ∈ s.cssDisplayNoneActionsMap, ∀ cl ∈ g.2.clientLocations,
    s.actionLocations[cl]? = some sentinelLocation
  cnodup : (clientsFlatten s.cssDisplayNoneActionsMap).Nodup
  valBound : ∀ v ∈ s.actionLocations, v = sentinelLocation ∨ v < s.actions.length
  blBound : ∀ kv ∈ s.blockLoadActionsMap, kv.2 < s.actions.length
  bcBound : ∀ kv ∈ s.blockCookiesActionsMap, kv.2 < s.actions.length
  igBound : ∀ kv ∈ s.ignorePreviousRuleActionsMap, kv.2 < s.actions.length
  mhBound : ∀ kv ∈ s.makeHTTPSActionsMap, kv.2 < s.actions.length
  selPair : s.selEntries.Pairwise (fun a b => a.1 < b.1)
  selBound : ∀ e ∈ s.selEntries, e.1 < s.actions.length

theorem initial_sainv : SAInv initialSAState := by
  constructor <;> simp [initialSAState, clientsFlatten]

theorem resolveGroups_valBound (s : SAState) (G : List (Trigger × PendingDisplayNoneActions))
    (h : ∀ v ∈ s.actionLocations, v = sentinelLocation ∨ v < s.actions.length) :
    ∀ v ∈ (resolveGroups s G).actionLocations,
      v = sentinelLocation ∨ v < (resolveGroups s G).actions.length := by
  induction G generalizing s with
  | nil => exact h
  | cons g G ih =>
    rw [resolveGroups]
    refine ih _ ?_
    intro v hv
    rcases setAll_val _ _ _ _ hv with h2 | h2
    · rcases h v h2 with h3 | h3
      · exact Or.inl h3
      · exact Or.inr (Nat.lt_of_lt_of_le h3
          (Nat.le_of_lt (resolveOneGroup_actions_lt s g)))
    · exact Or.inr (h2 ▸ resolveOneGroup_actions_lt s g)

theorem resolveGroups_sel (s : SAState) (G : List (Trigger × PendingDisplayNoneActions))
    (hp : s.selEntries.Pairwise (fun a b => a.1 < b.1))
    (hb : ∀ e ∈ s.selEntries, e.1 < s.actions.length) :
    (resolveGroups s G).selEntries.Pairwise (fun a b => a.1 < b.1) ∧
      ∀ e ∈ (resolveGroups s G).selEntries, e.1 < (resolveGroups s G).actions.length := by
  induction G generalizing s with
  | nil => exact ⟨hp, hb⟩
  | cons g G ih =>
    rw [resolveGroups]
    refine ih _ ?_ ?_
    · simp only [resolveOneGroup]
      rw [List.pairwise_append]
      refine ⟨hp, List.pairwise_singleton _ _, ?_⟩
      intro a ha b hb2
      rw [List.mem_singleton] at hb2
      rw [hb2]
      exact hb a ha
    · intro e he
      simp only [resolveOneGroup] at he
      rcases List.mem_append.mp he with h2 | h2
      · exact Nat.lt_of_lt_of_le (hb e h2) (Nat.le_of_lt (resolveOneGroup_actions_lt s g))
      · rw [List.mem_singleton] at h2
        rw [h2]
        exact resolveOneGroup_actions_lt s g

theorem resolvePending_sainv (s : SAState) (h : SAInv s) :
    SAInv (resolvePendingDisplayNoneActions s) := by
  have hsel := resolveGroups_sel s s.cssDisplayNoneActionsMap h.selPair h.selBound
  refine ⟨?_, ?_, ?_, ?_, ?_, ?_, ?_, ?_, ?_⟩
  · intro g hg
    rw [resolvePending_cssMap] at hg
    exact absurd hg (List.not_mem_nil g)
  · rw [resolvePending_cssMap]
    exact List.nodup_nil
  · exact resolveGroups_valBound s _ h.valBound
  · intro kv hkv
    rw [show (resolvePendingDisplayNoneActions s).blockLoadActionsMap
        = s.blockLoadActionsMap from resolveGroups_blockLoadMap s _] at hkv
    exact Nat.lt_of_lt_of_le (h.blBound kv hkv) (resolvePending_actions_le s)
  · intro kv hkv
    rw [show (resolvePendingDisplayNoneActions s).blockCookiesActionsMap
        = s.blockCookiesActionsMap from resolveGroups_blockCookiesMap s _] at hkv
    exact Nat.lt_of_lt_of_le (h.bcBound kv hkv) (resolvePending_actions_le s)
  · intro kv hkv
    rw [show (resolvePendingDisplayNoneActions s).ignorePreviousRuleActionsMap
        = s.ignorePreviousRuleActionsMap from resolveGroups_ignoreMap s _] at hkv
    exact Nat.lt_of_lt_of_le (h.igBound kv hkv) (resolvePending_actions_le s)
  · intro kv hkv
    rw [show (resolvePendingDisplayNoneActions s).makeHTTPSActionsMap
        = s.makeHTTPSActionsMap from resolveGroups_makeHTTPSMap s _] at hkv
    exact Nat.lt_of_lt_of_le (h.mhBound kv hkv) (resolvePending_actions_le s)
  · exact hsel.1
  · exact hsel.2

/-! ### Lemmas about findOrMakeActionLocation -/

theorem findOrMake_lookup (m : List (Nat × Nat)) (flags : Nat) (acts : List Nat)
    (t : ActionType) : alookup (findOrMakeActionLocation m flags acts t).1 flags
      = some (findOrMakeActionLocation m flags acts t).2.2 := by
  cases h : alookup m flags with
  | none => simp [findOrMakeActionLocation, h, alookup_aset_self]
  | some existing => simp [findOrMakeActionLocation, h]

theorem findOrMake_preserve (m : List (Nat × Nat)) (flags : Nat) (acts : List Nat)
    (t : ActionType) (f L : Nat) (h : alookup m f = some L) :
    alookup (findOrMakeActionLocation m flags acts t).1 f = some L := by
  cases hl : alookup m flags with
  | none =>
    have hne : flags ≠ f := by
      intro he
      rw [he, h] at hl
      exact Option.noConfusion hl
    simp [findOrMakeActionLocation, hl, alookup_aset_ne _ _ _ _ hne, h]
  | some existing => simp [findOrMakeActionLocation, hl, h]

theorem findOrMake_actions_le (m : List (Nat × Nat)) (flags : Nat) (acts : List Nat)
    (t : ActionType) : acts.length ≤ (findOrMakeActionLocation m flags acts t).2.1.length := by
  cases h : alookup m flags with
  | none => simp [findOrMakeActionLocation, h]
  | some existing => simp [findOrMakeActionLocation, h]

theorem findOrMake_loc_lt (m : List (Nat × Nat)) (flags : Nat) (acts : List Nat)
    (t : ActionType) (hb : ∀ kv ∈ m, kv.2 < acts.length) :
    (findOrMakeActionLocation m flags acts t).2.2
      < (findOrMakeActionLocation m flags acts t).2.1.length := by
  cases h : alookup m flags with
  | none => simp [findOrMakeActionLocation, h]
  | some existing =>
    simp only [findOrMakeActionLocation, h]
    exact hb _ (alookup_some_mem _ _ _ h)

theorem findOrMake_bound (m : List (Nat × Nat)) (flags : Nat) (acts : List Nat)
    (t : ActionType) (hb : ∀ kv ∈ m, kv.2 < acts.length) :
    ∀ kv ∈ (findOrMakeActionLocation m flags acts t).1,
      kv.2 < (findOrMakeActionLocation m flags acts t).2.1.length := by
  cases h : alookup m flags with
  | none =>
    simp only [findOrMakeActionLocation, h]
    intro kv hkv
    rcases aset_val _ _ _ _ hkv with h2 | h2
    · simp only [List.length_append, List.length_cons, List.length_nil]
      exact Nat.lt_of_lt_of_le (hb kv h2) (by omega)
    · simp [h2]
  | some existing =>
    simp only [findOrMakeActionLocation, h]
    exact hb

theorem findOrMake_actions_getElem (m : List (Nat × Nat)) (flags : Nat) (acts : List Nat)
    (t : ActionType) (i : Nat) (hi : i < acts.length) :
    (findOrMakeActionLocation m flags acts t).2.1[i]? = acts[i]? := by
  cases h : alookup m flags with
  | none =>
    simp only [findOrMakeActionLocation, h]
    rw [List.getElem?_append]
    simp [hi]
  | some existing => simp [findOrMakeActionLocation, h]

theorem getElem_append_lt {α : Type} (l1 l2 : List α) (i : Nat) (h : i < l1.length) :
    (l1 ++ l2)[i]? = l1[i]? := by
  rw [List.getElem?_append]
  simp [h]

theorem clientsFlatten_aset_extend (m : List (Trigger × PendingDisplayNoneActions))
    (T : Trigger) (v : PendingDisplayNoneActions) (c : Nat)
    (hv : v.clientLocations = ((alookup m T).getD ⟨[], []⟩).clientLocations ++ [c]) :
    (clientsFlatten (aset m T v)).Perm (c :: clientsFlatten m) := by
  induction m with
  | nil =>
    simp only [alookup, Option.getD_none] at hv
    simp [aset, clientsFlatten, hv]
  | cons p m ih =>
    by_cases hp : p.1 = T
    · simp only [alookup, hp, if_pos, Option.getD_some] at hv
      simp only [aset, hp, if_pos, clientsFlatten, hv]
      rw [List.append_assoc]
      exact List.perm_middle.trans (List.Perm.refl _)
    · simp only [alookup, hp, if_neg, if_false] at hv
      simp only [aset, hp, if_neg, if_false, clientsFlatten]
      exact ((ih hv).append_left p.2.clientLocations).trans List.perm_middle

theorem preamble_sainv (s : SAState) (t : ActionType) (h : SAInv s) :
    SAInv (ignorePreamble s t) := by
  by_cases ht : t = ActionType.IgnorePreviousRules
  · have h2 := resolvePending_sainv s h
    simp only [ignorePreamble, ht, if_pos]
    refine ⟨?_, ?_, h2.valBound, ?_, ?_, h2.igBound, ?_, h2.selPair, h2.selBound⟩
    · intro g hg
      exact absurd hg (List.not_mem_nil g)
    · exact List.nodup_nil
    · intro kv hkv
      exact absurd hkv (List.not_mem_nil kv)
    · intro kv hkv
      exact absurd hkv (List.not_mem_nil kv)
    · intro kv hkv
      exact absurd hkv (List.not_mem_nil kv)
  · simp only [ignorePreamble, ht, if_neg, if_false]
    refine ⟨h.pend, h.cnodup, h.valBound, h.blBound, h.bcBound, ?_, h.mhBound,
      h.selPair, h.selBound⟩
    intro kv hkv
    exact absurd hkv (List.not_mem_nil kv)

/-- The invariant survives one step that updates a single dedup map through
`findOrMakeActionLocation` and appends the assigned location. -/
theorem findOrMake_branch_sainv (s : SAState) (flags : Nat) (t : ActionType)
    (curMap : List (Nat × Nat)) (hb : ∀ kv ∈ curMap, kv.2 < s.actions.length)
    (s' : SAState)
    (hacts : s'.actions = (findOrMakeActionLocation curMap flags s.actions t).2.1)
    (hlocs : s'.actionLocations = s.actionLocations
      ++ [(findOrMakeActionLocation curMap flags s.actions t).2.2])
    (hcss : s'.cssDisplayNoneActionsMap = s.cssDisplayNoneActionsMap)
    (hsel : s'.selEntries = s.selEntries)
    (hinv : SAInv s)
    (hmaps : ∀ kv : Nat × Nat,
      (kv ∈ s'.blockLoadActionsMap → kv ∈ s.blockLoadActionsMap ∨
        kv ∈ (findOrMakeActionLocation curMap flags s.actions t).1) ∧
      (kv ∈ s'.blockCookiesActionsMap → kv ∈ s.blockCookiesActionsMap ∨
        kv ∈ (findOrMakeActionLocation curMap flags s.actions t).1) ∧
      (kv ∈ s'.ignorePreviousRuleActionsMap → kv ∈ s.ignorePreviousRuleActionsMap ∨
        kv ∈ (findOrMakeActionLocation curMap flags s.actions t).1) ∧
      (kv ∈ s'.makeHTTPSActionsMap → kv ∈ s.makeHTTPSActionsMap ∨
        kv ∈ (findOrMakeActionLocation curMap flags s.actions t).1)) :
    SAInv s' := by
  have hle := findOrMake_actions_le curMap flags s.actions t
  have hfb := findOrMake_bound curMap flags s.actions t hb
  refine ⟨?_, ?_, ?_, ?_, ?_, ?_, ?_, ?_, ?_⟩
  · intro g hg cl hcl
    rw [hcss] at hg
    have h2 := hinv.pend g hg cl hcl
    have hcb : cl < s.actionLocations.length := (List.getElem?_eq_some.mp h2).1
    rw [hlocs, getElem_append_lt _ _ _ hcb]
    exact h2
  · rw [hcss]
    exact hinv.cnodup
  · intro v hv
    rw [hlocs] at hv
    rcases List.mem_append.mp hv with h2 | h2
    · rcases hinv.valBound v h2 with h3 | h3
      · exact Or.inl h3
      · exact Or.inr (hacts ▸ Nat.lt_of_lt_of_le h3 hle)
    · rw [List.mem_singleton] at h2
      subst h2
      exact Or.inr (hacts ▸ findOrMake_loc_lt curMap flags s.actions t hb)
  · intro kv hkv
    rcases (hmaps kv).1 hkv with h2 | h2
    · exact hacts ▸ Nat.lt_of_lt_of_le (hinv.blBound kv h2) hle
    · exact hacts ▸ hfb kv h2
  · intro kv hkv
    rcases (hmaps kv).2.1 hkv with h2 | h2
    · exact hacts ▸ Nat.lt_of_lt_of_le (hinv.bcBound kv h2) hle
    · exact hacts ▸ hfb kv h2
  · intro kv hkv
    rcases (hmaps kv).2.2.1 hkv with h2 | h2
    · exact hacts ▸ Nat.lt_of_lt_of_le (hinv.igBound kv h2) hle
    · exact hacts ▸ hfb kv h2
  · intro kv hkv
    rcases (hmaps kv).2.2.2 hkv with h2 | h2
    · exact hacts ▸ Nat.lt_of_lt_of_le (hinv.mhBound kv h2) hle
    · exact hacts ▸ hfb kv h2
  · rw [hsel]
    exact hinv.selPair
  · intro e he
    rw [hsel] at he
    exact hacts ▸ Nat.lt_of_lt_of_le (hinv.selBound e he) hle

theorem clientsFlatten_mem_exists (m : List (Trigger × PendingDisplayNoneActions)) (cl : Nat)
    (h : cl ∈ clientsFlatten m) : ∃ g ∈ m, cl ∈ g.2.clientLocations := by
  induction m with
  | nil => exact absurd h (List.not_mem_nil cl)
  | cons p m ih =>
    rcases List.mem_append.mp h with h2 | h2
    · exact ⟨p, List.mem_cons_self _ _, h2⟩
    · obtain ⟨g, hg, hcl⟩ := ih h2
      exact ⟨g, List.mem_cons_of_mem _ hg, hcl⟩

/-- The invariant survives a conditioned rule's push (the
`!rule.trigger().conditions.isEmpty()` branch). -/
theorem conditioned_branch_sainv (s : SAState) (hinv : SAInv s) (t : ActionType)
    (sarg : String) :
    SAInv { s with
      actionLocations := s.actionLocations ++ [s.actions.length]
      actions := if t = ActionType.CSSDisplayNoneSelector then
          serializeSelector s.actions sarg
        else s.actions ++ [t.toByte]
      selEntries := if t = ActionType.CSSDisplayNoneSelector then
          s.selEntries ++ [(s.actions.length, sarg)]
        else s.selEntries } := by
  have hlt : s.actions.length < (if t = ActionType.CSSDisplayNoneSelector then
      serializeSelector s.actions sarg else s.actions ++ [t.toByte]).length := by
    by_cases htc : t = ActionType.CSSDisplayNoneSelector
    · simp only [htc, if_pos]
      exact serializeSelector_length_lt _ _
    · simp [htc]
  refine ⟨?_, hinv.cnodup, ?_, ?_, ?_, ?_, ?_, ?_, ?_⟩
  · intro g hg cl hcl
    have h2 := hinv.pend g hg cl hcl
    dsimp only
    rw [getElem_append_lt _ _ _ (List.getElem?_eq_some.mp h2).1]
    exact h2
  · intro v hv
    dsimp only at hv ⊢
    rcases List.mem_append.mp hv with h2 | h2
    · rcases hinv.valBound v h2 with h3 | h3
      · exact Or.inl h3
      · exact Or.inr (Nat.lt_of_lt_of_le h3 (Nat.le_of_lt hlt))
    · rw [List.mem_singleton] at h2
      subst h2
      exact Or.inr hlt
  · intro kv hkv
    exact Nat.lt_of_lt_of_le (hinv.blBound kv hkv) (Nat.le_of_lt hlt)
  · intro kv hkv
    exact Nat.lt_of_lt_of_le (hinv.bcBound kv hkv) (Nat.le_of_lt hlt)
  · intro kv hkv
    exact Nat.lt_of_lt_of_le (hinv.igBound kv hkv) (Nat.le_of_lt hlt)
  · intro kv hkv
    exact Nat.lt_of_lt_of_le (hinv.mhBound kv hkv) (Nat.le_of_lt hlt)
  · dsimp only
    by_cases htc : t = ActionType.CSSDisplayNoneSelector
    · simp only [htc, if_pos]
      rw [List.pairwise_append]
      refine ⟨hinv.selPair, List.pairwise_singleton _ _, ?_⟩
      intro a ha b hb2
      rw [List.mem_singleton] at hb2
      rw [hb2]
      exact hinv.selBound a ha
    · simp only [htc, if_neg, if_false]
      exact hinv.selPair
  · intro e he
    dsimp only at he ⊢
    by_cases htc : t = ActionType.CSSDisplayNoneSelector
    · simp only [htc, if_pos] at he ⊢
      rcases List.mem_append.mp he with h2 | h2
      · exact Nat.lt_of_lt_of_le (hinv.selBound e h2)
          (Nat.le_of_lt (serializeSelector_length_lt _ _))
      · rw [List.mem_singleton] at h2
        subst h2
        exact serializeSelector_length_lt _ _
    · simp only [htc, if_neg, if_false] at he ⊢
      exact Nat.lt_of_lt_of_le (hinv.selBound e he) (by simp)

/-- The invariant survives an unconditioned `CSSDisplayNoneSelector` rule:
the rule joins (or creates) the pending group of its trigger and its slot is
filled with the sentinel. -/
theorem cssPending_branch_sainv (s : SAState) (hinv : SAInv s) (T : Trigger)
    (sarg : String) :
    SAInv { s with
      cssDisplayNoneActionsMap := aset s.cssDisplayNoneActionsMap T
        ⟨((alookup s.cssDisplayNoneActionsMap T).getD ⟨[], []⟩).selectors ++ [sarg],
         ((alookup s.cssDisplayNoneActionsMap T).getD ⟨[], []⟩).clientLocations
           ++ [s.actionLocations.length]⟩
      actionLocations := s.actionLocations ++ [sentinelLocation] } := by
  have hperm := clientsFlatten_aset_extend s.cssDisplayNoneActionsMap T
    ⟨((alookup s.cssDisplayNoneActionsMap T).getD ⟨[], []⟩).selectors ++ [sarg],
     ((alookup s.cssDisplayNoneActionsMap T).getD ⟨[], []⟩).clientLocations
       ++ [s.actionLocations.length]⟩ s.actionLocations.length rfl
  have hnotin : s.actionLocations.length ∉ clientsFlatten s.cssDisplayNoneActionsMap := by
    intro hmem
    obtain ⟨g, hg, hcl⟩ := clientsFlatten_mem_exists _ _ hmem
    have h2 := hinv.pend g hg _ hcl
    exact absurd (List.getElem?_eq_some.mp h2).1 (Nat.lt_irrefl _)
  have hpendT : ∀ cl ∈ ((alookup s.cssDisplayNoneActionsMap T).getD
      ⟨[], []⟩).clientLocations, s.actionLocations[cl]? = some sentinelLocation := by
    cases hl : alookup s.cssDisplayNoneActionsMap T with
    | none => simp
    | some g =>
      rw [Option.getD_some]
      exact hinv.pend (T, g) (alookup_some_mem _ _ _ hl)
  refine ⟨?_, ?_, ?_, hinv.blBound, hinv.bcBound, hinv.igBound, hinv.mhBound,
    hinv.selPair, hinv.selBound⟩
  · intro g hg cl hcl
    dsimp only at hg hcl ⊢
    rcases aset_val _ _ _ _ hg with h2 | h2
    · have h3 := hinv.pend g h2 cl hcl
      rw [getElem_append_lt _ _ _ (List.getElem?_eq_some.mp h3).1]
      exact h3
    · subst h2
      dsimp only at hcl
      rcases List.mem_append.mp hcl with h3 | h3
      · have h4 := hpendT cl h3
        rw [getElem_append_lt _ _ _ (List.getElem?_eq_some.mp h4).1]
        exact h4
      · rw [List.mem_singleton] at h3
        subst h3
        simp
  · dsimp only
    rw [hperm.nodup_iff, List.nodup_cons]
    exact ⟨hnotin, hinv.cnodup⟩
  · intro v hv
    dsimp only at hv ⊢
    rcases List.mem_append.mp hv with h2 | h2
    · exact hinv.valBound v h2
    · rw [List.mem_singleton] at h2
      exact Or.inl h2

theorem step_sainv {s0 : SAState} {r : ContentExtensionRule} {s' : SAState}
    (hinv : SAInv s0) (h : serializeActionsStep s0 r = some s') : SAInv s' := by
  have hpre := preamble_sainv s0 r.action.type hinv
  simp only [serializeActionsStep] at h
  split at h
  · rw [Option.some_inj] at h
    subst h
    exact conditioned_branch_sainv _ hpre _ _
  · split at h
    · exact Option.noConfusion h
    · exact Option.noConfusion h
    · rw [Option.some_inj] at h
      subst h
      exact cssPending_branch_sainv _ hpre _ _
    · rw [Option.some_inj] at h
      subst h
      exact findOrMake_branch_sainv _ _ _ _ hpre.igBound _ rfl rfl rfl rfl hpre
        (fun kv => ⟨fun hm => Or.inl hm, fun hm => Or.inl hm, fun hm => Or.inr hm,
          fun hm => Or.inl hm⟩)
    · rw [Option.some_inj] at h
      subst h
      exact findOrMake_branch_sainv _ _ _ _ hpre.blBound _ rfl rfl rfl rfl hpre
        (fun kv => ⟨fun hm => Or.inr hm, fun hm => Or.inl hm, fun hm => Or.inl hm,
          fun hm => Or.inl hm⟩)
    · rw [Option.some_inj] at h
      subst h
      exact findOrMake_branch_sainv _ _ _ _ hpre.bcBound _ rfl rfl rfl rfl hpre
        (fun kv => ⟨fun hm => Or.inl hm, fun hm => Or.inr hm, fun hm => Or.inl hm,
          fun hm => Or.inl hm⟩)
    · rw [Option.some_inj] at h
      subst h
      exact findOrMake_branch_sainv _ _ _ _ hpre.mhBound _ rfl rfl rfl rfl hpre
        (fun kv => ⟨fun hm => Or.inl hm, fun hm => Or.inl hm, fun hm => Or.inl hm,
          fun hm => Or.inr hm⟩)

theorem preamble_locs_length (s : SAState) (t : ActionType) :
    (ignorePreamble s t).actionLocations.length = s.actionLocations.length := by
  by_cases ht : t = ActionType.IgnorePreviousRules
  · simp [ignorePreamble, ht, resolvePending_locs_length]
  · simp [ignorePreamble, ht]

theorem preamble_actions_le (s : SAState) (t : ActionType) :
    s.actions.length ≤ (ignorePreamble s t).actions.length := by
  by_cases ht : t = ActionType.IgnorePreviousRules
  · simp only [ignorePreamble, ht, if_pos]
    exact resolvePending_actions_le s
  · simp [ignorePreamble, ht]

theorem step_locs_length {s0 : SAState} {r : ContentExtensionRule} {s' : SAState}
    (h : serializeActionsStep s0 r = some s') :
    s'.actionLocations.length = s0.actionLocations.length + 1 := by
  have hp := preamble_locs_length s0 r.action.type
  simp only [serializeActionsStep] at h
  split at h
  · rw [Option.some_inj] at h
    subst h
    simp [hp]
  · split at h
    · exact Option.noConfusion h
    · exact Option.noConfusion h
    all_goals
      rw [Option.some_inj] at h
      subst h
      simp [hp]

theorem step_actions_le {s0 : SAState} {r : ContentExtensionRule} {s' : SAState}
    (h : serializeActionsStep s0 r = some s') :
    s0.actions.length ≤ s'.actions.length := by
  have hp := preamble_actions_le s0 r.action.type
  simp only [serializeActionsStep] at h
  split at h
  · rw [Option.some_inj] at h
    subst h
    dsimp only
    split
    · exact Nat.le_trans hp (Nat.le_of_lt (serializeSelector_length_lt _ _))
    · exact Nat.le_trans hp (by simp)
  · split at h
    · exact Option.noConfusion h
    · exact Option.noConfusion h
    · rw [Option.some_inj] at h
      subst h
      exact hp
    all_goals
      rw [Option.some_inj] at h
      subst h
      exact Nat.le_trans hp (findOrMake_actions_le _ _ _ _)

theorem resolvePending_getElem_stable {s : SAState} {i v : Nat} (hinv : SAInv s)
    (hv : s.actionLocations[i]? = some v) (hvne : v ≠ sentinelLocation) :
    (resolvePendingDisplayNoneActions s).actionLocations[i]? = some v := by
  have hni : i ∉ clientsFlatten s.cssDisplayNoneActionsMap := by
    intro hmem
    obtain ⟨g, hg, hcl⟩ := clientsFlatten_mem_exists _ _ hmem
    have h2 := hinv.pend g hg _ hcl
    rw [hv] at h2
    exact hvne (Option.some_inj.mp h2)
  simp only [resolvePendingDisplayNoneActions]
  rw [resolveGroups_getElem_ne _ _ _ hni]
  exact hv

theorem preamble_getElem_stable {s : SAState} {i v : Nat} (t : ActionType) (hinv : SAInv s)
    (hv : s.actionLocations[i]? = some v) (hvne : v ≠ sentinelLocation) :
    (ignorePreamble s t).actionLocations[i]? = some v := by
  by_cases ht : t = ActionType.IgnorePreviousRules
  · simp only [ignorePreamble, ht, if_pos]
    exact resolvePending_getElem_stable hinv hv hvne
  · simp [ignorePreamble, ht, hv]

theorem step_getElem_stable {s0 : SAState} {r : ContentExtensionRule} {s' : SAState}
    {i v : Nat} (hinv : SAInv s0) (h : serializeActionsStep s0 r = some s')
    (hv : s0.actionLocations[i]? = some v) (hvne : v ≠ sentinelLocation) :
    s'.actionLocations[i]? = some v := by
  have hp := preamble_getElem_stable r.action.type hinv hv hvne
  have hb : i < (ignorePreamble s0 r.action.type).actionLocations.length :=
    (List.getElem?_eq_some.mp hp).1
  simp only [serializeActionsStep] at h
  split at h
  · rw [Option.some_inj] at h
    subst h
    dsimp only
    rw [getElem_append_lt _ _ _ hb]
    exact hp
  · split at h
    · exact Option.noConfusion h
    · exact Option.noConfusion h
    all_goals
      rw [Option.some_inj] at h
      subst h
      dsimp only
      rw [getElem_append_lt _ _ _ hb]
      exact hp

theorem resolveGroups_sel_mem (s : SAState) (G : List (Trigger × PendingDisplayNoneActions))
    (e : Nat × String) (he : e ∈ s.selEntries) :
    e ∈ (resolveGroups s G).selEntries := by
  induction G generalizing s with
  | nil => exact he
  | cons g G ih =>
    rw [resolveGroups]
    exact ih _ (List.mem_append_left _ he)

theorem resolvePending_sel_mem {s : SAState} {e : Nat × String} (he : e ∈ s.selEntries) :
    e ∈ (resolvePendingDisplayNoneActions s).selEntries :=
  resolveGroups_sel_mem s _ e he

theorem step_sel_mem {s0 : SAState} {r : ContentExtensionRule} {s' : SAState}
    {e : Nat × String} (h : serializeActionsStep s0 r = some s')
    (he : e ∈ s0.selEntries) : e ∈ s'.selEntries := by
  have hp : e ∈ (ignorePreamble s0 r.action.type).selEntries := by
    by_cases ht : r.action.type = ActionType.IgnorePreviousRules
    · simp only [ignorePreamble, ht, if_pos]
      exact resolvePending_sel_mem he
    · simp [ignorePreamble, ht, he]
  simp only [serializeActionsStep] at h
  split at h
  · rw [Option.some_inj] at h
    subst h
    dsimp only
    split
    · exact List.mem_append_left _ hp
    · exact hp
  · split at h
    · exact Option.noConfusion h
    · exact Option.noConfusion h
    all_goals
      rw [Option.some_inj] at h
      subst h
      exact hp

/-! ### Lemmas about the whole per-rule loop -/

theorem aux_append (s : SAState) (l1 l2 : List ContentExtensionRule) :
    serializeActionsAux s (l1 ++ l2)
      = (serializeActionsAux s l1).bind (fun s1 => serializeActionsAux s1 l2) := by
  induction l1 generalizing s with
  | nil => rfl
  | cons r l1 ih =>
    rw [List.cons_append, serializeActionsAux, serializeActionsAux]
    cases serializeActionsStep s r with
    | none => rfl
    | some s2 => exact ih s2

theorem aux_sainv {s : SAState} {rs : List ContentExtensionRule} {s' : SAState}
    (hinv : SAInv s) (h : serializeActionsAux s rs = some s') : SAInv s' := by
  induction rs generalizing s with
  | nil => exact (Option.some_inj.mp h) ▸ hinv
  | cons r rs ih =>
    rw [serializeActionsAux] at h
    cases hstep : serializeActionsStep s r with
    | none => rw [hstep] at h; exact Option.noConfusion h
    | some s2 =>
      rw [hstep] at h
      exact ih (step_sainv hinv hstep) h

theorem aux_locs_length {s : SAState} {rs : List ContentExtensionRule} {s' : SAState}
    (h : serializeActionsAux s rs = some s') :
    s'.actionLocations.length = s.actionLocations.length + rs.length := by
  induction rs generalizing s with
  | nil => rw [Option.some_inj.mp h]; rfl
  | cons r rs ih =>
    rw [serializeActionsAux] at h
    cases hstep : serializeActionsStep s r with
    | none => rw [hstep] at h; exact Option.noConfusion h
    | some s2 =>
      rw [hstep] at h
      rw [ih h, step_locs_length hstep, List.length_cons]
      omega

theorem aux_actions_le {s : SAState} {rs : List ContentExtensionRule} {s' : SAState}
    (h : serializeActionsAux s rs = some s') : s.actions.length ≤ s'.actions.length := by
  induction rs generalizing s with
  | nil => rw [Option.some_inj.mp h]
  | cons r rs ih =>
    rw [serializeActionsAux] at h
    cases hstep : serializeActionsStep s r with
    | none => rw [hstep] at h; exact Option.noConfusion h
    | some s2 =>
      rw [hstep] at h
      exact Nat.le_trans (step_actions_le hstep) (ih h)

theorem aux_getElem_stable {s : SAState} {rs : List ContentExtensionRule} {s' : SAState}
    {i v : Nat} (hinv : SAInv s) (h : serializeActionsAux s rs = some s')
    (hv : s.actionLocations[i]? = some v) (hvne : v ≠ sentinelLocation) :
    s'.actionLocations[i]? = some v := by
  induction rs generalizing s with
  | nil => exact (Option.some_inj.mp h) ▸ hv
  | cons r rs ih =>
    rw [serializeActionsAux] at h
    cases hstep : serializeActionsStep s r with
    | none => rw [hstep] at h; exact Option.noConfusion h
    | some s2 =>
      rw [hstep] at h
      exact ih (step_sainv hinv hstep) h (step_getElem_stable hinv hstep hv hvne)

theorem aux_sel_mem {s : SAState} {rs : List ContentExtensionRule} {s' : SAState}
    {e : Nat × String} (h : serializeActionsAux s rs = some s')
    (he : e ∈ s.selEntries) : e ∈ s'.selEntries := by
  induction rs generalizing s with
  | nil => exact (Option.some_inj.mp h) ▸ he
  | cons r rs ih =>
    rw [serializeActionsAux] at h
    cases hstep : serializeActionsStep s r with
    | none => rw [hstep] at h; exact Option.noConfusion h
    | some s2 =>
      rw [hstep] at h
      exact ih h (step_sel_mem hstep he)

/-! ### Tracking the dedup maps across the loop -/

/-- The dedup map consulted for an unconditioned rule of the given action
type. -/
def dedupMapFor : ActionType → SAState → List (Nat × Nat)
  | ActionType.BlockLoad, s => s.blockLoadActionsMap
  | ActionType.BlockCookies, s => s.blockCookiesActionsMap
  | ActionType.IgnorePreviousRules, s => s.ignorePreviousRuleActionsMap
  | ActionType.MakeHTTPS, s => s.makeHTTPSActionsMap
  | _, _ => []

theorem dedupMapFor_bound (t : ActionType) (s : SAState) (hinv : SAInv s) :
    ∀ kv ∈ dedupMapFor t s, kv.2 < s.actions.length := by
  cases t with
  | BlockLoad => exact hinv.blBound
  | BlockCookies => exact hinv.bcBound
  | IgnorePreviousRules => exact hinv.igBound
  | MakeHTTPS => exact hinv.mhBound
  | CSSDisplayNoneSelector => intro kv hkv; exact absurd hkv (List.not_mem_nil kv)
  | CSSDisplayNoneStyleSheet => intro kv hkv; exact absurd hkv (List.not_mem_nil kv)
  | InvalidAction => intro kv hkv; exact absurd hkv (List.not_mem_nil kv)

/-- The preamble does not touch the dedup map the rule itself will consult:
an ignore rule keeps the ignore map, any other rule keeps the other three. -/
theorem preamble_dedupMapFor (s : SAState) (t : ActionType) :
    dedupMapFor t (ignorePreamble s t) = dedupMapFor t s := by
  cases t with
  | IgnorePreviousRules =>
    simp only [ignorePreamble, if_pos]
    show (resolvePendingDisplayNoneActions s).ignorePreviousRuleActionsMap = _
    exact resolveGroups_ignoreMap s _
  | BlockLoad => simp [ignorePreamble, dedupMapFor]
  | BlockCookies => simp [ignorePreamble, dedupMapFor]
  | MakeHTTPS => simp [ignorePreamble, dedupMapFor]
  | CSSDisplayNoneSelector => simp [ignorePreamble, dedupMapFor]
  | CSSDisplayNoneStyleSheet => simp [ignorePreamble, dedupMapFor]
  | InvalidAction => simp [ignorePreamble, dedupMapFor]

/-- Processing one unconditioned, non-CSS rule appends the location looked up
or created in its dedup map; on a hit the existing location is reused. -/
theorem step_dedup_assign {s0 : SAState} {r : ContentExtensionRule} {s' : SAState}
    (hc : r.trigger.conditions = [])
    (hcss : r.action.type ≠ ActionType.CSSDisplayNoneSelector)
    (h : serializeActionsStep s0 r = some s') :
    ∃ L, s'.actionLocations = (ignorePreamble s0 r.action.type).actionLocations ++ [L]
      ∧ alookup (dedupMapFor r.action.type s') r.trigger.flags = some L
      ∧ (∀ L0, alookup (dedupMapFor r.action.type s0) r.trigger.flags = some L0 → L = L0) := by
  have hpm := preamble_dedupMapFor s0 r.action.type
  simp only [serializeActionsStep] at h
  split at h
  · rename_i hcnd
    exact absurd hc hcnd
  · split at h
    · exact Option.noConfusion h
    · exact Option.noConfusion h
    · rename_i heq
      exact absurd heq hcss
    all_goals (
      rename_i heq
      rw [Option.some_inj] at h
      subst h
      rw [heq] at hpm ⊢
      refine ⟨_, rfl, ?_, ?_⟩
      · exact findOrMake_lookup _ _ _ _
      · intro L0 hL0
        rw [← hpm] at hL0
        simp only [dedupMapFor] at hL0
        simp [findOrMakeActionLocation, hL0])

/-- A non-ignore step preserves existing bindings of the block-load,
block-cookies and make-https dedup maps. -/
theorem step_dedup_preserve {s0 : SAState} {r : ContentExtensionRule} {s' : SAState}
    {t : ActionType} {f L : Nat}
    (hT : t = ActionType.BlockLoad ∨ t = ActionType.BlockCookies ∨ t = ActionType.MakeHTTPS)
    (hr : r.action.type ≠ ActionType.IgnorePreviousRules)
    (h : serializeActionsStep s0 r = some s')
    (hl : alookup (dedupMapFor t s0) f = some L) :
    alookup (dedupMapFor t s') f = some L := by
  have hpm : dedupMapFor t (ignorePreamble s0 r.action.type) = dedupMapFor t s0 := by
    simp only [ignorePreamble, hr, if_neg, if_false]
    rcases hT with h2 | h2 | h2 <;> subst h2 <;> rfl
  simp only [serializeActionsStep] at h
  split at h
  · rw [Option.some_inj] at h
    subst h
    rcases hT with h2 | h2 | h2 <;> subst h2 <;>
      simp only [dedupMapFor] at hpm hl ⊢ <;> (rw [hpm]; exact hl)
  · split at h
    · exact Option.noConfusion h
    · exact Option.noConfusion h
    · rw [Option.some_inj] at h
      subst h
      rcases hT with h2 | h2 | h2 <;> subst h2 <;>
        simp only [dedupMapFor] at hpm hl ⊢ <;> (rw [hpm]; exact hl)
    · rename_i heq
      exact absurd heq hr
    · -- BlockLoad rule
      rw [Option.some_inj] at h
      subst h
      rcases hT with h2 | h2 | h2 <;> subst h2 <;>
        simp only [dedupMapFor] at hpm hl ⊢
      · exact findOrMake_preserve _ _ _ _ _ _ (by rw [hpm]; exact hl)
      · rw [hpm]; exact hl
      · rw [hpm]; exact hl
    · -- BlockCookies rule
      rw [Option.some_inj] at h
      subst h
      rcases hT with h2 | h2 | h2 <;> subst h2 <;>
        simp only [dedupMapFor] at hpm hl ⊢
      · rw [hpm]; exact hl
      · exact findOrMake_preserve _ _ _ _ _ _ (by rw [hpm]; exact hl)
      · rw [hpm]; exact hl
    · -- MakeHTTPS rule
      rw [Option.some_inj] at h
      subst h
      rcases hT with h2 | h2 | h2 <;> subst h2 <;>
        simp only [dedupMapFor] at hpm hl ⊢
      · rw [hpm]; exact hl
      · rw [hpm]; exact hl
      · exact findOrMake_preserve _ _ _ _ _ _ (by rw [hpm]; exact hl)

/-- An ignore-previous-rules step preserves existing bindings of the
ignore-previous-rules dedup map. -/
theorem step_ignore_preserve {s0 : SAState} {r : ContentExtensionRule} {s' : SAState}
    {f L : Nat}
    (hr : r.action.type = ActionType.IgnorePreviousRules)
    (h : serializeActionsStep s0 r = some s')
    (hl : alookup s0.ignorePreviousRuleActionsMap f = some L) :
    alookup s'.ignorePreviousRuleActionsMap f = some L := by
  have hpm : (ignorePreamble s0 r.action.type).ignorePreviousRuleActionsMap
      = s0.ignorePreviousRuleActionsMap := by
    rw [hr]
    simp only [ignorePreamble, if_pos]
    show (resolvePendingDisplayNoneActions s0).ignorePreviousRuleActionsMap = _
    exact resolveGroups_ignoreMap s0 _
  simp only [serializeActionsStep] at h
  split at h
  · rw [Option.some_inj] at h
    subst h
    show alookup (ignorePreamble s0 r.action.type).ignorePreviousRuleActionsMap f = some L
    rw [hpm]
    exact hl
  · split at h
    · exact Option.noConfusion h
    · exact Option.noConfusion h
    · rename_i heq
      rw [hr] at heq
      exact absurd heq.symm (by simp)
    · rw [Option.some_inj] at h
      subst h
      exact findOrMake_preserve _ _ _ _ _ _ (by rw [hpm]; exact hl)
    all_goals (
      rename_i heq
      rw [hr] at heq
      exact absurd heq.symm (by simp))

theorem aux_dedup_preserve {s : SAState} {rs : List ContentExtensionRule} {s' : SAState}
    {t : ActionType} {f L : Nat}
    (hT : t = ActionType.BlockLoad ∨ t = ActionType.BlockCookies ∨ t = ActionType.MakeHTTPS)
    (hno : ∀ r ∈ rs, r.action.type ≠ ActionType.IgnorePreviousRules)
    (h : serializeActionsAux s rs = some s')
    (hl : alookup (dedupMapFor t s) f = some L) :
    alookup (dedupMapFor t s') f = some L := by
  induction rs generalizing s with
  | nil => exact (Option.some_inj.mp h) ▸ hl
  | cons r rs ih =>
    rw [serializeActionsAux] at h
    cases hstep : serializeActionsStep s r with
    | none => rw [hstep] at h; exact Option.noConfusion h
    | some s2 =>
      rw [hstep] at h
      exact ih (fun r' hr' => hno r' (List.mem_cons_of_mem _ hr')) h
        (step_dedup_preserve hT (hno r (List.mem_cons_self _ _)) hstep hl)

theorem aux_ignore_preserve {s : SAState} {rs : List ContentExtensionRule} {s' : SAState}
    {f L : Nat}
    (hall : ∀ r ∈ rs, r.action.type = ActionType.IgnorePreviousRules)
    (h : serializeActionsAux s rs = some s')
    (hl : alookup s.ignorePreviousRuleActionsMap f = some L) :
    alookup s'.ignorePreviousRuleActionsMap f = some L := by
  induction rs generalizing s with
  | nil => exact (Option.some_inj.mp h) ▸ hl
  | cons r rs ih =>
    rw [serializeActionsAux] at h
    cases hstep : serializeActionsStep s r with
    | none => rw [hstep] at h; exact Option.noConfusion h
    | some s2 =>
      rw [hstep] at h
      exact ih (fun r' hr' => hall r' (List.mem_cons_of_mem _ hr')) h
        (step_ignore_preserve (hall r (List.mem_cons_self _ _)) hstep hl)

theorem aux_singleton (s : SAState) (r : ContentExtensionRule) :
    serializeActionsAux s [r] = serializeActionsStep s r := by
  rw [serializeActionsAux]
  cases serializeActionsStep s r with
  | none => rfl
  | some s' => rfl

theorem aux_prefix_some {s : SAState} {l1 l2 : List ContentExtensionRule} {s2 : SAState}
    (h : serializeActionsAux s (l1 ++ l2) = some s2) :
    ∃ s1, serializeActionsAux s l1 = some s1 ∧ serializeActionsAux s1 l2 = some s2 := by
  rw [aux_append] at h
  cases haux : serializeActionsAux s l1 with
  | none => rw [haux] at h; exact Option.noConfusion h
  | some s1 =>
    rw [haux] at h
    exact ⟨s1, rfl, h⟩

theorem serializeActions_unpack {rules : List ContentExtensionRule}
    {acts locs : List Nat} (h : serializeActions rules = some (acts, locs)) :
    ∃ sfin, serializeActionsAux initialSAState rules = some sfin ∧
      acts = (resolvePendingDisplayNoneActions sfin).actions ∧
      locs = (resolvePendingDisplayNoneActions sfin).actionLocations := by
  simp only [serializeActions, serializeActionsFull] at h
  cases haux : serializeActionsAux initialSAState rules with
  | none => rw [haux] at h; exact Option.noConfusion h
  | some sfin =>
    rw [haux] at h
    simp only [Option.map_some', Option.some_inj] at h
    obtain ⟨h1, h2⟩ := Prod.mk.injEq .. ▸ h
    exact ⟨sfin, rfl, h1.symm, h2.symm⟩

/-- Core dedup lemma: two unconditioned non-CSS rules of the same action type
and resource flags receive the same action location, provided no
`IgnorePreviousRules` rule lies strictly between them (and, when the shared
type is itself `IgnorePreviousRules`, every rule strictly between them is
also of that type). -/
theorem serializeActions_dedup_locations
    (rules : List ContentExtensionRule) (acts locs : List Nat)
    (h : serializeActions rules = some (acts, locs))
    (hsmall : acts.length < sentinelLocation)
    (i j : Nat) (ri rj : ContentExtensionRule)
    (hij : i < j)
    (hi : rules[i]? = some ri) (hj : rules[j]? = some rj)
    (hci : ri.trigger.conditions = []) (hcj : rj.trigger.conditions = [])
    (htype : ri.action.type = rj.action.type)
    (hflags : ri.trigger.flags = rj.trigger.flags)
    (hncss : ri.action.type ≠ ActionType.CSSDisplayNoneSelector)
    (hmidA : ri.action.type ≠ ActionType.IgnorePreviousRules →
      ∀ k rk, i < k → k < j → rules[k]? = some rk →
        rk.action.type ≠ ActionType.IgnorePreviousRules)
    (hmidB : ri.action.type = ActionType.IgnorePreviousRules →
      ∀ k rk, i < k → k < j → rules[k]? = some rk →
        rk.action.type = ActionType.IgnorePreviousRules) :
    ∃ L, locs[i]? = some L ∧ locs[j]? = some L := by
  obtain ⟨sfin, hsfin, hacts, hlocs⟩ := serializeActions_unpack h
  have hjlen : j < rules.length := (List.getElem?_eq_some.mp hj).1
  have hilen : i < rules.length := Nat.lt_trans hij hjlen
  have hsfin' : serializeActionsAux initialSAState (rules.take (i+1) ++ rules.drop (i+1))
      = some sfin := by
    rw [List.take_append_drop]
    exact hsfin
  obtain ⟨si1, hsi1, hrest⟩ := aux_prefix_some hsfin'
  have htake1 : rules.take (i+1) = rules.take i ++ [ri] := by
    rw [List.take_succ, hi]
    rfl
  rw [htake1] at hsi1
  obtain ⟨si, hsi, hstepi0⟩ := aux_prefix_some hsi1
  rw [aux_singleton] at hstepi0
  have hinv_si : SAInv si := aux_sainv initial_sainv hsi
  have hinv_si1 : SAInv si1 := step_sainv hinv_si hstepi0
  have hlensi : si.actionLocations.length = i := by
    have h1 := aux_locs_length hsi
    rw [show initialSAState.actionLocations.length = 0 from rfl] at h1
    rw [h1, List.length_take]
    omega
  obtain ⟨L, hlocseq, hlook, _⟩ := step_dedup_assign hci hncss hstepi0
  have hpreleni : (ignorePreamble si ri.action.type).actionLocations.length = i := by
    rw [preamble_locs_length, hlensi]
  have hvi : si1.actionLocations[i]? = some L := by
    rw [hlocseq, ← hpreleni]
    simp
  have hLlt : L < si1.actions.length :=
    dedupMapFor_bound _ _ hinv_si1 _ (alookup_some_mem _ _ _ hlook)
  have hfinle : si1.actions.length ≤ acts.length := by
    rw [hacts]
    exact Nat.le_trans (aux_actions_le hrest) (resolvePending_actions_le sfin)
  have hLne : L ≠ sentinelLocation := by
    have : acts.length < sentinelLocation := hsmall
    omega
  -- decompose the remainder at rule j
  have hdrop : rules.drop (i+1)
      = (rules.drop (i+1)).take (j - (i+1)) ++ (rules.drop (i+1)).drop (j - (i+1)) :=
    (List.take_append_drop _ _).symm
  rw [hdrop] at hrest
  obtain ⟨sj, hsjmid, hrestj⟩ := aux_prefix_some hrest
  have hmidmem : ∀ r' ∈ (rules.drop (i+1)).take (j - (i+1)),
      ∃ k rk, i < k ∧ k < j ∧ rules[k]? = some rk ∧ rk = r' := by
    intro r' hr'
    obtain ⟨k', hk'⟩ := List.mem_iff_getElem?.mp hr'
    have hk'lt : k' < j - (i+1) := by
      have := (List.getElem?_eq_some.mp hk').1
      have h2 : ((rules.drop (i+1)).take (j - (i+1))).length ≤ j - (i+1) := by
        rw [List.length_take]
        omega
      omega
    rw [List.getElem?_take] at hk'
    rw [if_pos hk'lt] at hk'
    rw [List.getElem?_drop] at hk'
    exact ⟨i + 1 + k', r', by omega, by omega, hk', rfl⟩
  have hlookj : alookup (dedupMapFor ri.action.type sj) ri.trigger.flags = some L := by
    by_cases hig : ri.action.type = ActionType.IgnorePreviousRules
    · have hall : ∀ r' ∈ (rules.drop (i+1)).take (j - (i+1)),
          r'.action.type = ActionType.IgnorePreviousRules := by
        intro r' hr'
        obtain ⟨k, rk, hk1, hk2, hk3, hk4⟩ := hmidmem r' hr'
        exact hk4 ▸ hmidB hig k rk hk1 hk2 hk3
      rw [hig] at hlook ⊢
      exact aux_ignore_preserve hall hsjmid hlook
    · have hno : ∀ r' ∈ (rules.drop (i+1)).take (j - (i+1)),
          r'.action.type ≠ ActionType.IgnorePreviousRules := by
        intro r' hr'
        obtain ⟨k, rk, hk1, hk2, hk3, hk4⟩ := hmidmem r' hr'
        exact hk4 ▸ hmidA hig k rk hk1 hk2 hk3
      have hT : ri.action.type = ActionType.BlockLoad
          ∨ ri.action.type = ActionType.BlockCookies
          ∨ ri.action.type = ActionType.MakeHTTPS := by
        cases he : ri.action.type
        · exact Or.inl rfl
        · exact Or.inr (Or.inl rfl)
        · exact absurd he hncss
        · rw [he] at hlook
          simp [dedupMapFor, alookup] at hlook
        · exact absurd he hig
        · exact Or.inr (Or.inr rfl)
        · rw [he] at hlook
          simp [dedupMapFor, alookup] at hlook
      exact aux_dedup_preserve hT hno hsjmid hlook
  have hlensj : sj.actionLocations.length = j := by
    have h1 := aux_locs_length hsjmid
    have h2 := step_locs_length hstepi0
    have h3 : ((rules.drop (i+1)).take (j - (i+1))).length = j - (i+1) := by
      rw [List.length_take, List.length_drop]
      omega
    omega
  have hdropdrop : (rules.drop (i+1)).drop (j - (i+1)) = rules.drop j := by
    rw [List.drop_drop]
    congr 1
    omega
  have htailj : rules.drop j = rj :: rules.drop (j+1) := by
    rw [List.drop_eq_getElem_cons hjlen]
    have : rules[j] = rj := by
      have h2 := (List.getElem?_eq_some.mp hj).2
      exact h2
    rw [this]
  rw [hdropdrop, htailj] at hrestj
  simp only [serializeActionsAux] at hrestj
  cases hstepj : serializeActionsStep sj rj with
  | none => rw [hstepj] at hrestj; exact Option.noConfusion hrestj
  | some sj1 =>
    rw [hstepj] at hrestj
    obtain ⟨L', hlocseq', hlook', hhit⟩ :=
      step_dedup_assign hcj (htype ▸ hncss) hstepj
    have hLeq : L' = L := by
      refine hhit L ?_
      rw [← htype, ← hflags]
      exact hlookj
    have hinv_sj : SAInv sj := aux_sainv hinv_si1 hsjmid
    have hinv_sj1 : SAInv sj1 := step_sainv hinv_sj hstepj
    have hprelenj : (ignorePreamble sj rj.action.type).actionLocations.length = j := by
      rw [preamble_locs_length, hlensj]
    have hvj : sj1.actionLocations[j]? = some L := by
      rw [hlocseq', ← hprelenj, hLeq]
      simp
    have hstab_i : sfin.actionLocations[i]? = some L := by
      have h1 : si1.actionLocations[i]? = some L := hvi
      have h2 := aux_getElem_stable hinv_si1
        (show serializeActionsAux si1 ((rules.drop (i+1)).take (j - (i+1))
          ++ (rules.drop (i+1)).drop (j - (i+1))) = some sfin from by
          rw [aux_append, hsjmid]
          rw [hdropdrop, htailj]
          simp only [serializeActionsAux, Option.some_bind]
          rw [hstepj]
          exact hrestj) h1 hLne
      exact h2
    have hstab_j : sfin.actionLocations[j]? = some L :=
      aux_getElem_stable hinv_sj1 hrestj hvj hLne
    have hinv_fin : SAInv sfin := aux_sainv hinv_sj1 hrestj
    refine ⟨L, ?_, ?_⟩ <;> rw [hlocs]
    · exact resolvePending_getElem_stable hinv_fin hstab_i hLne
    · exact resolvePending_getElem_stable hinv_fin hstab_j hLne

/-! ### Tracking one trigger's pending display-none group -/

/-- The selector arguments of the unconditioned `CSSDisplayNoneSelector`
rules with trigger `T`, in rule order. -/
def cssSelsOf (T : Trigger) : List ContentExtensionRule → List String
  | [] => []
  | r :: rs =>
    if r.action.type = ActionType.CSSDisplayNoneSelector ∧ r.trigger = T then
      r.action.stringArgument :: cssSelsOf T rs
    else
      cssSelsOf T rs

/-- The rule indices (counted from `base`) of the unconditioned
`CSSDisplayNoneSelector` rules with trigger `T`. -/
def cssClientsOf (T : Trigger) (base : Nat) : List ContentExtensionRule → List Nat
  | [] => []
  | r :: rs =>
    if r.action.type = ActionType.CSSDisplayNoneSelector ∧ r.trigger = T then
      base :: cssClientsOf T (base + 1) rs
    else
      cssClientsOf T (base + 1) rs

theorem cssSelsOf_append (T : Trigger) (l1 l2 : List ContentExtensionRule) :
    cssSelsOf T (l1 ++ l2) = cssSelsOf T l1 ++ cssSelsOf T l2 := by
  induction l1 with
  | nil => rfl
  | cons r l1 ih =>
    by_cases hr : r.action.type = ActionType.CSSDisplayNoneSelector ∧ r.trigger = T
    · simp [cssSelsOf, hr, ih]
    · simp [cssSelsOf, hr, ih]

theorem cssClientsOf_append (T : Trigger) (base : Nat) (l1 l2 : List ContentExtensionRule) :
    cssClientsOf T base (l1 ++ l2)
      = cssClientsOf T base l1 ++ cssClientsOf T (base + l1.length) l2 := by
  induction l1 generalizing base with
  | nil => simp [cssClientsOf]
  | cons r l1 ih =>
    by_cases hr : r.action.type = ActionType.CSSDisplayNoneSelector ∧ r.trigger = T
    · simp only [List.cons_append, cssClientsOf, hr, and_self, if_pos, List.append_eq]
      rw [ih (base + 1)]
      have harith : base + 1 + l1.length = base + (l1.length + 1) := by omega
      rw [harith]
      simp
    · simp only [List.cons_append, cssClientsOf, hr, if_neg, if_false, List.append_eq]
      rw [ih (base + 1)]
      have harith : base + 1 + l1.length = base + (l1.length + 1) := by omega
      rw [harith]
      simp

theorem cssClientsOf_mem (T : Trigger) (rs : List ContentExtensionRule) (base k : Nat)
    (rk : ContentExtensionRule) (hk : rs[k]? = some rk)
    (hcss : rk.action.type = ActionType.CSSDisplayNoneSelector) (hT : rk.trigger = T) :
    base + k ∈ cssClientsOf T base rs := by
  induction rs generalizing base k with
  | nil => simp at hk
  | cons r rs ih =>
    cases k with
    | zero =>
      simp only [List.getElem?_cons_zero, Option.some_inj] at hk
      subst hk
      simp [cssClientsOf, hcss, hT]
    | succ k =>
      simp only [List.getElem?_cons_succ] at hk
      have h2 := ih (base + 1) k hk
      by_cases hr : r.action.type = ActionType.CSSDisplayNoneSelector ∧ r.trigger = T
      · simp only [cssClientsOf, hr, and_self, if_pos]
        refine List.mem_cons_of_mem _ ?_
        have : base + 1 + k = base + (k + 1) := by omega
        rw [← this]
        exact h2
      · simp only [cssClientsOf, hr, if_neg, if_false]
        have : base + 1 + k = base + (k + 1) := by omega
        rw [← this]
        exact h2

theorem preamble_ignore_locs (s : SAState) :
    (ignorePreamble s ActionType.IgnorePreviousRules).actionLocations
      = (resolvePendingDisplayNoneActions s).actionLocations := by
  simp [ignorePreamble]

theorem preamble_ignore_sel (s : SAState) :
    (ignorePreamble s ActionType.IgnorePreviousRules).selEntries
      = (resolvePendingDisplayNoneActions s).selEntries := by
  simp [ignorePreamble]

/-- Every branch of the per-rule loop only appends to the action-location
array left by the preamble. -/
theorem step_after_preamble_getElem {s0 : SAState} {r : ContentExtensionRule}
    {s' : SAState} {i v : Nat} (h : serializeActionsStep s0 r = some s')
    (hv : (ignorePreamble s0 r.action.type).actionLocations[i]? = some v) :
    s'.actionLocations[i]? = some v := by
  have hb := (List.getElem?_eq_some.mp hv).1
  simp only [serializeActionsStep] at h
  split at h
  · rw [Option.some_inj] at h
    subst h
    dsimp only
    rw [getElem_append_lt _ _ _ hb]
    exact hv
  · split at h
    · exact Option.noConfusion h
    · exact Option.noConfusion h
    all_goals
      rw [Option.some_inj] at h
      subst h
      dsimp only
      rw [getElem_append_lt _ _ _ hb]
      exact hv

/-- Every branch of the per-rule loop only appends to the selector-entry
trace left by the preamble. -/
theorem step_after_preamble_sel {s0 : SAState} {r : ContentExtensionRule}
    {s' : SAState} {e : Nat × String} (h : serializeActionsStep s0 r = some s')
    (he : e ∈ (ignorePreamble s0 r.action.type).selEntries) :
    e ∈ s'.selEntries := by
  simp only [serializeActionsStep] at h
  split at h
  · rw [Option.some_inj] at h
    subst h
    dsimp only
    split
    · exact List.mem_append_left _ he
    · exact he
  · split at h
    · exact Option.noConfusion h
    · exact Option.noConfusion h
    all_goals
      rw [Option.some_inj] at h
      subst h
      exact he

/-- An unconditioned CSS rule extends (or creates) the pending group of its
own trigger, adding its selector argument and its rule index. -/
theorem step_css_lookup_self {s : SAState} {r : ContentExtensionRule} {s' : SAState}
    (hcss : r.action.type = ActionType.CSSDisplayNoneSelector)
    (hc : r.trigger.conditions = [])
    (h : serializeActionsStep s r = some s') :
    alookup s'.cssDisplayNoneActionsMap r.trigger
      = some ⟨((alookup s.cssDisplayNoneActionsMap r.trigger).getD ⟨[], []⟩).selectors
          ++ [r.action.stringArgument],
        ((alookup s.cssDisplayNoneActionsMap r.trigger).getD ⟨[], []⟩).clientLocations
          ++ [s.actionLocations.length]⟩ := by
  have hpre : ignorePreamble s r.action.type = { s with ignorePreviousRuleActionsMap := [] } := by
    rw [hcss]
    simp [ignorePreamble]
  simp only [serializeActionsStep] at h
  split at h
  · rename_i hcnd
    exact absurd hc hcnd
  · split at h
    · exact Option.noConfusion h
    · exact Option.noConfusion h
    · rw [Option.some_inj] at h
      subst h
      dsimp only
      rw [hpre]
      exact alookup_aset_self _ _ _
    all_goals (
      rename_i heq
      rw [hcss] at heq
      exact absurd heq.symm (by simp))

/-- Any other non-ignore rule leaves trigger `T`'s pending group (present or
absent) unchanged. -/
theorem step_css_lookup_other {s : SAState} {r : ContentExtensionRule} {s' : SAState}
    (T : Trigger)
    (hig : r.action.type ≠ ActionType.IgnorePreviousRules)
    (hne : ¬(r.action.type = ActionType.CSSDisplayNoneSelector ∧ r.trigger = T
      ∧ r.trigger.conditions = []))
    (h : serializeActionsStep s r = some s') :
    alookup s'.cssDisplayNoneActionsMap T = alookup s.cssDisplayNoneActionsMap T := by
  have hpre : (ignorePreamble s r.action.type).cssDisplayNoneActionsMap
      = s.cssDisplayNoneActionsMap := by
    simp [ignorePreamble, hig]
  simp only [serializeActionsStep] at h
  split at h
  · rw [Option.some_inj] at h
    subst h
    dsimp only
    rw [hpre]
  · rename_i hcnd
    split at h
    · exact Option.noConfusion h
    · exact Option.noConfusion h
    · rename_i heq
      rw [Option.some_inj] at h
      subst h
      dsimp only
      have hTne : r.trigger ≠ T := by
        intro hT
        exact hne ⟨heq, hT, not_not.mp hcnd⟩
      rw [alookup_aset_ne _ _ _ _ hTne, hpre]
    all_goals (
      rw [Option.some_inj] at h
      subst h
      dsimp only
      rw [hpre])

/-- An ignore rule leaves the pending map empty. -/
theorem step_ignore_cssMap {s : SAState} {r : ContentExtensionRule} {s' : SAState}
    (hig : r.action.type = ActionType.IgnorePreviousRules)
    (h : serializeActionsStep s r = some s') :
    s'.cssDisplayNoneActionsMap = [] := by
  have hpre : (ignorePreamble s r.action.type).cssDisplayNoneActionsMap = [] := by
    rw [hig]
    simp [ignorePreamble]
  simp only [serializeActionsStep] at h
  split at h
  · rw [Option.some_inj] at h
    subst h
    exact hpre
  · split at h
    · exact Option.noConfusion h
    · exact Option.noConfusion h
    · rename_i heq
      rw [hig] at heq
      exact absurd heq.symm (by simp)
    · rw [Option.some_inj] at h
      subst h
      exact hpre
    all_goals (
      rename_i heq
      rw [hig] at heq
      exact absurd heq.symm (by simp))

theorem aux_css_lookup_none {T : Trigger} {s s' : SAState}
    {rs : List ContentExtensionRule}
    (hnoT : ∀ r ∈ rs, ¬(r.action.type = ActionType.CSSDisplayNoneSelector ∧ r.trigger = T))
    (hlk : alookup s.cssDisplayNoneActionsMap T = none)
    (h : serializeActionsAux s rs = some s') :
    alookup s'.cssDisplayNoneActionsMap T = none := by
  induction rs generalizing s with
  | nil => exact (Option.some_inj.mp h) ▸ hlk
  | cons r rs ih =>
    rw [serializeActionsAux] at h
    cases hstep : serializeActionsStep s r with
    | none => rw [hstep] at h; exact Option.noConfusion h
    | some s2 =>
      rw [hstep] at h
      refine ih (fun r' hr' => hnoT r' (List.mem_cons_of_mem _ hr')) ?_ h
      by_cases hig : r.action.type = ActionType.IgnorePreviousRules
      · rw [step_ignore_cssMap hig hstep]
        rfl
      · rw [step_css_lookup_other T hig
          (fun hx => hnoT r (List.mem_cons_self _ _) ⟨hx.1, hx.2.1⟩) hstep]
        exact hlk

/-- Across an ignore-free run, the pending group of trigger `T` accumulates
exactly the selectors and rule indices of the unconditioned CSS rules with
trigger `T`, in rule order. -/
theorem aux_css_accum {T : Trigger} {g : PendingDisplayNoneActions} {s s' : SAState}
    {rs : List ContentExtensionRule}
    (hTc : T.conditions = [])
    (hno : ∀ r ∈ rs, r.action.type ≠ ActionType.IgnorePreviousRules)
    (hlk : alookup s.cssDisplayNoneActionsMap T = some g)
    (h : serializeActionsAux s rs = some s') :
    alookup s'.cssDisplayNoneActionsMap T
      = some ⟨g.selectors ++ cssSelsOf T rs,
              g.clientLocations ++ cssClientsOf T s.actionLocations.length rs⟩ := by
  induction rs generalizing s g with
  | nil =>
    rw [← Option.some_inj.mp h]
    rw [hlk]
    simp [cssSelsOf, cssClientsOf]
  | cons r rs ih =>
    rw [serializeActionsAux] at h
    cases hstep : serializeActionsStep s r with
    | none => rw [hstep] at h; exact Option.noConfusion h
    | some s2 =>
      rw [hstep] at h
      have hlen2 : s2.actionLocations.length = s.actionLocations.length + 1 :=
        step_locs_length hstep
      by_cases hr : r.action.type = ActionType.CSSDisplayNoneSelector ∧ r.trigger = T
      · have hc : r.trigger.conditions = [] := by rw [hr.2, hTc]
        have hlk2 := step_css_lookup_self hr.1 hc hstep
        rw [hr.2, hlk, Option.getD_some] at hlk2
        have ih2 := ih (fun r' hr' => hno r' (List.mem_cons_of_mem _ hr')) hlk2 h
        rw [ih2, hlen2]
        simp only [cssSelsOf, cssClientsOf, hr, and_self, if_pos]
        rw [List.append_assoc, List.append_assoc]
        rfl
      · have hlk2 : alookup s2.cssDisplayNoneActionsMap T = some g := by
          rw [step_css_lookup_other T (hno r (List.mem_cons_self _ _))
            (fun hx => hr ⟨hx.1, hx.2.1⟩) hstep]
          exact hlk
        have ih2 := ih (fun r' hr' => hno r' (List.mem_cons_of_mem _ hr')) hlk2 h
        rw [ih2, hlen2]
        simp only [cssSelsOf, cssClientsOf, hr, if_neg, if_false]

theorem preamble_ignore_actions (s : SAState) :
    (ignorePreamble s ActionType.IgnorePreviousRules).actions
      = (resolvePendingDisplayNoneActions s).actions := by
  simp [ignorePreamble]

theorem step_after_preamble_actions_le {s0 : SAState} {r : ContentExtensionRule}
    {s' : SAState} (h : serializeActionsStep s0 r = some s') :
    (ignorePreamble s0 r.action.type).actions.length ≤ s'.actions.length := by
  simp only [serializeActionsStep] at h
  split at h
  · rw [Option.some_inj] at h
    subst h
    dsimp only
    split
    · exact Nat.le_of_lt (serializeSelector_length_lt _ _)
    · simp
  · split at h
    · exact Option.noConfusion h
    · exact Option.noConfusion h
    · rw [Option.some_inj] at h
      subst h
      exact Nat.le_refl _
    all_goals (
      rw [Option.some_inj] at h
      subst h
      exact findOrMake_actions_le _ _ _ _)

/-- Resolving the whole pending map serializes, for each group, one combined
comma-joined selector entry and backfills all its owning slots with that
entry's offset. -/
theorem resolveGroups_resolves (s : SAState) (G : List (Trigger × PendingDisplayNoneActions))
    (T : Trigger) (g : PendingDisplayNoneActions)
    (hmem : (T, g) ∈ G)
    (hnd : (clientsFlatten G).Nodup)
    (hcl : ∀ cl ∈ clientsFlatten G, cl < s.actionLocations.length) :
    ∃ L, (∀ cl ∈ g.clientLocations, (resolveGroups s G).actionLocations[cl]? = some L)
      ∧ (L, String.intercalate "," g.selectors) ∈ (resolveGroups s G).selEntries
      ∧ L < (resolveGroups s G).actions.length := by
  induction G generalizing s with
  | nil => exact absurd hmem (List.not_mem_nil _)
  | cons g0 G ih =>
    rw [clientsFlatten] at hnd hcl
    rcases List.mem_cons.mp hmem with heq | hmem2
    · subst heq
      refine ⟨s.actions.length, ?_, ?_, ?_⟩
      · intro cl hcl2
        rw [resolveGroups]
        have hdisj : cl ∉ clientsFlatten G :=
          fun hx => (List.nodup_append.mp hnd).2.2 hcl2 hx
        rw [resolveGroups_getElem_ne _ _ _ hdisj]
        simp only [resolveOneGroup]
        exact setAll_getElem_mem _ _ _ _ hcl2 (hcl cl (List.mem_append_left _ hcl2))
      · rw [resolveGroups]
        refine resolveGroups_sel_mem _ _ _ ?_
        simp only [resolveOneGroup]
        exact List.mem_append_right _ (List.mem_singleton.mpr rfl)
      · rw [resolveGroups]
        exact Nat.lt_of_lt_of_le (resolveOneGroup_actions_lt s _)
          (resolveGroups_actions_le _ _)
    · rw [resolveGroups]
      refine ih _ hmem2 (List.nodup_append.mp hnd).2.1 ?_
      intro cl hcl2
      rw [resolveOneGroup_locs_length]
      exact hcl cl (List.mem_append_right _ hcl2)

theorem resolvePending_resolves {s : SAState} {T : Trigger}
    {g : PendingDisplayNoneActions} (hinv : SAInv s)
    (hlk : alookup s.cssDisplayNoneActionsMap T = some g) :
    ∃ L, (∀ cl ∈ g.clientLocations,
        (resolvePendingDisplayNoneActions s).actionLocations[cl]? = some L)
      ∧ (L, String.intercalate "," g.selectors)
          ∈ (resolvePendingDisplayNoneActions s).selEntries
      ∧ L < (resolvePendingDisplayNoneActions s).actions.length := by
  have hmem := alookup_some_mem _ _ _ hlk
  have hcl : ∀ cl ∈ clientsFlatten s.cssDisplayNoneActionsMap,
      cl < s.actionLocations.length := by
    intro cl hclm
    obtain ⟨g', hg', hcl'⟩ := clientsFlatten_mem_exists _ _ hclm
    exact (List.getElem?_eq_some.mp (hinv.pend g' hg' _ hcl')).1
  exact resolveGroups_resolves s _ T g hmem hinv.cnodup hcl

/-- Once trigger `T`'s group is pending, and no further unconditioned CSS rule
with trigger `T` follows, the group is flushed exactly once — either by a
later ignore rule or by the final resolution — into one comma-joined entry
whose offset is backfilled into every owning slot. -/
theorem aux_flush {T : Trigger} {g : PendingDisplayNoneActions} {s s' : SAState}
    {rs : List ContentExtensionRule}
    (hinv : SAInv s)
    (hlk : alookup s.cssDisplayNoneActionsMap T = some g)
    (hnoT : ∀ r ∈ rs, ¬(r.action.type = ActionType.CSSDisplayNoneSelector ∧ r.trigger = T))
    (h : serializeActionsAux s rs = some s')
    (hsmall : (resolvePendingDisplayNoneActions s').actions.length < sentinelLocation) :
    ∃ L, (∀ cl ∈ g.clientLocations,
        (resolvePendingDisplayNoneActions s').actionLocations[cl]? = some L)
      ∧ (L, String.intercalate "," g.selectors)
          ∈ (resolvePendingDisplayNoneActions s').selEntries := by
  induction rs generalizing s with
  | nil =>
    obtain ⟨L, h1, h2, h3⟩ := resolvePending_resolves hinv hlk
    rw [← Option.some_inj.mp h]
    exact ⟨L, h1, h2⟩
  | cons r rs ih =>
    rw [serializeActionsAux] at h
    cases hstep : serializeActionsStep s r with
    | none => rw [hstep] at h; exact Option.noConfusion h
    | some s2 =>
      rw [hstep] at h
      have hinv2 := step_sainv hinv hstep
      by_cases hig : r.action.type = ActionType.IgnorePreviousRules
      · obtain ⟨L, hL1, hL2, hL3⟩ := resolvePending_resolves hinv hlk
        have hpreacts : (ignorePreamble s r.action.type).actions
            = (resolvePendingDisplayNoneActions s).actions := by
          rw [hig, preamble_ignore_actions]
        have hLfin : L < (resolvePendingDisplayNoneActions s').actions.length := by
          have h1 : (resolvePendingDisplayNoneActions s).actions.length
              ≤ s2.actions.length := by
            rw [← hpreacts]
            exact step_after_preamble_actions_le hstep
          have h2 : s2.actions.length ≤ s'.actions.length := aux_actions_le h
          have h3 : s'.actions.length
              ≤ (resolvePendingDisplayNoneActions s').actions.length :=
            resolvePending_actions_le s'
          omega
        have hLne : L ≠ sentinelLocation := by
          intro he
          rw [he] at hLfin
          exact absurd (Nat.lt_trans hsmall hLfin) (Nat.lt_irrefl _)
        refine ⟨L, ?_, ?_⟩
        · intro cl hcl2
          have hs2 : s2.actionLocations[cl]? = some L := by
            refine step_after_preamble_getElem hstep ?_
            rw [hig, preamble_ignore_locs]
            exact hL1 cl hcl2
          exact resolvePending_getElem_stable (aux_sainv hinv2 h)
            (aux_getElem_stable hinv2 h hs2 hLne) hLne
        · refine resolvePending_sel_mem (aux_sel_mem h ?_)
          refine step_after_preamble_sel hstep ?_
          rw [hig, preamble_ignore_sel]
          exact hL2
      · have hlk2 : alookup s2.cssDisplayNoneActionsMap T = some g := by
          rw [step_css_lookup_other T hig
            (fun hx => hnoT r (List.mem_cons_self _ _) ⟨hx.1, hx.2.1⟩) hstep]
          exact hlk
        exact ih hinv2 hlk2 (fun r' hr' => hnoT r' (List.mem_cons_of_mem _ hr')) h

theorem pairwise_fst_unique {α β : Type} {l : List (α × β)} [PartialOrder α]
    (hp : l.Pairwise (fun a b => a.1 < b.1))
    (e e' : α × β) (he : e ∈ l) (he' : e' ∈ l) (heq : e.1 = e'.1) : e = e' := by
  induction l with
  | nil => exact absurd he (List.not_mem_nil e)
  | cons x l ih =>
    obtain ⟨hx, hp'⟩ := List.pairwise_cons.mp hp
    rcases List.mem_cons.mp he with h1 | h1 <;> rcases List.mem_cons.mp he' with h2 | h2
    · rw [h1, h2]
    · subst h1
      have := hx e' h2
      rw [heq] at this
      exact absurd this (lt_irrefl _)
    · subst h2
      have := hx e h1
      rw [heq] at this
      exact absurd this (lt_irrefl _)
    · exact ih hp' h1 h2

/-- Main accumulation-and-flush lemma: starting from a pending group `g` for
trigger `T`, an ignore-free-before-every-later-CSS-`T`-rule remainder extends
the group with exactly the later CSS-`T` selectors and indices, and the
combined group is eventually serialized as one comma-joined entry whose
offset is backfilled into every owning slot. -/
theorem aux_css_main {T : Trigger} {g : PendingDisplayNoneActions} {s s' : SAState}
    {rs : List ContentExtensionRule}
    (hTc : T.conditions = [])
    (hinv : SAInv s)
    (hlk : alookup s.cssDisplayNoneActionsMap T = some g)
    (hnoign : ∀ (k : Nat) (rk : ContentExtensionRule) (j : Nat)
      (rj : ContentExtensionRule), rs[k]? = some rk → rs[j]? = some rj → k < j →
      rj.action.type = ActionType.CSSDisplayNoneSelector → rj.trigger = T →
      rk.action.type ≠ ActionType.IgnorePreviousRules)
    (h : serializeActionsAux s rs = some s')
    (hsmall : (resolvePendingDisplayNoneActions s').actions.length < sentinelLocation) :
    ∃ L, (∀ cl ∈ g.clientLocations ++ cssClientsOf T s.actionLocations.length rs,
        (resolvePendingDisplayNoneActions s').actionLocations[cl]? = some L)
      ∧ (L, String.intercalate "," (g.selectors ++ cssSelsOf T rs))
          ∈ (resolvePendingDisplayNoneActions s').selEntries := by
  induction rs generalizing s g with
  | nil =>
    obtain ⟨L, h1, h2, _⟩ := resolvePending_resolves hinv hlk
    rw [← Option.some_inj.mp h]
    refine ⟨L, ?_, ?_⟩
    · intro cl hcl
      rw [cssClientsOf, List.append_nil] at hcl
      exact h1 cl hcl
    · rw [cssSelsOf, List.append_nil]
      exact h2
  | cons r rs ih =>
    rw [serializeActionsAux] at h
    cases hstep : serializeActionsStep s r with
    | none => rw [hstep] at h; exact Option.noConfusion h
    | some s2 =>
      rw [hstep] at h
      have hinv2 := step_sainv hinv hstep
      have hlen2 : s2.actionLocations.length = s.actionLocations.length + 1 :=
        step_locs_length hstep
      by_cases hr : r.action.type = ActionType.CSSDisplayNoneSelector ∧ r.trigger = T
      · -- the rule joins the group
        have hc : r.trigger.conditions = [] := by rw [hr.2, hTc]
        have hlk2 := step_css_lookup_self hr.1 hc hstep
        rw [hr.2, hlk, Option.getD_some] at hlk2
        have hnoign2 : ∀ (k : Nat) (rk : ContentExtensionRule) (j : Nat)
            (rj : ContentExtensionRule), rs[k]? = some rk → rs[j]? = some rj → k < j →
            rj.action.type = ActionType.CSSDisplayNoneSelector → rj.trigger = T →
            rk.action.type ≠ ActionType.IgnorePreviousRules := by
          intro k rk j rj hk hj hkj hcssj hTj
          exact hnoign (k+1) rk (j+1) rj (by simpa using hk) (by simpa using hj)
            (by omega) hcssj hTj
        obtain ⟨L, hL1, hL2⟩ := ih hinv2 hlk2 hnoign2 h
        rw [hlen2] at hL1
        refine ⟨L, ?_, ?_⟩
        · intro cl hcl
          refine hL1 cl ?_
          simp only [cssClientsOf, hr, and_self, if_pos] at hcl
          rcases List.mem_append.mp hcl with h2 | h2
          · exact List.mem_append_left _ (List.mem_append_left _ h2)
          · rcases List.mem_cons.mp h2 with h3 | h3
            · exact List.mem_append_left _ (List.mem_append_right _
                (List.mem_singleton.mpr h3))
            · exact List.mem_append_right _ h3
        · simp only [cssSelsOf, hr, and_self, if_pos]
          rw [show g.selectors ++ r.action.stringArgument :: cssSelsOf T rs
            = (g.selectors ++ [r.action.stringArgument]) ++ cssSelsOf T rs from by
              rw [List.append_assoc]; rfl]
          exact hL2
      · by_cases hig : r.action.type = ActionType.IgnorePreviousRules
        · -- the group is flushed now; no later CSS rule with trigger T exists
          have hnoT : ∀ r' ∈ r :: rs,
              ¬(r'.action.type = ActionType.CSSDisplayNoneSelector ∧ r'.trigger = T) := by
            intro r' hr'
            rcases List.mem_cons.mp hr' with h2 | h2
            · subst h2
              exact hr
            · intro hx
              obtain ⟨j, hj⟩ := List.mem_iff_getElem?.mp h2
              exact hnoign 0 r (j+1) r' (by simp) (by simpa using hj) (by omega)
                hx.1 hx.2 hig
          have h' : serializeActionsAux s (r :: rs) = some s' := by
            rw [serializeActionsAux, hstep]
            exact h
          obtain ⟨L, hL1, hL2⟩ := aux_flush hinv hlk hnoT h' hsmall
          have hempty_sels : cssSelsOf T (r :: rs) = [] := by
            have : ∀ rs' : List ContentExtensionRule, (∀ r' ∈ rs',
                ¬(r'.action.type = ActionType.CSSDisplayNoneSelector ∧ r'.trigger = T)) →
                cssSelsOf T rs' = [] := by
              intro rs'
              induction rs' with
              | nil => intro _; rfl
              | cons a as ihx =>
                intro hall
                rw [cssSelsOf, if_neg (hall a (List.mem_cons_self _ _))]
                exact ihx (fun r' hr' => hall r' (List.mem_cons_of_mem _ hr'))
            exact this _ hnoT
          have hempty_cls : ∀ b, cssClientsOf T b (r :: rs) = [] := by
            have : ∀ (rs' : List ContentExtensionRule) (b : Nat), (∀ r' ∈ rs',
                ¬(r'.action.type = ActionType.CSSDisplayNoneSelector ∧ r'.trigger = T)) →
                cssClientsOf T b rs' = [] := by
              intro rs'
              induction rs' with
              | nil => intro _ _; rfl
              | cons a as ihx =>
                intro b hall
                rw [cssClientsOf, if_neg (hall a (List.mem_cons_self _ _))]
                exact ihx _ (fun r' hr' => hall r' (List.mem_cons_of_mem _ hr'))
            exact fun b => this _ b hnoT
          refine ⟨L, ?_, ?_⟩
          · intro cl hcl
            rw [hempty_cls, List.append_nil] at hcl
            exact hL1 cl hcl
          · rw [hempty_sels, List.append_nil]
            exact hL2
        · -- unrelated rule: the group survives unchanged
          have hlk2 : alookup s2.cssDisplayNoneActionsMap T = some g := by
            rw [step_css_lookup_other T hig (fun hx => hr ⟨hx.1, hx.2.1⟩) hstep]
            exact hlk
          have hnoign2 : ∀ (k : Nat) (rk : ContentExtensionRule) (j : Nat)
              (rj : ContentExtensionRule), rs[k]? = some rk → rs[j]? = some rj → k < j →
              rj.action.type = ActionType.CSSDisplayNoneSelector → rj.trigger = T →
              rk.action.type ≠ ActionType.IgnorePreviousRules := by
            intro k rk j rj hk hj hkj hcssj hTj
            exact hnoign (k+1) rk (j+1) rj (by simpa using hk) (by simpa using hj)
              (by omega) hcssj hTj
          obtain ⟨L, hL1, hL2⟩ := ih hinv2 hlk2 hnoign2 h
          rw [hlen2] at hL1
          refine ⟨L, ?_, ?_⟩
          · intro cl hcl
            refine hL1 cl ?_
            simp only [cssClientsOf, hr, if_neg, if_false] at hcl
            exact hcl
          · simp only [cssSelsOf, hr, if_neg, if_false]
            exact hL2

/-- The 64-bit action-location-and-flags word: the resource flags in the high
32 bits, the action location in the low 32 bits
(`(static_cast<uint64_t>(trigger.flags) << 32) | actionLocations[ruleIndex]`). -/
def actionLocationAndFlags (flags loc : Nat) : Nat :=
  (flags % 4294967296) * 4294967296 + loc % 4294967296

theorem cssSelsOf_eq_nil {T : Trigger} {rs : List ContentExtensionRule}
    (hall : ∀ r' ∈ rs,
      ¬(r'.action.type = ActionType.CSSDisplayNoneSelector ∧ r'.trigger = T)) :
    cssSelsOf T rs = [] := by
  induction rs with
  | nil => rfl
  | cons a as ih =>
    rw [cssSelsOf, if_neg (hall a (List.mem_cons_self _ _))]
    exact ih (fun r' hr' => hall r' (List.mem_cons_of_mem _ hr'))

theorem cssClientsOf_eq_nil {T : Trigger} {rs : List ContentExtensionRule} (b : Nat)
    (hall : ∀ r' ∈ rs,
      ¬(r'.action.type = ActionType.CSSDisplayNoneSelector ∧ r'.trigger = T)) :
    cssClientsOf T b rs = [] := by
  induction rs generalizing b with
  | nil => rfl
  | cons a as ih =>
    rw [cssClientsOf, if_neg (hall a (List.mem_cons_self _ _))]
    exact ih _ (fun r' hr' => hall r' (List.mem_cons_of_mem _ hr'))

/-! ### Concrete rules used by the examples -/

/-- A trigger with no conditions and no resource flags. -/
def triggerNone : Trigger := ⟨"a", false, 0, ConditionType.None, []⟩

def blockRule : ContentExtensionRule := ⟨triggerNone, ⟨ActionType.BlockLoad, ""⟩⟩

def ignoreRule : ContentExtensionRule := ⟨triggerNone, ⟨ActionType.IgnorePreviousRules, ""⟩⟩

def cssRule (sel : String) : ContentExtensionRule :=
  ⟨triggerNone, ⟨ActionType.CSSDisplayNoneSelector, sel⟩⟩

/-- An if-domain trigger with one domain condition. -/
def condTrigger : Trigger := ⟨"a", false, 0, ConditionType.IfDomain, ["a.com"]⟩

def condCssRule (sel : String) : ContentExtensionRule :=
  ⟨condTrigger, ⟨ActionType.CSSDisplayNoneSelector, sel⟩⟩

/-! ### Claim C1 -/

/-- C1 (amended): for every rule list, any two rules with `conditionType ==
None`, empty conditions, identical action type (other than
`CSSDisplayNoneSelector`) and identical `resourceFlags`, with no
`IgnorePreviousRules` rule between them — and, when the shared type is itself
`IgnorePreviousRules`, with every rule between them also of type
`IgnorePreviousRules` — are assigned the same action location, hence
byte-identical action-location-and-flags words; and all
`CSSDisplayNoneSelector` rules sharing an identical Trigger, provided no
`IgnorePreviousRules` rule lies after the first of them and before a later
one of them, contribute to exactly one serialized selector entry whose
selector strings are joined with `,` in the order their owning rules were
first seen.  (Stated for buffers below `UINT_MAX` bytes, the C++ `unsigned`
domain.) -/
theorem C1_dedup_and_combined_selectors
    (rules : List ContentExtensionRule) (sfull : SAState)
    (h : serializeActionsFull rules = some sfull)
    (hsmall : sfull.actions.length < sentinelLocation) :
    ((∀ (i j : Nat) (ri rj : ContentExtensionRule), i < j →
      rules[i]? = some ri → rules[j]? = some rj →
      ri.trigger.conditionType = ConditionType.None →
      rj.trigger.conditionType = ConditionType.None →
      ri.trigger.conditions = [] → rj.trigger.conditions = [] →
      ri.action.type = rj.action.type →
      ri.trigger.flags = rj.trigger.flags →
      ri.action.type ≠ ActionType.CSSDisplayNoneSelector →
      (ri.action.type = ActionType.IgnorePreviousRules →
        ∀ (k : Nat) (rk : ContentExtensionRule), i < k → k < j → rules[k]? = some rk →
          rk.action.type = ActionType.IgnorePreviousRules) →
      (ri.action.type ≠ ActionType.IgnorePreviousRules →
        ∀ (k : Nat) (rk : ContentExtensionRule), i < k → k < j → rules[k]? = some rk →
          rk.action.type ≠ ActionType.IgnorePreviousRules) →
      ∃ L, sfull.actionLocations[i]? = some L ∧ sfull.actionLocations[j]? = some L
        ∧ actionLocationAndFlags ri.trigger.flags L
            = actionLocationAndFlags rj.trigger.flags L))
    ∧ (∀ (T : Trigger) (f : Nat) (rf : ContentExtensionRule), T.conditions = [] →
      rules[f]? = some rf → rf.action.type = ActionType.CSSDisplayNoneSelector →
      rf.trigger = T →
      (∀ (k : Nat) (rk : ContentExtensionRule), k < f → rules[k]? = some rk →
        ¬(rk.action.type = ActionType.CSSDisplayNoneSelector ∧ rk.trigger = T)) →
      (∀ (k : Nat) (rk : ContentExtensionRule) (j : Nat) (rj : ContentExtensionRule),
        rules[k]? = some rk → rules[j]? = some rj → f < k → k < j →
        rj.action.type = ActionType.CSSDisplayNoneSelector → rj.trigger = T →
        rk.action.type ≠ ActionType.IgnorePreviousRules) →
      ∃ L, (∀ (i : Nat) (ri : ContentExtensionRule), rules[i]? = some ri →
          ri.action.type = ActionType.CSSDisplayNoneSelector → ri.trigger = T →
          sfull.actionLocations[i]? = some L)
        ∧ (L, String.intercalate "," (cssSelsOf T rules)) ∈ sfull.selEntries
        ∧ (∀ e ∈ sfull.selEntries, e.1 = L
            → e = (L, String.intercalate "," (cssSelsOf T rules)))) := by
  constructor
  · intro i j ri rj hij hi hj _ _ hci hcj htype hflags hncss hmidB hmidA
    have hsa : serializeActions rules = some (sfull.actions, sfull.actionLocations) := by
      rw [serializeActions, h]
      rfl
    obtain ⟨L, h1, h2⟩ := serializeActions_dedup_locations rules sfull.actions
      sfull.actionLocations hsa hsmall i j ri rj hij hi hj hci hcj htype hflags hncss
      hmidA hmidB
    exact ⟨L, h1, h2, by rw [hflags]⟩
  · intro T f rf hTc hf hcss hTf hfirst hnoign
    obtain ⟨sfin, hsfin, hsful⟩ : ∃ sfin,
        serializeActionsAux initialSAState rules = some sfin
          ∧ sfull = resolvePendingDisplayNoneActions sfin := by
      simp only [serializeActionsFull] at h
      cases haux : serializeActionsAux initialSAState rules with
      | none => rw [haux] at h; exact Option.noConfusion h
      | some sfin =>
        rw [haux] at h
        simp only [Option.map_some', Option.some_inj] at h
        exact ⟨sfin, rfl, h.symm⟩
    have hflen : f < rules.length := (List.getElem?_eq_some.mp hf).1
    have hsfin' : serializeActionsAux initialSAState (rules.take f ++ rules.drop f)
        = some sfin := by
      rw [List.take_append_drop]
      exact hsfin
    obtain ⟨sf, hsf, hrestf⟩ := aux_prefix_some hsfin'
    have hinv_f : SAInv sf := aux_sainv initial_sainv hsf
    have hlenf : sf.actionLocations.length = f := by
      have h1 := aux_locs_length hsf
      rw [show initialSAState.actionLocations.length = 0 from rfl] at h1
      rw [h1, List.length_take]
      omega
    have hnone : alookup sf.cssDisplayNoneActionsMap T = none := by
      refine aux_css_lookup_none ?_
        (show alookup initialSAState.cssDisplayNoneActionsMap T = none from rfl) hsf
      intro r' hr' hx
      obtain ⟨k, hk⟩ := List.mem_iff_getElem?.mp hr'
      have hklt : k < f := by
        have hkb := (List.getElem?_eq_some.mp hk).1
        have h2 : (rules.take f).length ≤ f := by
          rw [List.length_take]
          omega
        omega
      rw [List.getElem?_take, if_pos hklt] at hk
      exact hfirst k r' hklt hk hx
    have hdropf : rules.drop f = rf :: rules.drop (f+1) := by
      rw [List.drop_eq_getElem_cons hflen, (List.getElem?_eq_some.mp hf).2]
    rw [hdropf] at hrestf
    simp only [serializeActionsAux] at hrestf
    cases hstepf : serializeActionsStep sf rf with
    | none => rw [hstepf] at hrestf; exact Option.noConfusion hrestf
    | some sf1 =>
      rw [hstepf] at hrestf
      have hinv_f1 : SAInv sf1 := step_sainv hinv_f hstepf
      have hlkf1 : alookup sf1.cssDisplayNoneActionsMap T
          = some ⟨[rf.action.stringArgument], [f]⟩ := by
        have h2 := step_css_lookup_self hcss (by rw [hTf]; exact hTc) hstepf
        rw [hTf] at h2
        rw [hnone] at h2
        simp only [Option.getD_none] at h2
        rw [h2, hlenf]
        rfl
      have hnoign' : ∀ (k : Nat) (rk : ContentExtensionRule) (j : Nat)
          (rj : ContentExtensionRule), (rules.drop (f+1))[k]? = some rk →
          (rules.drop (f+1))[j]? = some rj → k < j →
          rj.action.type = ActionType.CSSDisplayNoneSelector → rj.trigger = T →
          rk.action.type ≠ ActionType.IgnorePreviousRules := by
        intro k rk j rj hk hj hkj hcssj hTj
        rw [List.getElem?_drop] at hk hj
        exact hnoign (f+1+k) rk (f+1+j) rj hk hj (by omega) (by omega) hcssj hTj
      have hsmall' : (resolvePendingDisplayNoneActions sfin).actions.length
          < sentinelLocation := by
        rw [← hsful]
        exact hsmall
      obtain ⟨L, hL1, hL2⟩ := aux_css_main hTc hinv_f1 hlkf1 hnoign' hrestf hsmall'
      rw [← hsful] at hL1 hL2
      have hlenf1 : sf1.actionLocations.length = f + 1 := by
        rw [step_locs_length hstepf, hlenf]
      rw [hlenf1] at hL1
      have hjoin : [rf.action.stringArgument] ++ cssSelsOf T (rules.drop (f+1))
          = cssSelsOf T rules := by
        have htknil : cssSelsOf T (rules.take f) = [] := by
          refine cssSelsOf_eq_nil ?_
          intro r' hr' hx
          obtain ⟨k, hk⟩ := List.mem_iff_getElem?.mp hr'
          have hklt : k < f := by
            have hkb := (List.getElem?_eq_some.mp hk).1
            have h2 : (rules.take f).length ≤ f := by
              rw [List.length_take]
              omega
            omega
          rw [List.getElem?_take, if_pos hklt] at hk
          exact hfirst k r' hklt hk hx
        conv_rhs => rw [← List.take_append_drop f rules]
        rw [cssSelsOf_append, htknil]
        rw [hdropf, cssSelsOf, if_pos ⟨hcss, hTf⟩]
        simp
      have hentry : (L, String.intercalate "," (cssSelsOf T rules)) ∈ sfull.selEntries := by
        rw [← hjoin]
        exact hL2
      refine ⟨L, ?_, hentry, ?_⟩
      · intro i ri hi hicss hiT
        rcases Nat.lt_trichotomy i f with hlt | heq | hgt
        · exact absurd ⟨hicss, hiT⟩ (hfirst i ri hlt hi)
        · subst heq
          exact hL1 i (List.mem_append_left _ (List.mem_singleton.mpr rfl))
        · have hidx : (rules.drop (f+1))[i - (f+1)]? = some ri := by
            rw [List.getElem?_drop]
            rw [show f + 1 + (i - (f+1)) = i from by omega]
            exact hi
          have hmem := cssClientsOf_mem T _ (f+1) (i - (f+1)) ri hidx hicss hiT
          rw [show f + 1 + (i - (f+1)) = i from by omega] at hmem
          exact hL1 i (List.mem_append_right _ hmem)
      · intro e he heq1
        have hinvfull : SAInv sfull := by
          rw [hsful]
          exact resolvePending_sainv sfin (aux_sainv hinv_f1 hrestf)
        exact pairwise_fst_unique hinvfull.selPair e _ he hentry heq1

def C1cexRules : List ContentExtensionRule := [ignoreRule, blockRule, ignoreRule]

def C1cexCssRules : List ContentExtensionRule := [cssRule ".a", ignoreRule, cssRule ".b"]

/-- C1 (counterexample): in `[ignore, block, ignore]` the two
`IgnorePreviousRules` rules share type, flags and empty conditions, and no
`IgnorePreviousRules` rule lies between them, yet they are assigned the
distinct locations 0 and 2; and the two `CSSDisplayNoneSelector` rules of
`[css ".a", ignore, css ".b"]` share an identical Trigger yet produce two
serialized selector entries instead of one. -/
theorem C1_counterexample :
    (serializeActionsFull C1cexRules).map SAState.actionLocations = some [0, 1, 2]
    ∧ C1cexRules[0]? = some ignoreRule
    ∧ C1cexRules[1]? = some blockRule
    ∧ C1cexRules[2]? = some ignoreRule
    ∧ blockRule.action.type ≠ ActionType.IgnorePreviousRules
    ∧ (serializeActionsFull C1cexCssRules).map SAState.selEntries
        = some [(0, ".a"), (9, ".b")]
    ∧ (cssRule ".a").trigger = (cssRule ".b").trigger := by
  refine ⟨rfl, rfl, rfl, rfl, by decide, rfl, rfl⟩

def C1wRules : List ContentExtensionRule :=
  [blockRule, blockRule, cssRule ".a", cssRule ".b"]

def C1wState : SAState :=
  ⟨[0, 2, 5, 0, 0, 0, 0, 46, 97, 44, 46, 98], [0, 0, 1, 1], [(1, ".a,.b")],
    [(0, 0)], [], [], [], []⟩

/-- C1 (witness): on `[block, block, css ".a", css ".b"]` the two block rules
share location 0 and the two CSS rules share the single combined entry
`".a,.b"` at location 1. -/
theorem C1_witness :
    serializeActionsFull C1wRules = some C1wState
    ∧ (∃ L, C1wState.actionLocations[0]? = some L
        ∧ C1wState.actionLocations[1]? = some L
        ∧ actionLocationAndFlags blockRule.trigger.flags L
            = actionLocationAndFlags blockRule.trigger.flags L)
    ∧ (∃ L, C1wState.actionLocations[2]? = some L
        ∧ C1wState.actionLocations[3]? = some L
        ∧ (L, ".a,.b") ∈ C1wState.selEntries) := by
  have hfull : serializeActionsFull C1wRules = some C1wState := by rfl
  obtain ⟨hA, hC⟩ := C1_dedup_and_combined_selectors C1wRules C1wState hfull (by decide)
  refine ⟨hfull, ?_, ?_⟩
  · obtain ⟨L, h1, h2, h3⟩ := hA 0 1 blockRule blockRule (by decide) rfl rfl rfl rfl
      rfl rfl rfl rfl (by decide)
      (fun habs => absurd habs (by decide))
      (fun _ k rk hk1 hk2 _ => absurd hk1 (by omega))
    exact ⟨L, h1, h2, h3⟩
  · obtain ⟨L, h1, h2, _⟩ := hC triggerNone 2 (cssRule ".a") rfl rfl rfl rfl
      (by
        intro k rk hk hkr hx
        interval_cases k
        · rw [show C1wRules[0]? = some blockRule from rfl, Option.some_inj] at hkr
          rw [← hkr] at hx
          exact absurd hx.1 (by decide)
        · rw [show C1wRules[1]? = some blockRule from rfl, Option.some_inj] at hkr
          rw [← hkr] at hx
          exact absurd hx.1 (by decide))
      (by
        intro k rk j rj hk hj hfk hkj _ _
        have hb := (List.getElem?_eq_some.mp hj).1
        rw [show C1wRules.length = 4 from rfl] at hb
        omega)
    have ha := h1 2 (cssRule ".a") rfl rfl rfl
    have hb := h1 3 (cssRule ".b") rfl rfl rfl
    have hstr : String.intercalate "," (cssSelsOf triggerNone C1wRules) = ".a,.b" := rfl
    rw [hstr] at h2
    exact ⟨L, ha, hb, h2⟩

/-! ### Claim C2 -/

/-- C2: processing an `IgnorePreviousRules` rule first serializes and clears
all pending CSS-selector groups accumulated so far, then clears the
BlockLoad, BlockCookies, CSSDisplayNone and MakeHTTPS dedup maps, so rules
after it cannot reuse a dedup entry created before it; in particular the
three-rule list `[block, ignore-previous-rules, block]` with identical flags
produces two distinct action-table entries (locations 0 and 2) for the two
Block actions. -/
theorem C2_ignore_flushes_and_clears :
    (∀ (s : SAState) (r : ContentExtensionRule) (s' : SAState),
      r.action.type = ActionType.IgnorePreviousRules →
      serializeActionsStep s r = some s' →
      s'.blockLoadActionsMap = [] ∧ s'.blockCookiesActionsMap = []
        ∧ s'.cssDisplayNoneActionsMap = [] ∧ s'.makeHTTPSActionsMap = []
        ∧ (∃ loc, s'.actionLocations
            = (resolvePendingDisplayNoneActions s).actionLocations ++ [loc])
        ∧ (∃ tail, s'.actions = (resolvePendingDisplayNoneActions s).actions ++ tail)
        ∧ s'.selEntries = (resolvePendingDisplayNoneActions s).selEntries)
    ∧ serializeActions [blockRule, ignoreRule, blockRule] = some ([0, 4, 0], [0, 1, 2])
    ∧ ([0, 1, 2] : List Nat)[0]? ≠ ([0, 1, 2] : List Nat)[2]? := by
  refine ⟨?_, rfl, by decide⟩
  intro s r s' hig h
  have hpre : ignorePreamble s r.action.type
      = { resolvePendingDisplayNoneActions s with
          blockLoadActionsMap := []
          blockCookiesActionsMap := []
          cssDisplayNoneActionsMap := []
          makeHTTPSActionsMap := [] } := by
    rw [hig]
    simp [ignorePreamble]
  simp only [serializeActionsStep] at h
  split at h
  · rw [Option.some_inj] at h
    subst h
    rw [hpre]
    refine ⟨rfl, rfl, rfl, rfl, ⟨_, rfl⟩, ?_, ?_⟩
    · dsimp only
      split
      · rename_i hcssty
        rw [hcssty] at hig
        exact absurd hig (by decide)
      · exact ⟨_, rfl⟩
    · dsimp only
      split
      · rename_i hcssty
        rw [hcssty] at hig
        exact absurd hig (by decide)
      · rfl
  · split at h
    · exact Option.noConfusion h
    · exact Option.noConfusion h
    · rename_i heq
      rw [hig] at heq
      exact absurd heq.symm (by simp)
    · rw [Option.some_inj] at h
      subst h
      rw [hpre]
      refine ⟨rfl, rfl, rfl, rfl, ⟨_, rfl⟩, ?_, rfl⟩
      · dsimp only [findOrMakeActionLocation]
        cases halk : alookup ({ resolvePendingDisplayNoneActions s with
            blockLoadActionsMap := ([] : List (Nat × Nat))
            blockCookiesActionsMap := ([] : List (Nat × Nat))
            cssDisplayNoneActionsMap := ([] : List (Trigger × PendingDisplayNoneActions))
            makeHTTPSActionsMap := ([] : List (Nat × Nat)) }).ignorePreviousRuleActionsMap
            r.trigger.flags with
        | none => exact ⟨_, rfl⟩
        | some existing => exact ⟨[], (List.append_nil _).symm⟩
    all_goals (
      rename_i heq
      rw [hig] at heq
      exact absurd heq.symm (by simp))

def C2wPendingState : SAState :=
  ⟨[], [4294967295], [], [], [],
    [(triggerNone, ⟨[".a"], [0]⟩)], [], []⟩

def C2wSteppedState : SAState :=
  ⟨[2, 2, 0, 0, 0, 0, 46, 97, 4], [0, 8], [(0, ".a")], [], [], [], [(0, 8)], []⟩

/-- C2 (witness): stepping `ignoreRule` on a state with one pending `".a"`
group serializes the group, backfills its slot and clears the dedup maps. -/
theorem C2_witness :
    serializeActionsStep C2wPendingState ignoreRule = some C2wSteppedState
    ∧ C2wSteppedState.blockLoadActionsMap = []
    ∧ C2wSteppedState.blockCookiesActionsMap = []
    ∧ C2wSteppedState.cssDisplayNoneActionsMap = []
    ∧ C2wSteppedState.makeHTTPSActionsMap = []
    ∧ (∃ loc, C2wSteppedState.actionLocations
        = (resolvePendingDisplayNoneActions C2wPendingState).actionLocations ++ [loc]) := by
  have hstep : serializeActionsStep C2wPendingState ignoreRule = some C2wSteppedState := by
    rfl
  obtain ⟨h1, h2, h3, h4, h5, _, _⟩ :=
    (C2_ignore_flushes_and_clears).1 C2wPendingState ignoreRule C2wSteppedState rfl hstep
  exact ⟨hstep, h1, h2, h3, h4, h5⟩

/-! ### Claim C4 -/

/-- A conditioned rule is pushed as a fresh entry at the current end of the
buffer and leaves every dedup map exactly as the preamble left it. -/
theorem step_conditioned_spec {s : SAState} {r : ContentExtensionRule} {s' : SAState}
    (hc : r.trigger.conditions ≠ []) (h : serializeActionsStep s r = some s') :
    s'.actionLocations = (ignorePreamble s r.action.type).actionLocations
      ++ [(ignorePreamble s r.action.type).actions.length]
    ∧ (ignorePreamble s r.action.type).actions.length < s'.actions.length
    ∧ s'.blockLoadActionsMap = (ignorePreamble s r.action.type).blockLoadActionsMap
    ∧ s'.blockCookiesActionsMap = (ignorePreamble s r.action.type).blockCookiesActionsMap
    ∧ s'.cssDisplayNoneActionsMap
        = (ignorePreamble s r.action.type).cssDisplayNoneActionsMap
    ∧ s'.ignorePreviousRuleActionsMap
        = (ignorePreamble s r.action.type).ignorePreviousRuleActionsMap
    ∧ s'.makeHTTPSActionsMap = (ignorePreamble s r.action.type).makeHTTPSActionsMap := by
  simp only [serializeActionsStep] at h
  split at h
  · rw [Option.some_inj] at h
    subst h
    refine ⟨rfl, ?_, rfl, rfl, rfl, rfl, rfl⟩
    dsimp only
    split
    · exact serializeSelector_length_lt _ _
    · simp
  · rename_i hcnd
    exact absurd (not_not.mp hcnd) hc

/-- Two conditioned rules always receive distinct, individually serialized
action locations. -/
theorem serializeActions_conditioned_distinct
    (rules : List ContentExtensionRule) (acts locs : List Nat)
    (h : serializeActions rules = some (acts, locs))
    (hsmall : acts.length < sentinelLocation)
    (i j : Nat) (ri rj : ContentExtensionRule)
    (hij : i < j)
    (hi : rules[i]? = some ri) (hj : rules[j]? = some rj)
    (hci : ri.trigger.conditions ≠ []) (hcj : rj.trigger.conditions ≠ []) :
    ∃ Li Lj, locs[i]? = some Li ∧ locs[j]? = some Lj ∧ Li < Lj := by
  obtain ⟨sfin, hsfin, hacts, hlocs⟩ := serializeActions_unpack h
  have hjlen : j < rules.length := (List.getElem?_eq_some.mp hj).1
  have hilen : i < rules.length := Nat.lt_trans hij hjlen
  have hsfin' : serializeActionsAux initialSAState (rules.take (i+1) ++ rules.drop (i+1))
      = some sfin := by
    rw [List.take_append_drop]
    exact hsfin
  obtain ⟨si1, hsi1, hrest⟩ := aux_prefix_some hsfin'
  have htake1 : rules.take (i+1) = rules.take i ++ [ri] := by
    rw [List.take_succ, hi]
    rfl
  rw [htake1] at hsi1
  obtain ⟨si, hsi, hstepi0⟩ := aux_prefix_some hsi1
  rw [aux_singleton] at hstepi0
  have hinv_si : SAInv si := aux_sainv initial_sainv hsi
  have hinv_si1 : SAInv si1 := step_sainv hinv_si hstepi0
  have hlensi : si.actionLocations.length = i := by
    have h1 := aux_locs_length hsi
    rw [show initialSAState.actionLocations.length = 0 from rfl] at h1
    rw [h1, List.length_take]
    omega
  obtain ⟨hlocseqi, hlti, _⟩ := step_conditioned_spec hci hstepi0
  have hpreleni : (ignorePreamble si ri.action.type).actionLocations.length = i := by
    rw [preamble_locs_length, hlensi]
  have hvi : si1.actionLocations[i]?
      = some (ignorePreamble si ri.action.type).actions.length := by
    rw [hlocseqi, ← hpreleni]
    simp
  have hfinle : si1.actions.length ≤ acts.length := by
    rw [hacts]
    exact Nat.le_trans (aux_actions_le hrest) (resolvePending_actions_le sfin)
  have hLine : (ignorePreamble si ri.action.type).actions.length ≠ sentinelLocation := by
    have : acts.length < sentinelLocation := hsmall
    omega
  -- decompose the remainder at rule j
  have hdrop : rules.drop (i+1)
      = (rules.drop (i+1)).take (j - (i+1)) ++ (rules.drop (i+1)).drop (j - (i+1)) :=
    (List.take_append_drop _ _).symm
  rw [hdrop] at hrest
  obtain ⟨sj, hsjmid, hrestj⟩ := aux_prefix_some hrest
  have hinv_sj : SAInv sj := aux_sainv hinv_si1 hsjmid
  have hlensj : sj.actionLocations.length = j := by
    have h1 := aux_locs_length hsjmid
    have h2 := step_locs_length hstepi0
    have h3 : ((rules.drop (i+1)).take (j - (i+1))).length = j - (i+1) := by
      rw [List.length_take, List.length_drop]
      omega
    omega
  have hdropdrop : (rules.drop (i+1)).drop (j - (i+1)) = rules.drop j := by
    rw [List.drop_drop]
    congr 1
    omega
  have htailj : rules.drop j = rj :: rules.drop (j+1) := by
    rw [List.drop_eq_getElem_cons hjlen, (List.getElem?_eq_some.mp hj).2]
  rw [hdropdrop, htailj] at hrestj
  simp only [serializeActionsAux] at hrestj
  cases hstepj : serializeActionsStep sj rj with
  | none => rw [hstepj] at hrestj; exact Option.noConfusion hrestj
  | some sj1 =>
    rw [hstepj] at hrestj
    have hinv_sj1 : SAInv sj1 := step_sainv hinv_sj hstepj
    obtain ⟨hlocseqj, hltj, _⟩ := step_conditioned_spec hcj hstepj
    have hprelenj : (ignorePreamble sj rj.action.type).actionLocations.length = j := by
      rw [preamble_locs_length, hlensj]
    have hvj : sj1.actionLocations[j]?
        = some (ignorePreamble sj rj.action.type).actions.length := by
      rw [hlocseqj, ← hprelenj]
      simp
    have hfinlej : sj1.actions.length ≤ acts.length := by
      rw [hacts]
      exact Nat.le_trans (aux_actions_le hrestj) (resolvePending_actions_le sfin)
    have hLjne : (ignorePreamble sj rj.action.type).actions.length ≠ sentinelLocation := by
      have : acts.length < sentinelLocation := hsmall
      omega
    have horder : (ignorePreamble si ri.action.type).actions.length
        < (ignorePreamble sj rj.action.type).actions.length := by
      have h1 : si1.actions.length ≤ sj.actions.length := aux_actions_le hsjmid
      have h2 : sj.actions.length
          ≤ (ignorePreamble sj rj.action.type).actions.length :=
        preamble_actions_le sj rj.action.type
      omega
    have hauxfull : serializeActionsAux si1
        ((rules.drop (i+1)).take (j - (i+1)) ++ (rules.drop (i+1)).drop (j - (i+1)))
        = some sfin := by
      rw [aux_append, hsjmid]
      rw [hdropdrop, htailj]
      simp only [serializeActionsAux, Option.some_bind]
      rw [hstepj]
      exact hrestj
    have hstab_i : sfin.actionLocations[i]?
        = some (ignorePreamble si ri.action.type).actions.length :=
      aux_getElem_stable hinv_si1 hauxfull hvi hLine
    have hstab_j : sfin.actionLocations[j]?
        = some (ignorePreamble sj rj.action.type).actions.length :=
      aux_getElem_stable hinv_sj1 hrestj hvj hLjne
    have hinv_fin : SAInv sfin := aux_sainv hinv_sj1 hrestj
    refine ⟨_, _, ?_, ?_, horder⟩ <;> rw [hlocs]
    · exact resolvePending_getElem_stable hinv_fin hstab_i hLine
    · exact resolvePending_getElem_stable hinv_fin hstab_j hLjne

def C4cexRules : List ContentExtensionRule := [condCssRule ".x", condCssRule ".y"]

def C4cexState : SAState :=
  ⟨[2, 2, 0, 0, 0, 0, 46, 120, 2, 2, 0, 0, 0, 0, 46, 121], [0, 8],
    [(0, ".x"), (8, ".y")], [], [], [], [], []⟩

/-- C4 (counterexample): two conditioned `CSSDisplayNoneSelector` rules with
an identical Trigger are serialized as two separate selector entries at
distinct locations 0 and 8 — they are never batched into one combined
entry, contradicting the claim's exception clause. -/
theorem C4_counterexample :
    serializeActionsFull C4cexRules = some C4cexState
    ∧ (condCssRule ".x").trigger = (condCssRule ".y").trigger
    ∧ (condCssRule ".x").trigger.conditions ≠ []
    ∧ C4cexState.actionLocations = [0, 8]
    ∧ C4cexState.selEntries = [(0, ".x"), (8, ".y")]
    ∧ (0 : Nat) ≠ 8 := by
  refine ⟨rfl, rfl, by decide, rfl, rfl, by decide⟩

/-- C4 (amended): every rule with non-empty conditions bypasses all dedup
maps and has its action serialized independently — a fresh action-table entry
per rule — including conditioned `CSSDisplayNoneSelector` rules, which are
serialized individually for each rule rather than batched by Trigger.
(Stated for buffers below `UINT_MAX` bytes, the C++ `unsigned` domain.) -/
theorem C4_conditioned_rules_independent :
    (∀ (s : SAState) (r : ContentExtensionRule) (s' : SAState),
      r.trigger.conditions ≠ [] →
      serializeActionsStep s r = some s' →
      s'.actionLocations = (ignorePreamble s r.action.type).actionLocations
        ++ [(ignorePreamble s r.action.type).actions.length]
      ∧ (ignorePreamble s r.action.type).actions.length < s'.actions.length
      ∧ s'.blockLoadActionsMap = (ignorePreamble s r.action.type).blockLoadActionsMap
      ∧ s'.blockCookiesActionsMap
          = (ignorePreamble s r.action.type).blockCookiesActionsMap
      ∧ s'.cssDisplayNoneActionsMap
          = (ignorePreamble s r.action.type).cssDisplayNoneActionsMap
      ∧ s'.ignorePreviousRuleActionsMap
          = (ignorePreamble s r.action.type).ignorePreviousRuleActionsMap
      ∧ s'.makeHTTPSActionsMap = (ignorePreamble s r.action.type).makeHTTPSActionsMap)
    ∧ (∀ (rules : List ContentExtensionRule) (acts locs : List Nat),
      serializeActions rules = some (acts, locs) →
      acts.length < sentinelLocation →
      ∀ (i j : Nat) (ri rj : ContentExtensionRule), i < j →
        rules[i]? = some ri → rules[j]? = some rj →
        ri.trigger.conditions ≠ [] → rj.trigger.conditions ≠ [] →
        ∃ Li Lj, locs[i]? = some Li ∧ locs[j]? = some Lj ∧ Li < Lj) := by
  constructor
  · intro s r s' hc h
    exact step_conditioned_spec hc h
  · intro rules acts locs h hsmall i j ri rj hij hi hj hci hcj
    exact serializeActions_conditioned_distinct rules acts locs h hsmall i j ri rj
      hij hi hj hci hcj

/-- C4 (witness): on the two conditioned CSS rules the two locations are the
distinct fresh offsets 0 and 8. -/
theorem C4_witness :
    ∃ Li Lj, ([0, 8] : List Nat)[0]? = some Li ∧ ([0, 8] : List Nat)[1]? = some Lj
      ∧ Li < Lj := by
  refine (C4_conditioned_rules_independent).2 C4cexRules
    [2, 2, 0, 0, 0, 0, 46, 120, 2, 2, 0, 0, 0, 0, 46, 121] [0, 8] rfl (by decide)
    0 1 (condCssRule ".x") (condCssRule ".y") (by decide) rfl rfl (by decide) (by decide)

/-! ### Claim C10 -/

/-- Every slot still holding the sentinel belongs to a pending display-none
group awaiting backfill. -/
def SentInv (s : SAState) : Prop :=
  ∀ i : Nat, s.actionLocations[i]? = some sentinelLocation →
    i ∈ clientsFlatten s.cssDisplayNoneActionsMap

theorem resolvePending_no_sentinel {s : SAState} (hinv : SAInv s) (hsent : SentInv s)
    (hbound : (resolvePendingDisplayNoneActions s).actions.length < sentinelLocation) :
    ∀ (i v : Nat), (resolvePendingDisplayNoneActions s).actionLocations[i]? = some v →
      v ≠ sentinelLocation := by
  intro i v hv he
  subst he
  by_cases hm : i ∈ clientsFlatten s.cssDisplayNoneActionsMap
  · obtain ⟨g, hg, hcl⟩ := clientsFlatten_mem_exists _ _ hm
    have hclb : ∀ cl ∈ clientsFlatten s.cssDisplayNoneActionsMap,
        cl < s.actionLocations.length := by
      intro cl hclm
      obtain ⟨g', hg', hcl'⟩ := clientsFlatten_mem_exists _ _ hclm
      exact (List.getElem?_eq_some.mp (hinv.pend g' hg' _ hcl')).1
    obtain ⟨L, hsl, _, hLlt⟩ := resolveGroups_resolves s s.cssDisplayNoneActionsMap
      g.1 g.2 (by rw [Prod.mk.eta]; exact hg) hinv.cnodup hclb
    have h2 := hsl i hcl
    have h3 : (resolvePendingDisplayNoneActions s).actionLocations[i]? = some L := h2
    rw [hv] at h3
    have h4 : sentinelLocation = L := Option.some_inj.mp h3
    have h5 : L < (resolvePendingDisplayNoneActions s).actions.length := hLlt
    omega
  · have h2 : (resolvePendingDisplayNoneActions s).actionLocations[i]?
        = s.actionLocations[i]? := by
      simp only [resolvePendingDisplayNoneActions]
      exact resolveGroups_getElem_ne _ _ _ hm
    rw [hv] at h2
    exact hm (hsent i h2.symm)

/-- One step preserves the sentinel invariant, provided the buffer stays
below the sentinel value. -/
theorem step_sentInv {s : SAState} {r : ContentExtensionRule} {s2 : SAState}
    (hinv : SAInv s) (hsent : SentInv s)
    (hstep : serializeActionsStep s r = some s2)
    (hbound : s2.actions.length < sentinelLocation) : SentInv s2 := by
  have hpre_inv := preamble_sainv s r.action.type hinv
  have hpresent : ∀ i : Nat,
      (ignorePreamble s r.action.type).actionLocations[i]? = some sentinelLocation →
      i ∈ clientsFlatten (ignorePreamble s r.action.type).cssDisplayNoneActionsMap := by
    by_cases hig : r.action.type = ActionType.IgnorePreviousRules
    · intro i hi
      rw [hig, preamble_ignore_locs] at hi
      have hrb : (resolvePendingDisplayNoneActions s).actions.length
          < sentinelLocation := by
        have h1 : (resolvePendingDisplayNoneActions s).actions.length
            = (ignorePreamble s r.action.type).actions.length := by
          rw [hig, preamble_ignore_actions]
        have h2 := step_after_preamble_actions_le hstep
        omega
      exact absurd hi (fun hx =>
        resolvePending_no_sentinel hinv hsent hrb i sentinelLocation hx rfl)
    · intro i hi
      have hl : (ignorePreamble s r.action.type).actionLocations = s.actionLocations := by
        simp [ignorePreamble, hig]
      have hc : (ignorePreamble s r.action.type).cssDisplayNoneActionsMap
          = s.cssDisplayNoneActionsMap := by
        simp [ignorePreamble, hig]
      rw [hl] at hi
      rw [hc]
      exact hsent i hi
  have hpreb : (ignorePreamble s r.action.type).actions.length ≤ s2.actions.length :=
    step_after_preamble_actions_le hstep
  simp only [serializeActionsStep] at hstep
  split at hstep
  · rw [Option.some_inj] at hstep
    subst hstep
    intro i hi
    dsimp only at hi ⊢
    rcases Nat.lt_or_ge i (ignorePreamble s r.action.type).actionLocations.length
      with hlt | hge
    · rw [getElem_append_lt _ _ _ hlt] at hi
      exact hpresent i hi
    · have hieq : i = (ignorePreamble s r.action.type).actionLocations.length := by
        have h2 := (List.getElem?_eq_some.mp hi).1
        rw [List.length_append, List.length_cons, List.length_nil] at h2
        omega
      subst hieq
      rw [List.getElem?_append_right (Nat.le_refl _)] at hi
      simp only [Nat.sub_self, List.getElem?_cons_zero, Option.some_inj] at hi
      have hfalse : (ignorePreamble s r.action.type).actions.length < sentinelLocation := by
        dsimp only at hbound
        split at hbound
        · have := serializeSelector_length_lt
            (ignorePreamble s r.action.type).actions r.action.stringArgument
          omega
        · rw [List.length_append, List.length_cons, List.length_nil] at hbound
          omega
      omega
  · split at hstep
    · exact Option.noConfusion hstep
    · exact Option.noConfusion hstep
    · -- CSS pending branch
      rw [Option.some_inj] at hstep
      subst hstep
      intro i hi
      dsimp only at hi ⊢
      have hperm := clientsFlatten_aset_extend
        (ignorePreamble s r.action.type).cssDisplayNoneActionsMap r.trigger
        ⟨((alookup (ignorePreamble s r.action.type).cssDisplayNoneActionsMap
            r.trigger).getD ⟨[], []⟩).selectors ++ [r.action.stringArgument],
         ((alookup (ignorePreamble s r.action.type).cssDisplayNoneActionsMap
            r.trigger).getD ⟨[], []⟩).clientLocations
           ++ [(ignorePreamble s r.action.type).actionLocations.length]⟩
        (ignorePreamble s r.action.type).actionLocations.length rfl
      rw [hperm.mem_iff]
      rcases Nat.lt_or_ge i (ignorePreamble s r.action.type).actionLocations.length
        with hlt | hge
      · rw [getElem_append_lt _ _ _ hlt] at hi
        exact List.mem_cons_of_mem _ (hpresent i hi)
      · have hieq : i = (ignorePreamble s r.action.type).actionLocations.length := by
          have h2 := (List.getElem?_eq_some.mp hi).1
          rw [List.length_append, List.length_cons, List.length_nil] at h2
          omega
        subst hieq
        exact List.mem_cons_self _ _
    · rw [Option.some_inj] at hstep
      subst hstep
      intro i hi
      dsimp only at hi ⊢
      rcases Nat.lt_or_ge i (ignorePreamble s r.action.type).actionLocations.length
        with hlt | hge
      · rw [getElem_append_lt _ _ _ hlt] at hi
        exact hpresent i hi
      · exfalso
        have hieq : i = (ignorePreamble s r.action.type).actionLocations.length := by
          have h2 := (List.getElem?_eq_some.mp hi).1
          rw [List.length_append, List.length_cons, List.length_nil] at h2
          omega
        subst hieq
        rw [List.getElem?_append_right (Nat.le_refl _)] at hi
        simp only [Nat.sub_self, List.getElem?_cons_zero, Option.some_inj] at hi
        have hloc := findOrMake_loc_lt
          (ignorePreamble s r.action.type).ignorePreviousRuleActionsMap r.trigger.flags
          (ignorePreamble s r.action.type).actions r.action.type
          (fun kv hkv => hpre_inv.igBound kv hkv)
        dsimp only at hbound
        omega
    · rw [Option.some_inj] at hstep
      subst hstep
      intro i hi
      dsimp only at hi ⊢
      rcases Nat.lt_or_ge i (ignorePreamble s r.action.type).actionLocations.length
        with hlt | hge
      · rw [getElem_append_lt _ _ _ hlt] at hi
        exact hpresent i hi
      · exfalso
        have hieq : i = (ignorePreamble s r.action.type).actionLocations.length := by
          have h2 := (List.getElem?_eq_some.mp hi).1
          rw [List.length_append, List.length_cons, List.length_nil] at h2
          omega
        subst hieq
        rw [List.getElem?_append_right (Nat.le_refl _)] at hi
        simp only [Nat.sub_self, List.getElem?_cons_zero, Option.some_inj] at hi
        have hloc := findOrMake_loc_lt
          (ignorePreamble s r.action.type).blockLoadActionsMap r.trigger.flags
          (ignorePreamble s r.action.type).actions r.action.type
          (fun kv hkv => hpre_inv.blBound kv hkv)
        dsimp only at hbound
        omega
    · rw [Option.some_inj] at hstep
      subst hstep
      intro i hi
      dsimp only at hi ⊢
      rcases Nat.lt_or_ge i (ignorePreamble s r.action.type).actionLocations.length
        with hlt | hge
      · rw [getElem_append_lt _ _ _ hlt] at hi
        exact hpresent i hi
      · exfalso
        have hieq : i = (ignorePreamble s r.action.type).actionLocations.length := by
          have h2 := (List.getElem?_eq_some.mp hi).1
          rw [List.length_append, List.length_cons, List.length_nil] at h2
          omega
        subst hieq
        rw [List.getElem?_append_right (Nat.le_refl _)] at hi
        simp only [Nat.sub_self, List.getElem?_cons_zero, Option.some_inj] at hi
        have hloc := findOrMake_loc_lt
          (ignorePreamble s r.action.type).blockCookiesActionsMap r.trigger.flags
          (ignorePreamble s r.action.type).actions r.action.type
          (fun kv hkv => hpre_inv.bcBound kv hkv)
        dsimp only at hbound
        omega
    · rw [Option.some_inj] at hstep
      subst hstep
      intro i hi
      dsimp only at hi ⊢
      rcases Nat.lt_or_ge i (ignorePreamble s r.action.type).actionLocations.length
        with hlt | hge
      · rw [getElem_append_lt _ _ _ hlt] at hi
        exact hpresent i hi
      · exfalso
        have hieq : i = (ignorePreamble s r.action.type).actionLocations.length := by
          have h2 := (List.getElem?_eq_some.mp hi).1
          rw [List.length_append, List.length_cons, List.length_nil] at h2
          omega
        subst hieq
        rw [List.getElem?_append_right (Nat.le_refl _)] at hi
        simp only [Nat.sub_self, List.getElem?_cons_zero, Option.some_inj] at hi
        have hloc := findOrMake_loc_lt
          (ignorePreamble s r.action.type).makeHTTPSActionsMap r.trigger.flags
          (ignorePreamble s r.action.type).actions r.action.type
          (fun kv hkv => hpre_inv.mhBound kv hkv)
        dsimp only at hbound
        omega

theorem aux_sentInv {s : SAState} {rs : List ContentExtensionRule} {s1 : SAState}
    (hinv : SAInv s) (hsent : SentInv s)
    (h : serializeActionsAux s rs = some s1)
    (hbound : s1.actions.length < sentinelLocation) : SentInv s1 := by
  induction rs generalizing s with
  | nil => exact (Option.some_inj.mp h) ▸ hsent
  | cons r rs ih =>
    rw [serializeActionsAux] at h
    cases hstep : serializeActionsStep s r with
    | none => rw [hstep] at h; exact Option.noConfusion h
    | some s2 =>
      rw [hstep] at h
      have hb2 : s2.actions.length < sentinelLocation :=
        Nat.lt_of_le_of_lt (aux_actions_le h) hbound
      exact ih (step_sainv hinv hstep) (step_sentInv hinv hsent hstep hb2) h

theorem initial_sentInv : SentInv initialSAState := by
  intro i hi
  simp [initialSAState] at hi

/-- C10: `serializeActions` returns one action location per input rule, and
after the final flush no entry still holds the `UINT_MAX` sentinel — every
CSS rule's slot has been backfilled with its combined entry's offset.
(Stated for buffers below `UINT_MAX` bytes, the C++ `unsigned` domain.) -/
theorem C10_one_location_per_rule_no_sentinel
    (rules : List ContentExtensionRule) (acts locs : List Nat)
    (h : serializeActions rules = some (acts, locs))
    (hsmall : acts.length < sentinelLocation) :
    locs.length = rules.length ∧ ∀ v ∈ locs, v ≠ sentinelLocation := by
  obtain ⟨sfin, hsfin, hacts, hlocs⟩ := serializeActions_unpack h
  constructor
  · rw [hlocs, resolvePending_locs_length, aux_locs_length hsfin]
    simp [initialSAState]
  · intro v hv
    rw [hlocs] at hv
    obtain ⟨i, hi⟩ := List.mem_iff_getElem?.mp hv
    have hbound : (resolvePendingDisplayNoneActions sfin).actions.length
        < sentinelLocation := by
      rw [← hacts]
      exact hsmall
    have hbnd2 : sfin.actions.length < sentinelLocation :=
      Nat.lt_of_le_of_lt (resolvePending_actions_le sfin) hbound
    exact resolvePending_no_sentinel (aux_sainv initial_sainv hsfin)
      (aux_sentInv initial_sainv initial_sentInv hsfin hbnd2) hbound i v hi

/-- C10 (witness): on `[block, block, css ".a", css ".b"]` the four locations
`[0, 0, 1, 1]` are one per rule and none is the sentinel. -/
theorem C10_witness :
    ([0, 0, 1, 1] : List Nat).length = C1wRules.length
    ∧ ∀ v ∈ ([0, 0, 1, 1] : List Nat), v ≠ sentinelLocation :=
  C10_one_location_per_rule_no_sentinel C1wRules
    [0, 2, 5, 0, 0, 0, 0, 46, 97, 44, 46, 98] [0, 0, 1, 1] rfl (by decide)

/-! ### The compilation orchestrator

`compileRuleList` is embedded from the source; the collaborators whose code
is not part of the excerpt (URL-filter parser, NFA/DFA pipeline, bytecode
compiler) are modelled from the spec as stated on each definition. -/

/-- `URLFilterParser::ParseStatus`, collapsed to the three classes the
orchestrator distinguishes: `Ok`, `MatchesEverything`, and every other
(failure) status with its reason string. -/
inductive ParseStatus where
  | Ok
  | MatchesEverything
  | Failed (reason : String)
  deriving DecidableEq, Repr

/-- One pattern merged into a combined filter graph: URL filter, case
sensitivity and the action-location-and-flags word of its rule. -/
structure PatternEntry where
  pattern : String
  patternIsCaseSensitive : Bool
  actionLocationAndFlags : Nat
  deriving DecidableEq, Repr

/-- One domain condition added to the condition filter graph. -/
structure DomainEntry where
  actionLocationAndFlags : Nat
  domain : String
  deriving DecidableEq, Repr

/-- Modelled from the spec: `URLFilterParser::addPattern` together with the
`CombinedURLFilters` graph it feeds.  The parsing heuristic lives in the
excluded front end, so an `oracle` reports each pattern's parse status; an
`Ok` pattern is merged into the graph, a `MatchesEverything` pattern must
NOT be inserted (its action is redirected by the caller), and a failed
pattern leaves the graph unchanged. -/
def addPattern (oracle : String → Bool → ParseStatus) (g : List PatternEntry)
    (pattern : String) (caseSensitive : Bool) (w : Nat) :
    List PatternEntry × ParseStatus :=
  match oracle pattern caseSensitive with
  | ParseStatus.Ok => (g ++ [⟨pattern, caseSensitive, w⟩], ParseStatus.Ok)
  | st => (g, st)

/-- A DFA as in the spec's data model: nodes with a byte-keyed transition
table and an (offset, length) action range into the shared action array;
one root. -/
structure DFANode where
  actionsStart : Nat
  actionsLength : Nat
  transitions : List (Nat × Nat)
  deriving DecidableEq, Repr

structure DFA where
  nodes : List DFANode
  root : Nat
  actions : List Nat
  deriving DecidableEq, Repr

/-- `DFANode::setActions`. -/
def DFANode.setActions (n : DFANode) (start len : Nat) : DFANode :=
  ⟨start, len, n.transitions⟩

/-- Modelled from the spec: `DFA::empty()`, the dummy DFA compiled when a
stream produced no automaton — a lone action-free root with no transitions. -/
def DFA.empty : DFA := ⟨[⟨0, 0, []⟩], 0, []⟩

/-- The action-location-and-flags words attached to a DFA's root (its
`actionsStart`/`actionsLength` range into the shared action array). -/
def rootActionWords (d : DFA) : List Nat :=
  ((d.actions.drop (d.nodes.getD d.root ⟨0, 0, []⟩).actionsStart).take
    (d.nodes.getD d.root ⟨0, 0, []⟩).actionsLength)

/-- The action words of a DFA outside its root's action range. -/
def nonRootActionWords (d : DFA) : List Nat :=
  d.actions.take (d.nodes.getD d.root ⟨0, 0, []⟩).actionsStart
    ++ d.actions.drop ((d.nodes.getD d.root ⟨0, 0, []⟩).actionsStart
        + (d.nodes.getD d.root ⟨0, 0, []⟩).actionsLength)

/-- `UniversalActionSet::add` (a hash set of 64-bit words, embedded as a
duplicate-free insertion-ordered list). -/
def uaAdd (s : List Nat) (w : Nat) : List Nat := if w ∈ s then s else s ++ [w]

/-- `addUniversalActionsToDFA`: append all universal action words to the
DFA's action array and hang them off the root.  `none` embeds the
release-level assertion "Too many uncombined actions that match everything"
(`actionsLength < std::numeric_limits<uint16_t>::max()`). -/
def addUniversalActionsToDFA (dfa : DFA) (universalActions : List Nat) : Option DFA :=
  if universalActions = [] then
    some dfa
  else
    let actionsStart := dfa.actions.length
    let newActions := dfa.actions ++ universalActions
    let actionsEnd := newActions.length
    let actionsLength := actionsEnd - actionsStart
    if actionsLength < 65535 then
      some { dfa with
        actions := newActions
        nodes := dfa.nodes.set dfa.root
          ((dfa.nodes.getD dfa.root ⟨0, 0, []⟩).setActions actionsStart actionsLength) }
    else
      none

/-- Modelled from the spec: the `IfConditionFlag` bit OR'd into the high 32
bits of the action-location-and-flags word when `conditionType == IfDomain`
(one bit of the upper half is reserved next to the resource flags). -/
def IfConditionFlag : Nat := 2 ^ 63

/-- The calls `ContentExtensionCompilationClient` receives, in order. -/
inductive SinkEvent where
  | writeActions (actionBytes : List Nat)
  | writeFiltersWithoutConditionsBytecode (chunk : DFA)
  | writeFiltersWithConditionsBytecode (chunk : DFA)
  | writeConditionedFiltersBytecode (chunk : DFA)
  | finalize
  deriving DecidableEq, Repr

/-- The error code `compileRuleList` returns: the empty code on success, or
`ContentExtensionError::JSONInvalidRegex`. -/
inductive CompileResult where
  | success
  | jsonInvalidRegex
  deriving DecidableEq, Repr

/-- The partition built by the per-rule loop of `compileRuleList`: the three
filter graphs and the two universal action sets. -/
structure RulePartition where
  filtersWithoutConditions : List PatternEntry
  filtersWithConditions : List PatternEntry
  conditionFilters : List DomainEntry
  universalActionsWithoutConditions : List Nat
  universalActionsWithConditions : List Nat
  deriving DecidableEq, Repr

def emptyPartition : RulePartition := ⟨[], [], [], [], []⟩

/-- The per-rule loop of `compileRuleList`: compute each rule's
action-location-and-flags word, feed unconditioned patterns to the
no-condition parser and conditioned ones (with the if-condition bit) to the
condition parser, redirect `MatchesEverything` patterns to the universal
action sets, add domain entries, and abort with `none`
(`ContentExtensionError::JSONInvalidRegex`) on the first failed pattern. -/
def ruleLoop (oracle : String → Bool → ParseStatus) :
    RulePartition → List (ContentExtensionRule × Nat) → Option RulePartition
  | s, [] => some s
  | s, (rule, loc) :: rest =>
    let trigger := rule.trigger
    let w0 := actionLocationAndFlags trigger.flags loc
    if trigger.conditions = [] then
      let res := addPattern oracle s.filtersWithoutConditions trigger.urlFilter
        trigger.urlFilterIsCaseSensitive w0
      match res.2 with
      | ParseStatus.Failed _ => none
      | ParseStatus.MatchesEverything =>
        ruleLoop oracle { s with
          filtersWithoutConditions := res.1
          universalActionsWithoutConditions :=
            uaAdd s.universalActionsWithoutConditions w0 } rest
      | ParseStatus.Ok =>
        ruleLoop oracle { s with filtersWithoutConditions := res.1 } rest
    else
      let w := if trigger.conditionType = ConditionType.IfDomain then
          w0 ||| IfConditionFlag
        else w0
      let res := addPattern oracle s.filtersWithConditions trigger.urlFilter
        trigger.urlFilterIsCaseSensitive w
      match res.2 with
      | ParseStatus.Failed _ => none
      | ParseStatus.MatchesEverything =>
        ruleLoop oracle { s with
          filtersWithConditions := res.1
          universalActionsWithConditions := uaAdd s.universalActionsWithConditions w
          conditionFilters := s.conditionFilters
            ++ trigger.conditions.map (fun c => ⟨w, c⟩) } rest
      | ParseStatus.Ok =>
        ruleLoop oracle { s with
          filtersWithConditions := res.1
          conditionFilters := s.conditionFilters
            ++ trigger.conditions.map (fun c => ⟨w, c⟩) } rest

/-- Modelled from the spec: one filter stream's lowering loop.
`DFABytecodeCompiler::compile` is abstracted by keeping the DFA itself as
the chunk written to the sink; the universal actions are attached to the
first DFA of the stream, and when the stream produced no DFA a dummy empty
DFA is compiled so the interpreter never faces an empty stream. -/
def lowerStream (dfas : List DFA) (universalActions : List Nat) : Option (List DFA) :=
  match dfas with
  | [] => (addUniversalActionsToDFA DFA.empty universalActions).map (fun d => [d])
  | first :: rest =>
    (addUniversalActionsToDFA first universalActions).map (fun d => d :: rest)

/-- `compileRuleList`.  The missing collaborators are abstracted:
`pipelineF` and `pipelineD` stand for the `processNFAs` → `NFAToDFA` →
minimize/combine pipeline, modelled from the spec as functions from the
final filter graph to the ordered list of DFAs handed to bytecode lowering;
rules arrive already parsed (the JSON front end is an external
collaborator).  `none` embeds a release-level fatal assertion; otherwise the
sink-event trace and the returned error code are produced. -/
def compileRuleList (pipelineF : List PatternEntry → List DFA)
    (pipelineD : List DomainEntry → List DFA)
    (oracle : String → Bool → ParseStatus)
    (rules : List ContentExtensionRule) : Option (List SinkEvent × CompileResult) :=
  match serializeActions rules with
  | none => none
  | some (actions, actionLocations) =>
    let events0 := [SinkEvent.writeActions actions]
    match ruleLoop oracle emptyPartition (rules.zip actionLocations) with
    | none => some (events0, CompileResult.jsonInvalidRegex)
    | some part =>
      match lowerStream (pipelineF part.filtersWithoutConditions)
          part.universalActionsWithoutConditions with
      | none => none
      | some chunksWithout =>
        match lowerStream (pipelineF part.filtersWithConditions)
            part.universalActionsWithConditions with
        | none => none
        | some chunksWith =>
          let condChunks := pipelineD part.conditionFilters
          some (events0
            ++ chunksWithout.map SinkEvent.writeFiltersWithoutConditionsBytecode
            ++ chunksWith.map SinkEvent.writeFiltersWithConditionsBytecode
            ++ condChunks.map SinkEvent.writeConditionedFiltersBytecode
            ++ [SinkEvent.finalize], CompileResult.success)

/-! ### Unfolding a successful compilation -/

theorem lowerStream_cons {dfas : List DFA} {ua : List Nat} {l : List DFA}
    (h : lowerStream dfas ua = some l) : ∃ c cs, l = c :: cs := by
  cases dfas with
  | nil =>
    simp only [lowerStream] at h
    cases ha : addUniversalActionsToDFA DFA.empty ua with
    | none => rw [ha] at h; exact Option.noConfusion h
    | some d =>
      rw [ha] at h
      simp only [Option.map_some', Option.some_inj] at h
      exact ⟨d, [], h.symm⟩
  | cons first rest =>
    simp only [lowerStream] at h
    cases ha : addUniversalActionsToDFA first ua with
    | none => rw [ha] at h; exact Option.noConfusion h
    | some d =>
      rw [ha] at h
      simp only [Option.map_some', Option.some_inj] at h
      exact ⟨d, rest, h.symm⟩

theorem compile_success_unfold {pF : List PatternEntry → List DFA}
    {pD : List DomainEntry → List DFA} {oracle : String → Bool → ParseStatus}
    {rules : List ContentExtensionRule} {tr : List SinkEvent}
    (h : compileRuleList pF pD oracle rules = some (tr, CompileResult.success)) :
    ∃ acts locs part cw cwith,
      serializeActions rules = some (acts, locs)
      ∧ ruleLoop oracle emptyPartition (rules.zip locs) = some part
      ∧ lowerStream (pF part.filtersWithoutConditions)
          part.universalActionsWithoutConditions = some cw
      ∧ lowerStream (pF part.filtersWithConditions)
          part.universalActionsWithConditions = some cwith
      ∧ tr = SinkEvent.writeActions acts
          :: (cw.map SinkEvent.writeFiltersWithoutConditionsBytecode
            ++ cwith.map SinkEvent.writeFiltersWithConditionsBytecode
            ++ (pD part.conditionFilters).map SinkEvent.writeConditionedFiltersBytecode
            ++ [SinkEvent.finalize]) := by
  simp only [compileRuleList] at h
  cases hsa : serializeActions rules with
  | none => rw [hsa] at h; exact Option.noConfusion h
  | some p =>
    obtain ⟨acts, locs⟩ := p
    rw [hsa] at h
    dsimp only at h
    cases hrl : ruleLoop oracle emptyPartition (rules.zip locs) with
    | none =>
      rw [hrl] at h
      dsimp only at h
      rw [Option.some_inj] at h
      exact absurd (congrArg Prod.snd h) (by simp)
    | some part =>
      rw [hrl] at h
      dsimp only at h
      cases hlw : lowerStream (pF part.filtersWithoutConditions)
          part.universalActionsWithoutConditions with
      | none => rw [hlw] at h; exact Option.noConfusion h
      | some cw =>
        rw [hlw] at h
        dsimp only at h
        cases hlw2 : lowerStream (pF part.filtersWithConditions)
            part.universalActionsWithConditions with
        | none => rw [hlw2] at h; exact Option.noConfusion h
        | some cwith =>
          rw [hlw2] at h
          dsimp only at h
          rw [Option.some_inj] at h
          refine ⟨acts, locs, part, cw, cwith, rfl, hrl, hlw, hlw2, ?_⟩
          have h2 := congrArg Prod.fst h
          simp only at h2
          rw [← h2]
          rfl

/-! ### Claim C6 -/

/-- C6: for the empty rule list, `compileRuleList` succeeds, the serialized
action buffer passed to `writeActions` is empty, exactly one dummy bytecode
chunk is written to each of the unconditioned and conditioned streams, and
zero chunks to the domain-condition stream. -/
theorem C6_empty_rule_list (pF : List PatternEntry → List DFA)
    (pD : List DomainEntry → List DFA) (oracle : String → Bool → ParseStatus)
    (hF : pF [] = []) (hD : pD [] = []) :
    compileRuleList pF pD oracle []
      = some ([SinkEvent.writeActions [],
          SinkEvent.writeFiltersWithoutConditionsBytecode DFA.empty,
          SinkEvent.writeFiltersWithConditionsBytecode DFA.empty,
          SinkEvent.finalize], CompileResult.success) := by
  have h1 : serializeActions ([] : List ContentExtensionRule) = some ([], []) := rfl
  have h2 : ruleLoop oracle emptyPartition (([] : List ContentExtensionRule).zip [])
      = some emptyPartition := rfl
  simp only [compileRuleList, h1, h2]
  rw [show emptyPartition.filtersWithoutConditions = [] from rfl,
    show emptyPartition.filtersWithConditions = [] from rfl,
    show emptyPartition.conditionFilters = [] from rfl, hF, hD]
  rfl

/-- C6 (witness): the empty rule list under trivial pipelines. -/
theorem C6_witness :
    compileRuleList (fun _ => []) (fun _ => []) (fun _ _ => ParseStatus.Ok) []
      = some ([SinkEvent.writeActions [],
          SinkEvent.writeFiltersWithoutConditionsBytecode DFA.empty,
          SinkEvent.writeFiltersWithConditionsBytecode DFA.empty,
          SinkEvent.finalize], CompileResult.success) :=
  C6_empty_rule_list (fun _ => []) (fun _ => []) (fun _ _ => ParseStatus.Ok) rfl rfl

/-! ### Claim C5 -/

def isWithoutWrite : SinkEvent → Bool
  | SinkEvent.writeFiltersWithoutConditionsBytecode _ => true
  | _ => false

def isWithWrite : SinkEvent → Bool
  | SinkEvent.writeFiltersWithConditionsBytecode _ => true
  | _ => false

def isCondWrite : SinkEvent → Bool
  | SinkEvent.writeConditionedFiltersBytecode _ => true
  | _ => false

def C5cexTrace : List SinkEvent :=
  [SinkEvent.writeActions [],
    SinkEvent.writeFiltersWithoutConditionsBytecode DFA.empty,
    SinkEvent.writeFiltersWithConditionsBytecode DFA.empty,
    SinkEvent.finalize]

/-- C5 (counterexample): a successful compilation (of the empty rule list,
with no domain conditions) writes zero chunks to the domain-condition
stream, so not every stream receives at least one chunk. -/
theorem C5_counterexample :
    compileRuleList (fun _ => []) (fun _ => []) (fun _ _ => ParseStatus.Ok) []
      = some (C5cexTrace, CompileResult.success)
    ∧ C5cexTrace.countP isCondWrite = 0 := by
  exact ⟨rfl, rfl⟩

/-- C5 (amended): every successful compilation writes at least one bytecode
chunk to each of the unconditioned and conditioned streams — even when a
stream has no filters, a dummy zero-filter DFA is still compiled — while the
domain-condition stream receives one chunk per condition DFA and may receive
none. -/
theorem C5_filter_streams_nonempty (pF : List PatternEntry → List DFA)
    (pD : List DomainEntry → List DFA) (oracle : String → Bool → ParseStatus)
    (rules : List ContentExtensionRule) (tr : List SinkEvent)
    (h : compileRuleList pF pD oracle rules = some (tr, CompileResult.success)) :
    1 ≤ tr.countP isWithoutWrite ∧ 1 ≤ tr.countP isWithWrite := by
  obtain ⟨acts, locs, part, cw, cwith, hsa, hrl, hlw, hlw2, htr⟩ :=
    compile_success_unfold h
  obtain ⟨c, cs, hcw⟩ := lowerStream_cons hlw
  obtain ⟨c2, cs2, hcw2⟩ := lowerStream_cons hlw2
  subst htr
  subst hcw
  subst hcw2
  constructor
  · refine List.countP_pos_iff.mpr ?_
    refine ⟨SinkEvent.writeFiltersWithoutConditionsBytecode c, ?_, rfl⟩
    refine List.mem_cons_of_mem _ (List.mem_append_left _ (List.mem_append_left _
      (List.mem_append_left _ ?_)))
    exact List.mem_map_of_mem _ (List.mem_cons_self _ _)
  · refine List.countP_pos_iff.mpr ?_
    refine ⟨SinkEvent.writeFiltersWithConditionsBytecode c2, ?_, rfl⟩
    refine List.mem_cons_of_mem _ (List.mem_append_left _ (List.mem_append_left _
      (List.mem_append_right _ ?_)))
    exact List.mem_map_of_mem _ (List.mem_cons_self _ _)

/-- C5 (witness): the empty compilation's trace has one chunk in each filter
stream. -/
theorem C5_witness :
    1 ≤ C5cexTrace.countP isWithoutWrite ∧ 1 ≤ C5cexTrace.countP isWithWrite :=
  C5_filter_streams_nonempty (fun _ => []) (fun _ => []) (fun _ _ => ParseStatus.Ok)
    [] C5cexTrace rfl

/-! ### Claim C7 -/

/-- C7: on every successful compilation the sink receives, in this order,
one `writeActions`, then all `writeFiltersWithoutConditionsBytecode` calls
(at least one), then all `writeFiltersWithConditionsBytecode` calls (at
least one), then zero or more `writeConditionedFiltersBytecode` calls, then
one `finalize`; no call of an earlier kind occurs after a later kind. -/
theorem C7_sink_event_order (pF : List PatternEntry → List DFA)
    (pD : List DomainEntry → List DFA) (oracle : String → Bool → ParseStatus)
    (rules : List ContentExtensionRule) (tr : List SinkEvent)
    (h : compileRuleList pF pD oracle rules = some (tr, CompileResult.success)) :
    ∃ (a : List Nat) (l1 l2 l3 : List DFA), tr = SinkEvent.writeActions a
        :: (l1.map SinkEvent.writeFiltersWithoutConditionsBytecode
          ++ l2.map SinkEvent.writeFiltersWithConditionsBytecode
          ++ l3.map SinkEvent.writeConditionedFiltersBytecode
          ++ [SinkEvent.finalize])
      ∧ l1 ≠ [] ∧ l2 ≠ [] := by
  obtain ⟨acts, locs, part, cw, cwith, hsa, hrl, hlw, hlw2, htr⟩ :=
    compile_success_unfold h
  obtain ⟨c, cs, hcw⟩ := lowerStream_cons hlw
  obtain ⟨c2, cs2, hcw2⟩ := lowerStream_cons hlw2
  exact ⟨acts, cw, cwith, pD part.conditionFilters, htr,
    by rw [hcw]; exact List.cons_ne_nil _ _,
    by rw [hcw2]; exact List.cons_ne_nil _ _⟩

/-- C7 (witness): the empty compilation's trace in the stated shape. -/
theorem C7_witness :
    ∃ (a : List Nat) (l1 l2 l3 : List DFA), C5cexTrace = SinkEvent.writeActions a
        :: (l1.map SinkEvent.writeFiltersWithoutConditionsBytecode
          ++ l2.map SinkEvent.writeFiltersWithConditionsBytecode
          ++ l3.map SinkEvent.writeConditionedFiltersBytecode
          ++ [SinkEvent.finalize])
      ∧ l1 ≠ [] ∧ l2 ≠ [] :=
  C7_sink_event_order (fun _ => []) (fun _ => []) (fun _ _ => ParseStatus.Ok)
    [] C5cexTrace rfl

/-! ### Claim C8 -/

/-- C8: the number of universal action words attached to a DFA root must fit
the 16-bit length field: attachment succeeds whenever the count is below
`2^16 - 1 = 65535`, and otherwise hits the release-level fatal assertion
("Too many uncombined actions that match everything", embedded as `none`)
rather than returning a recoverable error. -/
theorem C8_universal_actions_fit_16bit :
    (∀ (dfa : DFA) (ua : List Nat), ua.length < 65535 →
      (addUniversalActionsToDFA dfa ua).isSome = true)
    ∧ (∀ (dfa : DFA) (ua : List Nat), ua ≠ [] → 65535 ≤ ua.length →
      addUniversalActionsToDFA dfa ua = none)
    ∧ 65535 = 2 ^ 16 - 1 := by
  refine ⟨?_, ?_, by decide⟩
  · intro dfa ua hlt
    simp only [addUniversalActionsToDFA]
    split
    · rfl
    · have hlen : (dfa.actions ++ ua).length - dfa.actions.length = ua.length := by
        rw [List.length_append]
        omega
      rw [hlen, if_pos hlt]
      rfl
  · intro dfa ua hne hge
    simp only [addUniversalActionsToDFA, hne, if_neg, if_false]
    have hlen : (dfa.actions ++ ua).length - dfa.actions.length = ua.length := by
      rw [List.length_append]
      omega
    rw [hlen, if_neg (by omega)]

/-- C8 (witness): three universal actions attach; 65535 do not. -/
theorem C8_witness :
    ((List.replicate 3 (5 : Nat)).length < 65535
      ∧ (addUniversalActionsToDFA DFA.empty (List.replicate 3 5)).isSome = true)
    ∧ (List.replicate 65535 (5 : Nat) ≠ []
      ∧ 65535 ≤ (List.replicate 65535 (5 : Nat)).length
      ∧ addUniversalActionsToDFA DFA.empty (List.replicate 65535 5) = none) := by
  have h3 : (List.replicate 3 (5 : Nat)).length < 65535 := by
    rw [List.length_replicate]
    omega
  have hne : List.replicate 65535 (5 : Nat) ≠ [] := by
    refine List.length_pos.mp ?_
    rw [List.length_replicate]
    omega
  have hge : 65535 ≤ (List.replicate 65535 (5 : Nat)).length := by
    rw [List.length_replicate]
  exact ⟨⟨h3, C8_universal_actions_fit_16bit.1 DFA.empty _ h3⟩,
    ⟨hne, hge, C8_universal_actions_fit_16bit.2.1 DFA.empty _ hne hge⟩⟩

/-! ### Claim C9 -/

/-- A rule whose `urlFilter` the regex front end rejects. -/
def ruleFails (oracle : String → Bool → ParseStatus) (r : ContentExtensionRule) : Prop :=
  ∃ e, oracle r.trigger.urlFilter r.trigger.urlFilterIsCaseSensitive
    = ParseStatus.Failed e

theorem serializeActions_locs_length {rules : List ContentExtensionRule}
    {acts locs : List Nat} (h : serializeActions rules = some (acts, locs)) :
    locs.length = rules.length := by
  obtain ⟨sfin, haux, _, hlocs⟩ := serializeActions_unpack h
  rw [hlocs, resolvePending_locs_length, aux_locs_length haux]
  simp [initialSAState]

theorem ruleLoop_head_failed (oracle : String → Bool → ParseStatus)
    (s : RulePartition) (r : ContentExtensionRule) (loc : Nat)
    (rest : List (ContentExtensionRule × Nat)) (e : String)
    (horacle : oracle r.trigger.urlFilter r.trigger.urlFilterIsCaseSensitive
      = ParseStatus.Failed e) :
    ruleLoop oracle s ((r, loc) :: rest) = none := by
  by_cases hc : r.trigger.conditions = []
  · simp only [ruleLoop, addPattern, horacle, if_pos hc]
  · simp only [ruleLoop, addPattern, horacle, if_neg hc]

theorem exists_fails_cons {oracle : String → Bool → ParseStatus}
    {r : ContentExtensionRule} {loc : Nat}
    {rest : List (ContentExtensionRule × Nat)} (hok : ¬ ruleFails oracle r) :
    (∃ q ∈ rest, ruleFails oracle q.1)
      ↔ (∃ q ∈ (r, loc) :: rest, ruleFails oracle q.1) := by
  constructor
  · rintro ⟨q, hq, hf⟩
    exact ⟨q, List.mem_cons_of_mem _ hq, hf⟩
  · rintro ⟨q, hq, hf⟩
    rcases List.mem_cons.mp hq with h1 | h1
    · subst h1
      exact absurd hf hok
    · exact ⟨q, h1, hf⟩

theorem ruleLoop_none_iff (oracle : String → Bool → ParseStatus)
    (pairs : List (ContentExtensionRule × Nat)) (s : RulePartition) :
    ruleLoop oracle s pairs = none ↔ ∃ p ∈ pairs, ruleFails oracle p.1 := by
  induction pairs generalizing s with
  | nil => simp [ruleLoop]
  | cons p rest ih =>
    obtain ⟨r, loc⟩ := p
    cases horacle : oracle r.trigger.urlFilter r.trigger.urlFilterIsCaseSensitive with
    | Failed e =>
      rw [ruleLoop_head_failed oracle s r loc rest e horacle]
      exact ⟨fun _ => ⟨(r, loc), List.mem_cons_self _ _, ⟨e, horacle⟩⟩, fun _ => rfl⟩
    | Ok =>
      have hok : ¬ ruleFails oracle r := by
        rintro ⟨e, he⟩
        rw [horacle] at he
        exact ParseStatus.noConfusion he
      by_cases hc : r.trigger.conditions = []
      · simp only [ruleLoop, addPattern, horacle, if_pos hc]
        rw [ih]
        exact exists_fails_cons hok
      · simp only [ruleLoop, addPattern, horacle, if_neg hc]
        rw [ih]
        exact exists_fails_cons hok
    | MatchesEverything =>
      have hok : ¬ ruleFails oracle r := by
        rintro ⟨e, he⟩
        rw [horacle] at he
        exact ParseStatus.noConfusion he
      by_cases hc : r.trigger.conditions = []
      · simp only [ruleLoop, addPattern, horacle, if_pos hc]
        rw [ih]
        exact exists_fails_cons hok
      · simp only [ruleLoop, addPattern, horacle, if_neg hc]
        rw [ih]
        exact exists_fails_cons hok

/-- C9: if any rule's regular expression fails to parse, `compileRuleList`
returns `ContentExtensionError::JSONInvalidRegex` after having sent only the
`writeActions` call — `finalize` is never reached; if every rule parses,
compilation succeeds and the last sink call is `finalize`. -/
theorem C9_invalid_regex_aborts (pF : List PatternEntry → List DFA)
    (pD : List DomainEntry → List DFA) (oracle : String → Bool → ParseStatus)
    (rules : List ContentExtensionRule) (tr : List SinkEvent) (res : CompileResult)
    (h : compileRuleList pF pD oracle rules = some (tr, res)) :
    ((∃ r ∈ rules, ruleFails oracle r) →
      res = CompileResult.jsonInvalidRegex
      ∧ (∃ acts, tr = [SinkEvent.writeActions acts])
      ∧ SinkEvent.finalize ∉ tr)
    ∧ ((∀ r ∈ rules, ¬ ruleFails oracle r) →
      res = CompileResult.success ∧ tr.getLast? = some SinkEvent.finalize) := by
  have hkey : ∀ (locs : List Nat), locs.length = rules.length →
      ((∃ q ∈ rules.zip locs, ruleFails oracle q.1) ↔ ∃ r ∈ rules, ruleFails oracle r) := by
    intro locs hlen
    have hmapfst : (rules.zip locs).map Prod.fst = rules :=
      List.map_fst_zip _ _ (le_of_eq hlen.symm)
    constructor
    · rintro ⟨q, hq, hf⟩
      refine ⟨q.1, ?_, hf⟩
      rw [← hmapfst]
      exact List.mem_map_of_mem _ hq
    · rintro ⟨r, hr, hf⟩
      rw [← hmapfst] at hr
      obtain ⟨q, hq, hqe⟩ := List.mem_map.mp hr
      exact ⟨q, hq, hqe ▸ hf⟩
  cases res with
  | success =>
    obtain ⟨acts, locs, part, cw, cwith, hsa, hrl, hlw, hlw2, htr⟩ :=
      compile_success_unfold h
    have hlen : locs.length = rules.length := serializeActions_locs_length hsa
    constructor
    · intro hex
      exfalso
      have hnone := (ruleLoop_none_iff oracle (rules.zip locs) emptyPartition).mpr
        ((hkey locs hlen).mpr hex)
      rw [hrl] at hnone
      exact Option.noConfusion hnone
    · intro hall
      refine ⟨rfl, ?_⟩
      have hconcat : tr = (SinkEvent.writeActions acts
          :: (cw.map SinkEvent.writeFiltersWithoutConditionsBytecode
            ++ cwith.map SinkEvent.writeFiltersWithConditionsBytecode
            ++ (pD part.conditionFilters).map
                SinkEvent.writeConditionedFiltersBytecode))
          ++ SinkEvent.finalize :: [] := by
        rw [htr]
        simp [List.cons_append, List.append_assoc]
      rw [hconcat, List.getLast?_append_cons]
      rfl
  | jsonInvalidRegex =>
    simp only [compileRuleList] at h
    cases hsa : serializeActions rules with
    | none => rw [hsa] at h; exact Option.noConfusion h
    | some p =>
      obtain ⟨acts, locs⟩ := p
      rw [hsa] at h
      dsimp only at h
      have hlen : locs.length = rules.length := serializeActions_locs_length hsa
      cases hrl : ruleLoop oracle emptyPartition (rules.zip locs) with
      | none =>
        rw [hrl] at h
        dsimp only at h
        rw [Option.some_inj, Prod.mk.injEq] at h
        obtain ⟨htr, _⟩ := h
        constructor
        · intro _
          refine ⟨rfl, ⟨acts, htr.symm⟩, ?_⟩
          rw [← htr]
          simp
        · intro hall
          exfalso
          obtain ⟨q, hq, hf⟩ :=
            (ruleLoop_none_iff oracle (rules.zip locs) emptyPartition).mp hrl
          obtain ⟨r, hr, hf2⟩ := (hkey locs hlen).mp ⟨q, hq, hf⟩
          exact hall r hr hf2
      | some part =>
        rw [hrl] at h
        dsimp only at h
        cases hlw : lowerStream (pF part.filtersWithoutConditions)
            part.universalActionsWithoutConditions with
        | none => rw [hlw] at h; exact Option.noConfusion h
        | some cw =>
          rw [hlw] at h
          dsimp only at h
          cases hlw2 : lowerStream (pF part.filtersWithConditions)
              part.universalActionsWithConditions with
          | none => rw [hlw2] at h; exact Option.noConfusion h
          | some cwith =>
            rw [hlw2] at h
            dsimp only at h
            rw [Option.some_inj] at h
            exact absurd (congrArg Prod.snd h) (by simp)

/-- C9 (witness): a one-rule list whose pattern fails to parse yields the
`jsonInvalidRegex` trace, and the empty rule list under the same oracle
finalizes. -/
theorem C9_witness :
    (compileRuleList (fun _ => []) (fun _ => [])
        (fun _ _ => ParseStatus.Failed "bad") [blockRule]
      = some ([SinkEvent.writeActions [0]], CompileResult.jsonInvalidRegex))
    ∧ ((∃ r ∈ [blockRule], ruleFails (fun _ _ => ParseStatus.Failed "bad") r) →
        CompileResult.jsonInvalidRegex = CompileResult.jsonInvalidRegex
        ∧ (∃ acts, [SinkEvent.writeActions ([0] : List Nat)]
            = [SinkEvent.writeActions acts])
        ∧ SinkEvent.finalize ∉ [SinkEvent.writeActions ([0] : List Nat)]) := by
  refine ⟨rfl, ?_⟩
  exact (C9_invalid_regex_aborts (fun _ => []) (fun _ => [])
    (fun _ _ => ParseStatus.Failed "bad") [blockRule] _ _ rfl).1

/-! ### Claim C3 -/

theorem uaAdd_mem {s : List Nat} {w0 w : Nat} (hw : w ∈ s) : w ∈ uaAdd s w0 := by
  simp only [uaAdd]
  split
  · exact hw
  · exact List.mem_append_left _ hw

theorem uaAdd_self_mem {s : List Nat} {w : Nat} : w ∈ uaAdd s w := by
  simp only [uaAdd]
  split
  · rename_i hmem
    exact hmem
  · exact List.mem_append_right _ (List.mem_singleton_self _)

theorem uaAdd_nodup {s : List Nat} {w : Nat} (h : s.Nodup) : (uaAdd s w).Nodup := by
  simp only [uaAdd]
  split
  · exact h
  · rename_i hnot
    refine List.nodup_append.mpr ⟨h, List.nodup_singleton _, ?_⟩
    intro a ha hb
    rw [List.mem_singleton] at hb
    subst hb
    exact hnot ha

/-- The action-location-and-flags word of a conditioned rule as the per-rule
loop computes it: the `IfConditionFlag` bit is OR'd in when the condition
type is `IfDomain`. -/
def conditionedWord (t : Trigger) (loc : Nat) : Nat :=
  if t.conditionType = ConditionType.IfDomain then
    actionLocationAndFlags t.flags loc ||| IfConditionFlag
  else
    actionLocationAndFlags t.flags loc

theorem ruleLoop_cons_facts {oracle : String → Bool → ParseStatus}
    {s part : RulePartition} {r0 : ContentExtensionRule} {loc0 : Nat}
    {rest : List (ContentExtensionRule × Nat)}
    (h : ruleLoop oracle s ((r0, loc0) :: rest) = some part) :
    ∃ s2, ruleLoop oracle s2 rest = some part
      ∧ (∀ e ∈ s2.filtersWithoutConditions, e ∈ s.filtersWithoutConditions
          ∨ oracle e.pattern e.patternIsCaseSensitive = ParseStatus.Ok)
      ∧ (∀ e ∈ s2.filtersWithConditions, e ∈ s.filtersWithConditions
          ∨ oracle e.pattern e.patternIsCaseSensitive = ParseStatus.Ok)
      ∧ (∀ w ∈ s.universalActionsWithoutConditions,
          w ∈ s2.universalActionsWithoutConditions)
      ∧ (∀ w ∈ s.universalActionsWithConditions,
          w ∈ s2.universalActionsWithConditions)
      ∧ (s.universalActionsWithoutConditions.Nodup →
          s2.universalActionsWithoutConditions.Nodup)
      ∧ (s.universalActionsWithConditions.Nodup →
          s2.universalActionsWithConditions.Nodup)
      ∧ (r0.trigger.conditions = []
          → oracle r0.trigger.urlFilter r0.trigger.urlFilterIsCaseSensitive
              = ParseStatus.MatchesEverything
          → actionLocationAndFlags r0.trigger.flags loc0
              ∈ s2.universalActionsWithoutConditions)
      ∧ (r0.trigger.conditions ≠ []
          → oracle r0.trigger.urlFilter r0.trigger.urlFilterIsCaseSensitive
              = ParseStatus.MatchesEverything
          → conditionedWord r0.trigger loc0
              ∈ s2.universalActionsWithConditions) := by
  by_cases hc : r0.trigger.conditions = []
  · cases horacle : oracle r0.trigger.urlFilter r0.trigger.urlFilterIsCaseSensitive with
    | Failed e =>
      rw [ruleLoop_head_failed oracle s r0 loc0 rest e horacle] at h
      exact Option.noConfusion h
    | Ok =>
      simp only [ruleLoop, addPattern, horacle, if_pos hc] at h
      refine ⟨_, h, ?_, fun e he => Or.inl he, fun w hw => hw, fun w hw => hw,
        fun hn => hn, fun hn => hn, ?_, fun hnc2 _ => absurd hc hnc2⟩
      · intro e he
        rcases List.mem_append.mp he with h1 | h1
        · exact Or.inl h1
        · right
          rw [List.mem_singleton] at h1
          subst h1
          exact horacle
      · intro _ hme2
        exact ParseStatus.noConfusion hme2
    | MatchesEverything =>
      simp only [ruleLoop, addPattern, horacle, if_pos hc] at h
      refine ⟨_, h, fun e he => Or.inl he, fun e he => Or.inl he,
        fun w hw => uaAdd_mem hw, fun w hw => hw, fun hn => uaAdd_nodup hn,
        fun hn => hn, fun _ _ => uaAdd_self_mem, fun hnc2 _ => absurd hc hnc2⟩
  · cases horacle : oracle r0.trigger.urlFilter r0.trigger.urlFilterIsCaseSensitive with
    | Failed e =>
      rw [ruleLoop_head_failed oracle s r0 loc0 rest e horacle] at h
      exact Option.noConfusion h
    | Ok =>
      simp only [ruleLoop, addPattern, horacle, if_neg hc] at h
      refine ⟨_, h, fun e he => Or.inl he, ?_, fun w hw => hw, fun w hw => hw,
        fun hn => hn, fun hn => hn, fun hnc2 _ => absurd hnc2 hc, ?_⟩
      · intro e he
        rcases List.mem_append.mp he with h1 | h1
        · exact Or.inl h1
        · right
          rw [List.mem_singleton] at h1
          subst h1
          exact horacle
      · intro _ hme2
        exact ParseStatus.noConfusion hme2
    | MatchesEverything =>
      simp only [ruleLoop, addPattern, horacle, if_neg hc] at h
      refine ⟨_, h, fun e he => Or.inl he, fun e he => Or.inl he,
        fun w hw => hw, fun w hw => uaAdd_mem hw, fun hn => hn,
        fun hn => uaAdd_nodup hn, fun hnc2 _ => absurd hnc2 hc,
        fun _ _ => uaAdd_self_mem⟩

theorem ruleLoop_main {oracle : String → Bool → ParseStatus}
    {pairs : List (ContentExtensionRule × Nat)} {s part : RulePartition}
    (h : ruleLoop oracle s pairs = some part) :
    (∀ e ∈ part.filtersWithoutConditions, e ∈ s.filtersWithoutConditions
        ∨ oracle e.pattern e.patternIsCaseSensitive = ParseStatus.Ok)
    ∧ (∀ e ∈ part.filtersWithConditions, e ∈ s.filtersWithConditions
        ∨ oracle e.pattern e.patternIsCaseSensitive = ParseStatus.Ok)
    ∧ (∀ w ∈ s.universalActionsWithoutConditions,
        w ∈ part.universalActionsWithoutConditions)
    ∧ (∀ w ∈ s.universalActionsWithConditions,
        w ∈ part.universalActionsWithConditions)
    ∧ (s.universalActionsWithoutConditions.Nodup →
        part.universalActionsWithoutConditions.Nodup)
    ∧ (s.universalActionsWithConditions.Nodup →
        part.universalActionsWithConditions.Nodup)
    ∧ (∀ (r : ContentExtensionRule) (loc : Nat), (r, loc) ∈ pairs →
        r.trigger.conditions = [] →
        oracle r.trigger.urlFilter r.trigger.urlFilterIsCaseSensitive
          = ParseStatus.MatchesEverything →
        actionLocationAndFlags r.trigger.flags loc
          ∈ part.universalActionsWithoutConditions)
    ∧ (∀ (r : ContentExtensionRule) (loc : Nat), (r, loc) ∈ pairs →
        r.trigger.conditions ≠ [] →
        oracle r.trigger.urlFilter r.trigger.urlFilterIsCaseSensitive
          = ParseStatus.MatchesEverything →
        conditionedWord r.trigger loc
          ∈ part.universalActionsWithConditions) := by
  induction pairs generalizing s with
  | nil =>
    have h2 : some s = some part := h
    obtain rfl := Option.some_inj.mp h2
    exact ⟨fun e he => Or.inl he, fun e he => Or.inl he, fun w hw => hw,
      fun w hw => hw, fun hn => hn, fun hn => hn,
      fun r loc hmem _ _ => absurd hmem (List.not_mem_nil _),
      fun r loc hmem _ _ => absurd hmem (List.not_mem_nil _)⟩
  | cons p rest ih =>
    obtain ⟨r0, loc0⟩ := p
    obtain ⟨s2, h2, hfw1, hfw2, hua1, hua2, hnd1, hnd2, hhead1, hhead2⟩ :=
      ruleLoop_cons_facts h
    obtain ⟨ih1, ih2, ih3, ih4, ih5, ih6, ih7, ih8⟩ := ih h2
    refine ⟨?_, ?_, ?_, ?_, ?_, ?_, ?_, ?_⟩
    · intro e he
      rcases ih1 e he with h1 | h1
      · exact hfw1 e h1
      · exact Or.inr h1
    · intro e he
      rcases ih2 e he with h1 | h1
      · exact hfw2 e h1
      · exact Or.inr h1
    · intro w hw
      exact ih3 w (hua1 w hw)
    · intro w hw
      exact ih4 w (hua2 w hw)
    · intro hn
      exact ih5 (hnd1 hn)
    · intro hn
      exact ih6 (hnd2 hn)
    · intro r loc hmem hnc hme2
      rcases List.mem_cons.mp hmem with h1 | h1
      · rw [Prod.mk.injEq] at h1
        obtain ⟨hr, hl⟩ := h1
        subst hr
        subst hl
        exact ih3 _ (hhead1 hnc hme2)
      · exact ih7 r loc h1 hnc hme2
    · intro r loc hmem hnc hme2
      rcases List.mem_cons.mp hmem with h1 | h1
      · rw [Prod.mk.injEq] at h1
        obtain ⟨hr, hl⟩ := h1
        subst hr
        subst hl
        exact ih4 _ (hhead2 hnc hme2)
      · exact ih8 r loc h1 hnc hme2

theorem addUA_attach {dfa : DFA} {ua : List Nat} {d : DFA}
    (hroot : dfa.root < dfa.nodes.length) (hne : ua ≠ [])
    (h : addUniversalActionsToDFA dfa ua = some d) :
    rootActionWords d = ua := by
  simp only [addUniversalActionsToDFA] at h
  rw [if_neg hne] at h
  have hlen : (dfa.actions ++ ua).length - dfa.actions.length = ua.length := by
    rw [List.length_append]
    omega
  rw [hlen] at h
  by_cases hlt : ua.length < 65535
  · rw [if_pos hlt] at h
    obtain hd := (Option.some_inj.mp h).symm
    subst hd
    simp only [rootActionWords, DFANode.setActions]
    have hget : ((dfa.nodes.set dfa.root
        (⟨dfa.actions.length, ua.length,
          (dfa.nodes.getD dfa.root ⟨0, 0, []⟩).transitions⟩ : DFANode)).getD
        dfa.root ⟨0, 0, []⟩)
        = ⟨dfa.actions.length, ua.length,
            (dfa.nodes.getD dfa.root ⟨0, 0, []⟩).transitions⟩ := by
      simp only [List.getD, List.get?_eq_getElem?]
      rw [List.getElem?_set_self (by omega)]
      rfl
    rw [hget]
    rw [List.drop_left]
    simp
  · rw [if_neg hlt] at h
    exact Option.noConfusion h

theorem lowerStream_attach {dfas : List DFA} {ua : List Nat} {c : DFA} {cs : List DFA}
    (h : lowerStream dfas ua = some (c :: cs))
    (hroot : ∀ d ∈ dfas, d.root < d.nodes.length) (hne : ua ≠ []) :
    rootActionWords c = ua := by
  cases dfas with
  | nil =>
    simp only [lowerStream] at h
    cases ha : addUniversalActionsToDFA DFA.empty ua with
    | none => rw [ha] at h; exact Option.noConfusion h
    | some d =>
      rw [ha] at h
      simp only [Option.map_some', Option.some_inj] at h
      rw [List.cons.injEq] at h
      obtain ⟨hd, _⟩ := h
      subst hd
      exact addUA_attach (by decide) hne ha
  | cons first rest =>
    simp only [lowerStream] at h
    cases ha : addUniversalActionsToDFA first ua with
    | none => rw [ha] at h; exact Option.noConfusion h
    | some d =>
      rw [ha] at h
      simp only [Option.map_some', Option.some_inj] at h
      rw [List.cons.injEq] at h
      obtain ⟨hd, _⟩ := h
      subst hd
      exact addUA_attach (hroot first (List.mem_cons_self _ _)) hne ha

/-- C3 (amended): a rule whose pattern is reported `MatchesEverything` is
never merged into either combined filter graph — every graph entry's pattern
parses `Ok` — and its action-location-and-flags word (with the if-domain bit
OR'd in for an if-domain conditioned rule) is placed in its respective
stream's universal action set, unconditioned or conditioned, which a
successful lowering attaches in full, each word exactly once, to the root
actions of the first bytecode chunk of that stream (the dummy empty DFA when
the stream had no filters).  The word itself may nevertheless also occur
inside the automata, namely when an `Ok` rule shares the same deduplicated
word (see the counterexample). -/
theorem C3_universal_action_attachment (pF : List PatternEntry → List DFA)
    (pD : List DomainEntry → List DFA) (oracle : String → Bool → ParseStatus)
    (rules : List ContentExtensionRule) (tr : List SinkEvent)
    (h : compileRuleList pF pD oracle rules = some (tr, CompileResult.success))
    (hroot : ∀ (g : List PatternEntry), ∀ d ∈ pF g, d.root < d.nodes.length)
    (i : Nat) (hi : i < rules.length)
    (hme : oracle (rules[i]).trigger.urlFilter (rules[i]).trigger.urlFilterIsCaseSensitive
      = ParseStatus.MatchesEverything) :
    ∃ (acts locs : List Nat) (part : RulePartition) (c1 c2 : DFA)
        (cs1 cs2 : List DFA) (loc : Nat),
      serializeActions rules = some (acts, locs)
      ∧ ruleLoop oracle emptyPartition (rules.zip locs) = some part
      ∧ locs[i]? = some loc
      ∧ (∀ e ∈ part.filtersWithoutConditions,
          oracle e.pattern e.patternIsCaseSensitive = ParseStatus.Ok)
      ∧ (∀ e ∈ part.filtersWithConditions,
          oracle e.pattern e.patternIsCaseSensitive = ParseStatus.Ok)
      ∧ lowerStream (pF part.filtersWithoutConditions)
          part.universalActionsWithoutConditions = some (c1 :: cs1)
      ∧ lowerStream (pF part.filtersWithConditions)
          part.universalActionsWithConditions = some (c2 :: cs2)
      ∧ tr = SinkEvent.writeActions acts
          :: ((c1 :: cs1).map SinkEvent.writeFiltersWithoutConditionsBytecode
            ++ (c2 :: cs2).map SinkEvent.writeFiltersWithConditionsBytecode
            ++ (pD part.conditionFilters).map SinkEvent.writeConditionedFiltersBytecode
            ++ [SinkEvent.finalize])
      ∧ ((rules[i]).trigger.conditions = [] →
          actionLocationAndFlags (rules[i]).trigger.flags loc
              ∈ part.universalActionsWithoutConditions
          ∧ rootActionWords c1 = part.universalActionsWithoutConditions
          ∧ (rootActionWords c1).count
              (actionLocationAndFlags (rules[i]).trigger.flags loc) = 1)
      ∧ ((rules[i]).trigger.conditions ≠ [] →
          conditionedWord (rules[i]).trigger loc
              ∈ part.universalActionsWithConditions
          ∧ rootActionWords c2 = part.universalActionsWithConditions
          ∧ (rootActionWords c2).count (conditionedWord (rules[i]).trigger loc) = 1) := by
  obtain ⟨acts, locs, part, cw, cwith, hsa, hrl, hlw, hlw2, htr⟩ :=
    compile_success_unfold h
  have hlen : locs.length = rules.length := serializeActions_locs_length hsa
  have hil : i < locs.length := by omega
  have hz : i < (rules.zip locs).length := by
    rw [List.length_zip]
    omega
  have hpmem := List.getElem_mem hz
  rw [List.getElem_zip] at hpmem
  obtain ⟨g1, g2, m1, m2, n1, n2, me1, me2⟩ := ruleLoop_main hrl
  have hgraph1 : ∀ e ∈ part.filtersWithoutConditions,
      oracle e.pattern e.patternIsCaseSensitive = ParseStatus.Ok := by
    intro e he
    rcases g1 e he with hcontra | hok
    · exact absurd hcontra (List.not_mem_nil e)
    · exact hok
  have hgraph2 : ∀ e ∈ part.filtersWithConditions,
      oracle e.pattern e.patternIsCaseSensitive = ParseStatus.Ok := by
    intro e he
    rcases g2 e he with hcontra | hok
    · exact absurd hcontra (List.not_mem_nil e)
    · exact hok
  obtain ⟨c1, cs1, hcw⟩ := lowerStream_cons hlw
  obtain ⟨c2, cs2, hcw2⟩ := lowerStream_cons hlw2
  subst hcw
  subst hcw2
  refine ⟨acts, locs, part, c1, c2, cs1, cs2, locs[i], hsa, hrl,
    List.getElem?_eq_getElem hil, hgraph1, hgraph2, hlw, hlw2, htr, ?_, ?_⟩
  · intro hnc
    have hw := me1 (rules[i]) locs[i] hpmem hnc hme
    have hnodup : part.universalActionsWithoutConditions.Nodup := n1 List.nodup_nil
    have hune : part.universalActionsWithoutConditions ≠ [] := List.ne_nil_of_mem hw
    have hrw := lowerStream_attach hlw (hroot _) hune
    refine ⟨hw, hrw, ?_⟩
    rw [hrw]
    exact List.count_eq_one_of_mem hnodup hw
  · intro hnc
    have hw := me2 (rules[i]) locs[i] hpmem hnc hme
    have hnodup : part.universalActionsWithConditions.Nodup := n2 List.nodup_nil
    have hune : part.universalActionsWithConditions ≠ [] := List.ne_nil_of_mem hw
    have hrw := lowerStream_attach hlw2 (hroot _) hune
    refine ⟨hw, hrw, ?_⟩
    rw [hrw]
    exact List.count_eq_one_of_mem hnodup hw

/-- The oracle of the C3 counterexample: the empty pattern matches every
URL, every other pattern parses. -/
def oracle3 : String → Bool → ParseStatus :=
  fun p _ => if p = "" then ParseStatus.MatchesEverything else ParseStatus.Ok

/-- A block rule whose pattern matches everything, sharing (type, flags)
with `blockRule`. -/
def emptyPatRule : ContentExtensionRule :=
  ⟨⟨"", false, 0, ConditionType.None, []⟩, ⟨ActionType.BlockLoad, ""⟩⟩

def C3cexRules : List ContentExtensionRule := [blockRule, emptyPatRule]

/-- The pipeline of the C3 counterexample: one DFA whose non-root node 1
carries all the graph's action words and one transition on byte 97. -/
def pF3 : List PatternEntry → List DFA :=
  fun g => [⟨[⟨0, 0, [(97, 1)]⟩, ⟨0, g.length, []⟩], 0,
    g.map (fun e => e.actionLocationAndFlags)⟩]

def C3cexChunk : DFA := ⟨[⟨1, 1, [(97, 1)]⟩, ⟨0, 1, []⟩], 0, [0, 0]⟩

def C3cexCondChunk : DFA := ⟨[⟨0, 0, [(97, 1)]⟩, ⟨0, 0, []⟩], 0, []⟩

def C3cexTrace : List SinkEvent :=
  [SinkEvent.writeActions [0],
    SinkEvent.writeFiltersWithoutConditionsBytecode C3cexChunk,
    SinkEvent.writeFiltersWithConditionsBytecode C3cexCondChunk,
    SinkEvent.finalize]

/-- C3 (counterexample): an `Ok` rule and a `MatchesEverything` rule with the
same action type and flags share one deduplicated action word (location 0),
so the word of the `MatchesEverything` rule appears both inside the automaton
(on non-root node actions, reachable by a transition) and attached to the
first chunk's root: it occurs twice in the chunk's action array, refuting
"never inserted into any automaton" and "attached exactly once". -/
theorem C3_counterexample :
    compileRuleList pF3 (fun _ => []) oracle3 C3cexRules
      = some (C3cexTrace, CompileResult.success)
    ∧ oracle3 emptyPatRule.trigger.urlFilter emptyPatRule.trigger.urlFilterIsCaseSensitive
      = ParseStatus.MatchesEverything
    ∧ serializeActions C3cexRules = some ([0], [0, 0])
    ∧ actionLocationAndFlags emptyPatRule.trigger.flags 0 = 0
    ∧ 0 ∈ rootActionWords C3cexChunk
    ∧ 0 ∈ nonRootActionWords C3cexChunk
    ∧ C3cexChunk.actions.count 0 = 2 := by
  exact ⟨rfl, rfl, rfl, rfl, by decide, by decide, rfl⟩

def C3wCondChunk : DFA := ⟨[⟨0, 1, []⟩], 0, [9223372036854775808]⟩

def C3wTrace : List SinkEvent :=
  [SinkEvent.writeActions [2, 2, 0, 0, 0, 0, 46, 120],
    SinkEvent.writeFiltersWithoutConditionsBytecode DFA.empty,
    SinkEvent.writeFiltersWithConditionsBytecode C3wCondChunk,
    SinkEvent.finalize]

/-- C3 (witness): a single matches-everything if-domain rule under an empty
pipeline: its flagged word lands in the conditioned stream's universal set
and on the root of that stream's dummy first chunk, exactly once. -/
theorem C3_witness :
    ∃ (acts locs : List Nat) (part : RulePartition) (c1 c2 : DFA)
        (cs1 cs2 : List DFA) (loc : Nat),
      serializeActions [condCssRule ".x"] = some (acts, locs)
      ∧ ruleLoop (fun _ _ => ParseStatus.MatchesEverything) emptyPartition
          ([condCssRule ".x"].zip locs) = some part
      ∧ locs[0]? = some loc
      ∧ (∀ e ∈ part.filtersWithoutConditions,
          (fun _ _ => ParseStatus.MatchesEverything) e.pattern e.patternIsCaseSensitive
            = ParseStatus.Ok)
      ∧ (∀ e ∈ part.filtersWithConditions,
          (fun _ _ => ParseStatus.MatchesEverything) e.pattern e.patternIsCaseSensitive
            = ParseStatus.Ok)
      ∧ lowerStream ((fun _ => []) part.filtersWithoutConditions)
          part.universalActionsWithoutConditions = some (c1 :: cs1)
      ∧ lowerStream ((fun _ => []) part.filtersWithConditions)
          part.universalActionsWithConditions = some (c2 :: cs2)
      ∧ C3wTrace = SinkEvent.writeActions acts
          :: ((c1 :: cs1).map SinkEvent.writeFiltersWithoutConditionsBytecode
            ++ (c2 :: cs2).map SinkEvent.writeFiltersWithConditionsBytecode
            ++ ((fun _ => []) part.conditionFilters).map
                SinkEvent.writeConditionedFiltersBytecode
            ++ [SinkEvent.finalize])
      ∧ ((condCssRule ".x").trigger.conditions = [] →
          actionLocationAndFlags (condCssRule ".x").trigger.flags loc
              ∈ part.universalActionsWithoutConditions
          ∧ rootActionWords c1 = part.universalActionsWithoutConditions
          ∧ (rootActionWords c1).count
              (actionLocationAndFlags (condCssRule ".x").trigger.flags loc) = 1)
      ∧ ((condCssRule ".x").trigger.conditions ≠ [] →
          conditionedWord (condCssRule ".x").trigger loc
              ∈ part.universalActionsWithConditions
          ∧ rootActionWords c2 = part.universalActionsWithConditions
          ∧ (rootActionWords c2).count
              (conditionedWord (condCssRule ".x").trigger loc) = 1) := by
  exact C3_universal_action_attachment (fun _ => []) (fun _ => [])
    (fun _ _ => ParseStatus.MatchesEverything) [condCssRule ".x"] C3wTrace rfl
    (fun g d hd => absurd hd (List.not_mem_nil d)) 0 (by decide) rfl

end ContentExtensions
